import Mathlib

/-!
# The dotfile installer (`installer.go`): backup, then link

A shallow embedding of `Installer.Install`, `Installer.install`,
`Installer.backup`, `Installer.backupPath` and of the loop of `main`, over an
explicit model of the operating-system calls they make.

## Scope of the file-system model

* Path strings are real strings; `Clean`, `Join` and `Dir` follow the lexical
  rules of Go's `path/filepath` on Unix.
* A location is the list of names from the root. Paths are resolved lexically:
  `..` steps to the parent location, and a symbolic link is a leaf object that
  is never followed. The kernel does follow a symbolic link that stands for a
  directory on the way to a name, so the calls of the model are the kernel's
  calls on paths that cross no symbolic link (`World.direct`); the theorems
  that conclude how a call ends (C2 and C10) carry that condition.
* Regular files carry their inode number, so that a hard link is observably a
  second name of the same file; the contents of an inode live in
  `World.content`, which no call made by the installer writes.
* What the system refuses for a reason the entries do not show (such as a name
  that is too long, a directory that may not be written, a second device) is a
  table of the machine, `World.refuse`, which no call changes. The calls that make or
  move a name consult it once the entries allow the request. Directories may
  always be searched, so `Lstat` depends on the entries only. Which error
  number is reported when several apply is not claimed.
* The entries are kept as a list of locations with what they name; the calls
  check that a new entry has a parent directory, so they keep a tree a tree,
  but the theorems do not assume that the list they start from is one.
* `os.MkdirTemp` draws its names from an explicit supply of decimal strings
  (`World.rnd`), and `World.temps` records the names it has returned.
* `log.Printf` output is not modelled; `log.Fatal` is the outcome `Run.exit`.

## Contents

Definitions: path strings, the file system and its calls, the installer, and
the example machines used to instantiate the theorems. Theorems: facts about
paths, about the entries after each call, and then one theorem per claim of
the specification (C1 to C10), each with an instance on an example machine
and, where the claim as written does not hold, a concrete run that shows it.
-/

namespace Dotfiles

/-! ## Path strings (`path/filepath`) -/

/-- The list `strings.Split(s, "/")`, on the characters of `s`. -/
def splitSlash : List Char → List (List Char)
  | [] => [[]]
  | c :: cs =>
    if c = '/' then [] :: splitSlash cs
    else
      match splitSlash cs with
      | [] => [[c]]
      | h :: t => (c :: h) :: t

/-- The `/`-separated segments of a path string. -/
def segs (s : String) : List String := (splitSlash s.data).map String.mk

/-- Whether the path string starts with the separator. -/
def isRooted (path : String) : Bool := path.data.head? = some '/'

/-- The element stack of `filepath.Clean`: empty and `.` elements are dropped,
`..` removes the preceding element when there is one that is not itself `..`,
is dropped at the root, and is kept in front of a relative path. -/
def cleanSegs (rooted : Bool) : List String → List String → List String
  | out, [] => out
  | out, s :: rest =>
    if s = "" ∨ s = "." then cleanSegs rooted out rest
    else if s = ".." then
      if out ≠ [] ∧ out.getLast? ≠ some ".." then cleanSegs rooted out.dropLast rest
      else if rooted then cleanSegs rooted out rest
      else cleanSegs rooted (out ++ [".."]) rest
    else cleanSegs rooted (out ++ [s]) rest

/-- The elements joined with single separators. -/
def joinSlash : List String → String
  | [] => ""
  | [s] => s
  | s :: t => s ++ "/" ++ joinSlash t

/-- Go's `filepath.Clean`. -/
def Clean (path : String) : String :=
  if path = "" then "."
  else
    let out := cleanSegs (isRooted path) [] (segs path)
    if isRooted path then "/" ++ joinSlash out
    else if out = [] then "." else joinSlash out

/-- Go's `filepath.Join` for two elements: empty elements are ignored, the rest
is joined with the separator and cleaned. -/
def Join (a b : String) : String :=
  if a ≠ "" then Clean (a ++ "/" ++ b)
  else if b ≠ "" then Clean b
  else ""

/-- The characters up to and including the last separator (none: empty). -/
def uptoLastSlash : List Char → List Char
  | [] => []
  | c :: cs =>
    if uptoLastSlash cs ≠ [] then c :: uptoLastSlash cs
    else if c = '/' then [c] else []

/-- Go's `filepath.Dir`: all but the last element of the path, cleaned. -/
def Dir (path : String) : String := Clean (String.mk (uptoLastSlash path.data))

/-- The elements of a destination read as a relative path (how `Join` reads
its second argument). -/
def relParts (dest : String) : List String := cleanSegs false [] (segs dest)

/-! ## The file system -/

/-- A location: the names from the root directory down. -/
abbrev Loc := List String

/-- What a directory entry names. -/
inductive Entry
  | file (ino : Nat)
  | symlink (target : String)
  | dir
deriving DecidableEq, Repr

/-- The `IsDir` of a `FileInfo`. -/
def Entry.IsDir : Entry → Bool
  | .dir => true
  | _ => false

/-- Error numbers of the system calls. -/
inductive Errno
  | ENOENT | EEXIST | ENOTDIR | EINVAL | EPERM | ENAMETOOLONG | EXDEV | EACCES
deriving DecidableEq, Repr

/-- A request that makes or moves a name, by the locations it concerns. -/
inductive Call
  | mkdir (p : Loc)
  | symlink (target : String) (p : Loc)
  | link (old new : Loc)
  | rename (old new : Loc)
deriving DecidableEq, Repr

/-- The state of the machine the process runs on. -/
structure World where
  /-- The directory entries, by location (the first match counts). -/
  fs : List (Loc × Entry)
  /-- The contents of regular files, by inode. -/
  content : Nat → String
  /-- The working directory of the process. -/
  cwd : Loc
  /-- The value of `os.TempDir()`. -/
  tmp : String
  /-- The decimal strings the random name generator produces, in order. -/
  rnd : Nat → List (Fin 10)
  /-- How many random names have been drawn. -/
  tick : Nat
  /-- The names `os.MkdirTemp` has returned, latest first. -/
  temps : List String
  /-- What the system refuses for a reason the entries do not show, such as a
  name that is too long, a directory that may not be written, another device. -/
  refuse : Call → Option Errno

/-- First match in the entry list. -/
def lookupFs : List (Loc × Entry) → Loc → Option Entry
  | [], _ => none
  | (q, e) :: rest, p => if q = p then some e else lookupFs rest p

/-- The entry at a location; the root directory always exists. -/
def World.look (w : World) (p : Loc) : Option Entry :=
  if p = [] then some .dir else lookupFs w.fs p

/-- A new entry at a location. -/
def World.put (w : World) (p : Loc) (e : Entry) : World :=
  { w with fs := (p, e) :: w.fs }

/-- Lexical walk from a location along path segments. -/
def walk : Loc → List String → Loc
  | here, [] => here
  | here, s :: rest =>
    if s = "" ∨ s = "." then walk here rest
    else if s = ".." then walk here.dropLast rest
    else walk (here ++ [s]) rest

/-- The location a path string names; the empty path names nothing. -/
def resolve (cwd : Loc) (path : String) : Option Loc :=
  if path = "" then none
  else some (walk (if isRooted path then [] else cwd) (segs path))

/-- The call `os.Lstat`: the entry itself, a final symbolic link not followed. -/
def Lstat (w : World) (name : String) : Except Errno Entry :=
  match resolve w.cwd name with
  | none => .error .ENOENT
  | some p =>
    match w.look p with
    | none => .error .ENOENT
    | some e => .ok e

/-- The check every creating call makes: nothing at the location yet, and its
parent is a directory. -/
def World.canCreate (w : World) (p : Loc) : Except Errno Unit :=
  if (w.look p).isSome then .error .EEXIST
  else
    match w.look p.dropLast with
    | some .dir => .ok ()
    | some _ => .error .ENOTDIR
    | none => .error .ENOENT

/-- The call `os.Mkdir`: fails when the entries do not allow the new directory,
or when the system refuses it. -/
def Mkdir (w : World) (name : String) : Except Errno World :=
  match resolve w.cwd name with
  | none => .error .ENOENT
  | some p =>
    match w.canCreate p with
    | .error e => .error e
    | .ok _ =>
      match w.refuse (.mkdir p) with
      | some e => .error e
      | none => .ok (w.put p .dir)

/-- The call `os.Symlink`: a new symbolic link at `newname` storing `oldname`,
unless the entries do not allow the new name or the system refuses it. The new
name is resolved lexically (see `World.direct`). -/
def Symlink (w : World) (oldname newname : String) : Except Errno World :=
  if oldname = "" then .error .ENOENT
  else
    match resolve w.cwd newname with
    | none => .error .ENOENT
    | some p =>
      match w.canCreate p with
      | .error e => .error e
      | .ok _ =>
        match w.refuse (.symlink oldname p) with
        | some e => .error e
        | none => .ok (w.put p (.symlink oldname))

/-- The call `os.Link`: a second name for the entry at `oldname` (not followed
when it is a symbolic link); directories cannot be hard-linked, and the system
may refuse the link (another device, a name too long, a directory that may not
be written). Both names are resolved lexically (see `World.direct`). -/
def Link (w : World) (oldname newname : String) : Except Errno World :=
  match resolve w.cwd oldname, resolve w.cwd newname with
  | some po, some pn =>
    match w.look po with
    | none => .error .ENOENT
    | some .dir => .error .EPERM
    | some e =>
      match w.canCreate pn with
      | .error err => .error err
      | .ok _ =>
        match w.refuse (.link po pn) with
        | some err => .error err
        | none => .ok (w.put pn e)
  | _, _ => .error .ENOENT

/-- The request `install` makes for a source `fi` found at `ps`, towards the
destination location `px`. -/
def linkCall (fi : Entry) (oldname : String) (ps px : Loc) : Call :=
  if fi.IsDir then .symlink oldname px else .link ps px

/-- Whether no symbolic link lies strictly above the location: the location is
then reached by the lexical walk of `resolve`, as the kernel reaches it. -/
def World.direct (w : World) (p : Loc) : Bool :=
  p.dropLast.inits.all (fun q =>
    match w.look q with
    | some (.symlink _) => false
    | _ => true)

/-- Two names of one regular file. -/
def sameFile : Entry → Entry → Bool
  | .file i, .file j => i == j
  | _, _ => false

/-- The entry list after the tree at `old` has taken the place of `new`. -/
def moveTree (fs : List (Loc × Entry)) (old new : Loc) : List (Loc × Entry) :=
  (fs.filter (fun x => !(new.isPrefixOf x.1))).map
    (fun x => if old.isPrefixOf x.1 then (new ++ x.1.drop old.length, x.2) else x)

/-- The call `os.Rename` on Unix. Go first refuses an existing directory as the
new name (unless it is the old one under another spelling); then `rename(2)`:
two names of one file are left alone, a tree cannot move into itself, the new
name needs a parent directory, an existing non-directory at the new name is
replaced (by a non-directory only); where the entries allow the move the
system may still refuse it (another device). The arm for a new name that is an
ancestor of the old one is reached only when the entry list is not a tree. -/
def Rename (w : World) (oldname newname : String) : Except Errno World :=
  match resolve w.cwd oldname, resolve w.cwd newname with
  | some po, some pn =>
    match w.look po with
    | none => .error .ENOENT
    | some eo =>
      if w.look pn = some .dir then
        if newname = oldname ∨ po ≠ pn then .error .EEXIST else .ok w
      else if po = pn then .ok w
      else if po.isPrefixOf pn then .error (if eo = .dir then .EINVAL else .ENOTDIR)
      else if pn.isPrefixOf po then .error .ENOTDIR
      else
        match w.look pn with
        | some en =>
          if sameFile eo en then .ok w
          else if eo = .dir then .error .ENOTDIR
          else
            match w.refuse (.rename po pn) with
            | some e => .error e
            | none => .ok { w with fs := moveTree w.fs po pn }
        | none =>
          match w.look pn.dropLast with
          | some .dir =>
            match w.refuse (.rename po pn) with
            | some e => .error e
            | none => .ok { w with fs := moveTree w.fs po pn }
          | some _ => .error .ENOTDIR
          | none => .error .ENOENT
  | _, _ => .error .ENOENT

/-- The directories of `os.MkdirAll`, from `base` down: an existing directory
is entered, a missing one is created unless the system refuses it, anything
else (a file, or a symbolic link, which is not followed here) is an error. -/
def mkdirAllFrom : World → Loc → List String → World × Option Errno
  | w, _, [] => (w, none)
  | w, base, n :: rest =>
    match w.look (base ++ [n]) with
    | some .dir => mkdirAllFrom w (base ++ [n]) rest
    | some _ => (w, some .ENOTDIR)
    | none =>
      match w.refuse (.mkdir (base ++ [n])) with
      | some e => (w, some e)
      | none => mkdirAllFrom (w.put (base ++ [n]) .dir) (base ++ [n]) rest

/-- The call `os.MkdirAll`. -/
def MkdirAll (w : World) (path : String) : World × Option Errno :=
  match resolve w.cwd path with
  | none => (w, some .ENOENT)
  | some p => mkdirAllFrom w [] p

/-- A decimal digit as a character. -/
def digitChar (d : Fin 10) : Char := Char.ofNat (48 + d.val)

/-- The next string of the random name generator. -/
def nextRandom (w : World) : String := String.mk ((w.rnd w.tick).map digitChar)

/-- The helper `joinPath` of package `os`: no second separator after a
directory that ends in one. -/
def joinPath (dir name : String) : String :=
  if dir.data.getLast? = some '/' then dir ++ name else dir ++ "/" ++ name

/-- The retry loop of `os.MkdirTemp`: a fresh random name per attempt, another
attempt only when the name exists, at most `n` attempts. -/
def mkdirTempTry (pre : String) : Nat → World → World × Except Errno String
  | 0, w => (w, .error .EEXIST)
  | n + 1, w =>
    match Mkdir { w with tick := w.tick + 1 } (pre ++ nextRandom w) with
    | .ok w2 => ({ w2 with temps := (pre ++ nextRandom w) :: w2.temps }, .ok (pre ++ nextRandom w))
    | .error .EEXIST => mkdirTempTry pre n { w with tick := w.tick + 1 }
    | .error e => ({ w with tick := w.tick + 1 }, .error e)

/-- The call `os.MkdirTemp(dir, pattern)` for a pattern without `*`: up to
10000 attempts at `dir/pattern<random>`, in `os.TempDir()` when `dir` is empty. -/
def MkdirTemp (w : World) (dir pattern : String) : World × Except Errno String :=
  mkdirTempTry (joinPath (if dir = "" then w.tmp else dir) pattern) 10000 w

/-! ## The installer -/

/-- The struct `Installer`. -/
structure Installer where
  srcDir : String
  destDir : String
  backupDir : String
deriving DecidableEq, Repr

/-- Go error values: a system-call error, or one wrapped by `fmt.Errorf`. -/
inductive GoError
  | sys (e : Errno)
  | backupFailed (dest : String) (cause : GoError)
  | installFailed (src dest : String) (cause : GoError)
deriving DecidableEq, Repr

/-- Go's `error`; `none` is `nil`. -/
abbrev error := Option GoError

/-- How a call on a `*Installer` ends: it returns (a value, the receiver and
the machine as they are then), or `log.Fatal` has ended the process. -/
inductive Run (α : Type)
  | ret (val : α) (i : Installer) (w : World)
  | exit (w : World)

/-- The value returned, if the call returned. -/
def Run.val? {α : Type} : Run α → Option α
  | .ret v _ _ => some v
  | .exit _ => none

/-- The receiver after the call, if the call returned. -/
def Run.inst? {α : Type} : Run α → Option Installer
  | .ret _ i _ => some i
  | .exit _ => none

/-- The machine when the call ended. -/
def Run.world {α : Type} : Run α → World
  | .ret _ _ w => w
  | .exit w => w

/-- Whether the process was terminated. -/
def Run.exited {α : Type} : Run α → Bool
  | .ret _ _ _ => false
  | .exit _ => true

/-- The method `(i *Installer) backupPath`. -/
def backupPath (i : Installer) (w : World) (dest_name : String) : Run (String × error) :=
  if i.backupDir = "" then
    match MkdirTemp w i.destDir "backup" with
    | (w1, .error _) => .exit w1
    | (w1, .ok tmp) =>
      .ret (Join tmp dest_name, none) { i with backupDir := tmp } w1
  else .ret (Join i.backupDir dest_name, none) i w

/-- The method `(i *Installer) backup`. -/
def backup (i : Installer) (w : World) (dest : String) : Run error :=
  match Lstat w (Join i.destDir dest) with
  | .ok _ =>
    match backupPath i w dest with
    | .exit w1 => .exit w1
    | .ret (_, some err) i1 w1 => .ret (some err) i1 w1
    | .ret (back, none) i1 w1 =>
      match MkdirAll w1 (Dir back) with
      | (w2, some e) => .ret (some (.sys e)) i1 w2
      | (w2, none) =>
        match Rename w2 (Join i.destDir dest) back with
        | .error e => .ret (some (.sys e)) i1 w2
        | .ok w3 => .ret none i1 w3
  | .error _ => .ret none i w

/-- The method `(i Installer) install`. -/
def install (i : Installer) (w : World) (src dest : String) : error × World :=
  match Lstat w (Join i.srcDir src) with
  | .error e => (some (.sys e), w)
  | .ok fi =>
    if fi.IsDir then
      match Symlink w (Join i.srcDir src) (Join i.destDir dest) with
      | .error e => (some (.sys e), w)
      | .ok w1 => (none, w1)
    else
      match Link w (Join i.srcDir src) (Join i.destDir dest) with
      | .error e => (some (.sys e), w)
      | .ok w1 => (none, w1)

/-- The method `(i *Installer) Install`. -/
def Install (i : Installer) (w : World) (src dest : String) : Run error :=
  match backup i w dest with
  | .exit w1 => .exit w1
  | .ret (some err) i1 w1 => .ret (some (.backupFailed dest err)) i1 w1
  | .ret none i1 w1 =>
    match install i1 w1 src dest with
    | (some err, w2) => .ret (some (.installFailed src dest err)) i1 w2
    | (none, w2) => .ret none i1 w2

/-- The loop of `main` over the configuration entries, in the order the map
yields them: each result is dropped by `main`; the value returned here is the
list of results of the calls that returned. -/
def mainLoop : List (String × String) → Installer → World → List error → Run (List error)
  | [], i, w, done => .ret done i w
  | (src, dest) :: rest, i, w, done =>
    match Install i w src dest with
    | .exit w1 => .exit w1
    | .ret r i1 w1 => mainLoop rest i1 w1 (done ++ [r])

/-! ## Example machines -/

/-- A home directory `/home/u` holding a regular file `.bashrc` (inode 7), and
a source directory `/src` with a file `bashrc` (inode 1) and a directory `vim`. -/
def wHome : World where
  fs := [(["home"], .dir), (["home", "u"], .dir), (["home", "u", ".bashrc"], .file 7),
         (["home", "x"], .file 9),
         (["src"], .dir), (["src", "bashrc"], .file 1), (["src", "vim"], .dir),
         (["src", "zshrc"], .file 2), (["tmp"], .dir)]
  content := fun n => if n = 7 then "old" else if n = 1 then "new" else ""
  cwd := []
  tmp := "/tmp"
  rnd := fun n => [4, 2, (Fin.ofNat n)]
  tick := 0
  temps := []
  refuse := fun _ => none

/-- The installer `main` builds for `wHome`. -/
def iHome : Installer := { srcDir := "/src", destDir := "/home/u", backupDir := "" }

/-- The installer of `wHome` once its backup root is `/home/u/backup420`. -/
def iHomeSet : Installer :=
  { srcDir := "/src", destDir := "/home/u", backupDir := "/home/u/backup420" }

/-- A machine whose user has the home directory `/nonexistent`, which does not
exist, next to a file `/etc/x`. -/
def wNoHome : World where
  fs := [(["etc"], .dir), (["etc", "x"], .file 5), (["src"], .dir),
         (["src", "a"], .file 1), (["src", "bashrc"], .file 2)]
  content := fun _ => ""
  cwd := []
  tmp := "/tmp"
  rnd := fun _ => [7]
  tick := 0
  temps := []
  refuse := fun _ => none

/-- The installer `main` builds for `wNoHome`. -/
def iNoHome : Installer := { srcDir := "/src", destDir := "/nonexistent", backupDir := "" }

/-- The machine `wHome` after `Install("bashrc", ".bashrc")` by `iHome`. -/
def wHomeOnce : World := (Install iHome wHome "bashrc" ".bashrc").world

/-- The machine `wHomeOnce` after a second run has installed the same entry. -/
def wHomeTwice : World := (Install iHome wHomeOnce "bashrc" ".bashrc").world

/-- The installer of the second run once its backup root is `/home/u/backup421`. -/
def iHomeSet2 : Installer :=
  { srcDir := "/src", destDir := "/home/u", backupDir := "/home/u/backup421" }

/-- Whether a location lies on the second device of `wMount`. -/
def onMount (p : Loc) : Bool := List.isPrefixOf ["home", "u", "mnt"] p

/-- The machine `wHome` with a second device mounted on `/home/u/mnt`, which
holds a regular file `rc` (inode 8): no name is moved or hard-linked from one
device to the other. -/
def wMount : World where
  fs := [(["home"], .dir), (["home", "u"], .dir), (["home", "u", ".bashrc"], .file 7),
         (["home", "u", "mnt"], .dir), (["home", "u", "mnt", "rc"], .file 8),
         (["src"], .dir), (["src", "bashrc"], .file 1), (["src", "vim"], .dir),
         (["src", "zshrc"], .file 2), (["tmp"], .dir)]
  content := fun n => if n = 7 then "old" else if n = 1 then "new" else ""
  cwd := []
  tmp := "/tmp"
  rnd := fun n => [4, 2, (Fin.ofNat n)]
  tick := 0
  temps := []
  refuse := fun c =>
    match c with
    | .rename old new => if onMount old != onMount new then some .EXDEV else none
    | .link old new => if onMount old != onMount new then some .EXDEV else none
    | _ => none

/-- The machine `wHome` with a second regular file `.zshrc` (inode 8) in the
home directory. -/
def wTwo : World := { wHome with fs := (["home", "u", ".zshrc"], .file 8) :: wHome.fs }

/-! ## Basic facts -/

theorem str_data_ne (s : String) (h : s.data ≠ []) : s ≠ "" := by
  intro h0
  rw [h0] at h
  exact h rfl

/-! ## Splitting at separators -/

theorem splitSlash_ne_nil (l : List Char) : splitSlash l ≠ [] := by
  cases l with
  | nil => simp [splitSlash]
  | cons c cs =>
    unfold splitSlash
    split
    · simp
    · split <;> simp

theorem splitSlash_append (a b : List Char) :
    splitSlash (a ++ '/' :: b) = splitSlash a ++ splitSlash b := by
  induction a with
  | nil => simp [splitSlash]
  | cons c cs ih =>
    by_cases hc : c = '/'
    · simp [splitSlash, hc, ih]
    · have h1 : splitSlash (c :: (cs ++ '/' :: b))
          = match splitSlash (cs ++ '/' :: b) with
            | [] => [[c]]
            | h :: t => (c :: h) :: t := by
        simp [splitSlash, hc]
      have h2 : splitSlash (c :: cs)
          = match splitSlash cs with
            | [] => [[c]]
            | h :: t => (c :: h) :: t := by
        simp [splitSlash, hc]
      rw [List.cons_append, h1, h2, ih]
      cases hs : splitSlash cs with
      | nil => exact absurd hs (splitSlash_ne_nil cs)
      | cons h t => simp

theorem splitSlash_of_not_mem (a : List Char) (h : '/' ∉ a) : splitSlash a = [a] := by
  induction a with
  | nil => simp [splitSlash]
  | cons c cs ih =>
    have hc : c ≠ '/' := fun h0 => h (by simp [h0])
    have hcs : '/' ∉ cs := fun h0 => h (by simp [h0])
    simp [splitSlash, hc, ih hcs]

theorem splitSlash_no_slash (l : List Char) : ∀ x ∈ splitSlash l, '/' ∉ x := by
  induction l with
  | nil => simp [splitSlash]
  | cons c cs ih =>
    by_cases hc : c = '/'
    · simp only [splitSlash, hc, if_true, List.mem_cons]
      rintro x (hx | hx)
      · simp [hx]
      · exact ih x hx
    · have h2 : splitSlash (c :: cs)
          = match splitSlash cs with
            | [] => [[c]]
            | h :: t => (c :: h) :: t := by
        simp [splitSlash, hc]
      rw [h2]
      cases hs : splitSlash cs with
      | nil => exact absurd hs (splitSlash_ne_nil cs)
      | cons h t =>
        rw [hs] at ih
        simp only [List.mem_cons]
        rintro x (hx | hx)
        · rw [hx]
          intro hm
          rcases List.mem_cons.1 hm with h0 | h0
          · exact hc h0.symm
          · exact ih h (by simp) h0
        · exact ih x (by simp [hx])

theorem uptoLastSlash_cases (l : List Char) :
    (uptoLastSlash l = [] ∧ '/' ∉ l)
    ∨ (∃ a r, l = a ++ '/' :: r ∧ '/' ∉ r ∧ uptoLastSlash l = a ++ ['/']) := by
  induction l with
  | nil => left; simp [uptoLastSlash]
  | cons c cs ih =>
    rcases ih with ⟨h1, h2⟩ | ⟨a, r, h1, h2, h3⟩
    · by_cases hc : c = '/'
      · right
        exact ⟨[], cs, by simp [hc], h2, by simp [uptoLastSlash, h1, hc]⟩
      · left
        refine ⟨by simp [uptoLastSlash, h1, hc], ?_⟩
        intro hm
        rcases List.mem_cons.1 hm with h0 | h0
        · exact hc h0.symm
        · exact h2 h0
    · right
      refine ⟨c :: a, r, by simp [h1], h2, ?_⟩
      simp [uptoLastSlash, h3]

/-! ## Walking and cleaning -/

theorem walk_append (l1 : List String) : ∀ (h : Loc) (l2 : List String),
    walk h (l1 ++ l2) = walk (walk h l1) l2 := by
  induction l1 with
  | nil => intro h l2; rfl
  | cons s rest ih =>
    intro h l2
    simp only [List.cons_append, walk]
    split
    · exact ih _ _
    · split
      · exact ih _ _
      · exact ih _ _

theorem walk_names (l : List String) : ∀ (h : Loc),
    (∀ x ∈ l, x ≠ "" ∧ x ≠ "." ∧ x ≠ "..") → walk h l = h ++ l := by
  induction l with
  | nil => intro h _; simp [walk]
  | cons s rest ih =>
    intro h hl
    have hs := hl s (by simp)
    have hr : ∀ x ∈ rest, x ≠ "" ∧ x ≠ "." ∧ x ≠ ".." := fun x hx => hl x (by simp [hx])
    simp only [walk, hs.1, hs.2.1, hs.2.2, or_self, if_false]
    rw [ih _ hr]
    simp

theorem walk_single_name (h : Loc) (s : String) (h1 : s ≠ "") (h2 : s ≠ ".") (h3 : s ≠ "..") :
    walk h [s] = h ++ [s] := by
  simp [walk, h1, h2, h3]

theorem cleanSegs_append (r : Bool) (l1 : List String) : ∀ (acc : List String) (l2 : List String),
    cleanSegs r acc (l1 ++ l2) = cleanSegs r (cleanSegs r acc l1) l2 := by
  induction l1 with
  | nil => intro acc l2; rfl
  | cons s rest ih =>
    intro acc l2
    simp only [List.cons_append, cleanSegs]
    split
    · exact ih _ _
    · split
      · split
        · exact ih _ _
        · split
          · exact ih _ _
          · exact ih _ _
      · exact ih _ _

theorem mem_dropLast_of {α : Type} (l : List α) (x : α) (h : x ∈ l.dropLast) : x ∈ l :=
  List.dropLast_subset l h

theorem cleanSegs_nodot (r : Bool) (l : List String) : ∀ (acc : List String),
    (∀ x ∈ acc, x ≠ "" ∧ x ≠ ".") → ∀ x ∈ cleanSegs r acc l, x ≠ "" ∧ x ≠ "." := by
  induction l with
  | nil => intro acc h; exact h
  | cons s rest ih =>
    intro acc h
    simp only [cleanSegs]
    split
    · exact ih _ h
    · rename_i hs
      split
      · split
        · exact ih _ (fun x hx => h x (mem_dropLast_of _ _ hx))
        · split
          · exact ih _ h
          · refine ih _ (fun x hx => ?_)
            rcases List.mem_append.1 hx with h1 | h1
            · exact h x h1
            · simp only [List.mem_singleton] at h1
              rw [h1]
              exact ⟨by decide, by decide⟩
      · refine ih _ (fun x hx => ?_)
        rcases List.mem_append.1 hx with h1 | h1
        · exact h x h1
        · simp only [List.mem_singleton] at h1
          rw [h1]
          exact ⟨fun h0 => hs (Or.inl h0), fun h0 => hs (Or.inr h0)⟩

theorem cleanSegs_noslash (r : Bool) (l : List String) : ∀ (acc : List String),
    (∀ x ∈ acc, '/' ∉ x.data) → (∀ x ∈ l, '/' ∉ x.data) →
    ∀ x ∈ cleanSegs r acc l, '/' ∉ x.data := by
  induction l with
  | nil => intro acc h _; exact h
  | cons s rest ih =>
    intro acc h hl
    have hr : ∀ x ∈ rest, '/' ∉ x.data := fun x hx => hl x (by simp [hx])
    simp only [cleanSegs]
    split
    · exact ih _ h hr
    · split
      · split
        · exact ih _ (fun x hx => h x (mem_dropLast_of _ _ hx)) hr
        · split
          · exact ih _ h hr
          · refine ih _ (fun x hx => ?_) hr
            rcases List.mem_append.1 hx with h1 | h1
            · exact h x h1
            · simp only [List.mem_singleton] at h1
              rw [h1]
              decide
      · refine ih _ (fun x hx => ?_) hr
        rcases List.mem_append.1 hx with h1 | h1
        · exact h x h1
        · simp only [List.mem_singleton] at h1
          rw [h1]
          exact hl s (by simp)

theorem walk_cleanSegs (r : Bool) (base : Loc) (l : List String) : ∀ (acc : List String),
    (∀ x ∈ acc, x ≠ "" ∧ x ≠ ".") → (r = true → base = [] ∧ ".." ∉ acc) →
    walk base (cleanSegs r acc l) = walk (walk base acc) l := by
  induction l with
  | nil => intro acc _ _; rfl
  | cons s rest ih =>
    intro acc hnd hr
    simp only [cleanSegs, walk]
    split
    · exact ih _ hnd hr
    · rename_i hs
      split
      · rename_i hup
        split
        · rename_i hpop
          have hnd2 : ∀ x ∈ acc.dropLast, x ≠ "" ∧ x ≠ "." :=
            fun x hx => hnd x (mem_dropLast_of _ _ hx)
          rw [ih _ hnd2 (fun h => ⟨(hr h).1, fun hx => (hr h).2 (mem_dropLast_of _ _ hx)⟩)]
          congr 1
          obtain ⟨hne, hlast⟩ := hpop
          obtain ⟨ini, n, rfl⟩ : ∃ ini n, acc = ini ++ [n] :=
            ⟨acc.dropLast, acc.getLast hne, (List.dropLast_append_getLast hne).symm⟩
          have hn := hnd n (by simp)
          have hn3 : n ≠ ".." := by
            intro h0
            apply hlast
            rw [h0]
            simp
          rw [List.dropLast_concat, walk_append, walk_single_name _ _ hn.1 hn.2 hn3,
            List.dropLast_concat]
        · rename_i hpop
          split
          · rename_i hroot
            obtain ⟨hb, hno⟩ := hr hroot
            have hacc : acc = [] := by
              by_contra hne
              apply hpop
              refine ⟨hne, ?_⟩
              intro hl
              exact hno (List.mem_of_getLast?_eq_some hl)
            rw [ih _ hnd hr, hacc, hb]
            rfl
          · rename_i hroot
            have hnd2 : ∀ x ∈ acc ++ [".."], x ≠ "" ∧ x ≠ "." := by
              intro x hx
              rcases List.mem_append.1 hx with h1 | h1
              · exact hnd x h1
              · simp only [List.mem_singleton] at h1
                rw [h1]
                exact ⟨by decide, by decide⟩
            rw [ih _ hnd2 (fun h => absurd h hroot), walk_append]
            rfl
      · rename_i hup
        have hnd2 : ∀ x ∈ acc ++ [s], x ≠ "" ∧ x ≠ "." := by
          intro x hx
          rcases List.mem_append.1 hx with h1 | h1
          · exact hnd x h1
          · simp only [List.mem_singleton] at h1
            rw [h1]
            exact ⟨fun h0 => hs (Or.inl h0), fun h0 => hs (Or.inr h0)⟩
        have hs1 : s ≠ "" := fun h0 => hs (Or.inl h0)
        have hs2 : s ≠ "." := fun h0 => hs (Or.inr h0)
        rw [ih _ hnd2 (fun h => ⟨(hr h).1, fun hx => by
            rcases List.mem_append.1 hx with h1 | h1
            · exact (hr h).2 h1
            · simp only [List.mem_singleton] at h1
              exact hup h1.symm⟩),
          walk_append, walk_single_name _ _ hs1 hs2 hup]

/-! ## Strings and their segments -/

theorem data_ne_of_ne (s : String) (h : s ≠ "") : s.data ≠ [] := by
  intro h0
  exact h (String.ext h0)

theorem segs_append_slash (a b : String) : segs (a ++ "/" ++ b) = segs a ++ segs b := by
  unfold segs
  rw [String.data_append, String.data_append]
  have : ("/" : String).data = ['/'] := rfl
  rw [this, List.append_assoc, List.singleton_append, splitSlash_append, List.map_append]

theorem segs_noslash (s : String) : ∀ x ∈ segs s, '/' ∉ x.data := by
  intro x hx
  unfold segs at hx
  obtain ⟨y, hy, rfl⟩ := List.mem_map.1 hx
  exact splitSlash_no_slash _ y hy

theorem segs_of_noslash (s : String) (h : '/' ∉ s.data) : segs s = [s] := by
  unfold segs
  rw [splitSlash_of_not_mem _ h]
  rfl

theorem isRooted_append (a b : String) (h : a ≠ "") : isRooted (a ++ b) = isRooted a := by
  unfold isRooted
  rw [String.data_append]
  have := data_ne_of_ne a h
  cases hd : a.data with
  | nil => exact absurd hd this
  | cons c cs => simp

theorem segs_joinSlash (out : List String) (hne : out ≠ [])
    (hs : ∀ x ∈ out, '/' ∉ x.data) : segs (joinSlash out) = out := by
  induction out with
  | nil => exact absurd rfl hne
  | cons s t ih =>
    cases t with
    | nil =>
      simp only [joinSlash]
      exact segs_of_noslash s (hs s (by simp))
    | cons u v =>
      simp only [joinSlash]
      rw [segs_append_slash, segs_of_noslash s (hs s (by simp))]
      have := ih (by simp) (fun x hx => hs x (by simp [hx]))
      simp only [joinSlash] at this
      rw [this]
      rfl

theorem joinSlash_data_head (out : List String) (f : String) (t : List String)
    (ho : out = f :: t) (hf : f ≠ "") : (joinSlash out).data.head? = f.data.head? := by
  subst ho
  have := data_ne_of_ne f hf
  cases t with
  | nil => rfl
  | cons u v =>
    simp only [joinSlash]
    rw [String.data_append, String.data_append]
    cases hd : f.data with
    | nil => exact absurd hd this
    | cons c cs => simp

theorem head_ne_slash (f : String) (h : '/' ∉ f.data) : f.data.head? ≠ some '/' := by
  intro h0
  exact h (List.mem_of_mem_head? h0)

theorem resolve_Clean (cwd : Loc) (s : String) (hs : s ≠ "") :
    resolve cwd (Clean s) = resolve cwd s := by
  have hsl := segs_noslash s
  have hnd : ∀ x ∈ ([] : List String), x ≠ "" ∧ x ≠ "." := by simp
  unfold Clean
  simp only [hs, if_false]
  by_cases hr : isRooted s = true
  · simp only [hr, if_true]
    have hne : "/" ++ joinSlash (cleanSegs true [] (segs s)) ≠ "" := by
      apply str_data_ne
      rw [String.data_append]
      simp
    have hroot : isRooted ("/" ++ joinSlash (cleanSegs true [] (segs s))) = true := by
      rw [isRooted_append _ _ (by decide)]
      rfl
    have hsegs : segs ("/" ++ joinSlash (cleanSegs true [] (segs s)))
        = "" :: segs (joinSlash (cleanSegs true [] (segs s))) := by
      have := segs_append_slash "" (joinSlash (cleanSegs true [] (segs s)))
      simpa using this
    unfold resolve
    simp only [hne, hs, if_false, hroot, hr, if_true, hsegs, Option.some.injEq]
    have hw := walk_cleanSegs true [] (segs s) [] hnd (fun _ => ⟨rfl, by simp⟩)
    simp only [walk] at hw ⊢
    simp only [true_or, if_true]
    rw [← hw]
    by_cases ho : cleanSegs true [] (segs s) = []
    · rw [ho]
      rfl
    · rw [segs_joinSlash _ ho (cleanSegs_noslash true _ [] (by simp) hsl)]
  · have hr2 : isRooted s = false := by simpa using hr
    simp only [hr2, Bool.false_eq_true, if_false]
    have hw := walk_cleanSegs false cwd (segs s) [] hnd (fun h => by cases h)
    simp only [walk] at hw
    by_cases ho : cleanSegs false [] (segs s) = []
    · simp only [ho, if_true]
      rw [ho] at hw
      unfold resolve
      simp only [hs, if_false, hr2, Bool.false_eq_true, Option.some.injEq]
      rw [← hw]
      rfl
    · simp only [ho, if_false]
      obtain ⟨f, t, hft⟩ := List.exists_cons_of_ne_nil ho
      have hf := cleanSegs_nodot false (segs s) [] hnd f (by rw [hft]; simp)
      have hfs := cleanSegs_noslash false (segs s) [] (by simp) hsl f (by rw [hft]; simp)
      have hhead := joinSlash_data_head _ f t hft hf.1
      have hne : joinSlash (cleanSegs false [] (segs s)) ≠ "" := by
        apply str_data_ne
        intro h0
        rw [h0] at hhead
        have := data_ne_of_ne f hf.1
        cases hd : f.data with
        | nil => exact this hd
        | cons c cs => rw [hd] at hhead; simp at hhead
      have hroot : isRooted (joinSlash (cleanSegs false [] (segs s))) = false := by
        unfold isRooted
        rw [hhead]
        simpa using head_ne_slash f hfs
      unfold resolve
      simp only [hne, hs, if_false, hroot, hr2, Bool.false_eq_true, Option.some.injEq]
      rw [segs_joinSlash _ ho (cleanSegs_noslash false _ [] (by simp) hsl), hw]

theorem resolve_Join (cwd : Loc) (a d : String) (pa : Loc) (ha : resolve cwd a = some pa) :
    resolve cwd (Join a d) = some (walk pa (segs d)) := by
  have hne : a ≠ "" := by
    intro h0
    rw [h0] at ha
    simp [resolve] at ha
  have hne2 : a ++ "/" ++ d ≠ "" := by
    apply str_data_ne
    rw [String.data_append, String.data_append]
    simp
  unfold Join
  simp only [hne, ne_eq, not_false_eq_true, if_true]
  rw [resolve_Clean cwd _ hne2]
  unfold resolve at ha ⊢
  simp only [hne, if_false, Option.some.injEq] at ha
  simp only [hne2, if_false, Option.some.injEq]
  rw [String.append_assoc, isRooted_append _ _ hne, ← String.append_assoc, segs_append_slash,
    walk_append, ha]

theorem walk_local (pa : Loc) (d : String) (h : ".." ∉ relParts d) :
    walk pa (segs d) = pa ++ relParts d := by
  have hnd : ∀ x ∈ ([] : List String), x ≠ "" ∧ x ≠ "." := by simp
  have hw := walk_cleanSegs false pa (segs d) [] hnd (fun h => by cases h)
  simp only [walk] at hw
  rw [← hw]
  apply walk_names
  intro x hx
  have := cleanSegs_nodot false (segs d) [] hnd x hx
  refine ⟨this.1, this.2, ?_⟩
  intro h0
  rw [h0] at hx
  exact h hx

theorem cleanSegs_up_stays (l : List String) : ∀ (q : List String),
    ∃ q', cleanSegs false (".." :: q) l = ".." :: q' := by
  induction l with
  | nil => intro q; exact ⟨q, rfl⟩
  | cons s rest ih =>
    intro q
    simp only [cleanSegs]
    split
    · exact ih q
    · split
      · split
        · rename_i hpop
          have hq : q ≠ [] := by
            intro h0
            apply hpop.2
            rw [h0]
            rfl
          have : (".." :: q).dropLast = ".." :: q.dropLast := by
            cases q with
            | nil => exact absurd rfl hq
            | cons a b => rfl
          rw [this]
          exact ih _
        · try simp only [Bool.false_eq_true, if_false]
          exact ih _
      · exact ih _

theorem getLast?_cons_ne_nil {α : Type} (x : α) (l : List α) (h : l ≠ []) :
    (x :: l).getLast? = l.getLast? := by
  cases l with
  | nil => exact absurd rfl h
  | cons a b => simp

theorem cleanSegs_local (r : Bool) (l : List String) : ∀ (acc pre : List String),
    ".." ∉ pre → ".." ∉ cleanSegs false pre l →
    cleanSegs r (acc ++ pre) l = acc ++ cleanSegs false pre l := by
  induction l with
  | nil => intro acc pre _ _; rfl
  | cons s rest ih =>
    intro acc pre hpre hres
    simp only [cleanSegs] at hres ⊢
    by_cases hs : s = "" ∨ s = "."
    · simp only [hs, if_true] at hres ⊢
      exact ih acc pre hpre hres
    · simp only [hs, if_false] at hres ⊢
      by_cases hup : s = ".."
      · simp only [hup, if_true] at hres ⊢
        by_cases hp : pre = []
        · exfalso
          rw [hp] at hres
          simp only [ne_eq, not_true_eq_false, false_and, if_false, Bool.false_eq_true,
            List.nil_append] at hres
          obtain ⟨q', hq'⟩ := cleanSegs_up_stays rest []
          rw [hq'] at hres
          exact hres (by simp)
        · have hlast : pre.getLast? ≠ some ".." :=
            fun h0 => hpre (List.mem_of_getLast?_eq_some h0)
          have h1 : pre ≠ [] ∧ pre.getLast? ≠ some ".." := ⟨hp, hlast⟩
          have h2 : acc ++ pre ≠ [] ∧ (acc ++ pre).getLast? ≠ some ".." := by
            refine ⟨by simp [hp], ?_⟩
            rw [List.getLast?_append_of_ne_nil _ hp]
            exact hlast
          rw [if_pos h1] at hres
          rw [if_pos h2, if_pos h1]
          rw [List.dropLast_append_of_ne_nil _ hp]
          exact ih acc pre.dropLast (fun hx => hpre (mem_dropLast_of _ _ hx)) hres
      · simp only [hup, if_false] at hres ⊢
        rw [List.append_assoc]
        refine ih acc (pre ++ [s]) ?_ hres
        intro hx
        rcases List.mem_append.1 hx with h1 | h1
        · exact hpre h1
        · simp only [List.mem_singleton] at h1
          exact hup h1.symm

theorem segs_Clean (s : String) (hs : s ≠ "") (ho : cleanSegs (isRooted s) [] (segs s) ≠ []) :
    segs (Clean s) = if isRooted s then "" :: cleanSegs (isRooted s) [] (segs s)
      else cleanSegs (isRooted s) [] (segs s) := by
  have hsl := segs_noslash s
  unfold Clean
  simp only [hs, if_false]
  by_cases hr : isRooted s = true
  · simp only [hr, if_true] at ho ⊢
    have hsegs : segs ("/" ++ joinSlash (cleanSegs true [] (segs s)))
        = "" :: segs (joinSlash (cleanSegs true [] (segs s))) := by
      have := segs_append_slash "" (joinSlash (cleanSegs true [] (segs s)))
      simpa using this
    rw [hsegs, segs_joinSlash _ ho (cleanSegs_noslash true _ [] (by simp) hsl)]
  · have hr2 : isRooted s = false := by simpa using hr
    simp only [hr2, Bool.false_eq_true, if_false] at ho ⊢
    simp only [ho, if_false]
    rw [segs_joinSlash _ ho (cleanSegs_noslash false _ [] (by simp) hsl)]

theorem segs_Join_last (bd dest : String) (hb : bd ≠ "") (hrel : relParts dest ≠ [])
    (hup : ".." ∉ relParts dest) :
    (segs (Join bd dest)).getLast? = (relParts dest).getLast? := by
  have hne2 : bd ++ "/" ++ dest ≠ "" := by
    apply str_data_ne
    rw [String.data_append, String.data_append]
    simp
  have hout : ∀ r, cleanSegs r [] (segs (bd ++ "/" ++ dest))
      = cleanSegs r [] (segs bd) ++ relParts dest := by
    intro r
    rw [segs_append_slash, cleanSegs_append]
    have := cleanSegs_local r (segs dest) (cleanSegs r [] (segs bd)) [] (by simp) hup
    simpa using this
  unfold Join
  simp only [hb, ne_eq, not_false_eq_true, if_true]
  rw [segs_Clean _ hne2 (by rw [hout]; simp [hrel])]
  split
  · rw [hout, getLast?_cons_ne_nil _ _ (by simp [hrel]),
      List.getLast?_append_of_ne_nil _ hrel]
  · rw [hout, List.getLast?_append_of_ne_nil _ hrel]

theorem resolve_Dir (cwd : Loc) (p : String) (y : Loc) (A : List String) (r : String)
    (hp : resolve cwd p = some y) (hseg : segs p = A ++ [r])
    (h1 : r ≠ "") (h2 : r ≠ ".") (h3 : r ≠ "..") :
    resolve cwd (Dir p) = some y.dropLast := by
  have hne : p ≠ "" := by
    intro h0
    rw [h0] at hp
    simp [resolve] at hp
  unfold resolve at hp
  simp only [hne, if_false, Option.some.injEq] at hp
  rw [hseg, walk_append, walk_single_name _ _ h1 h2 h3] at hp
  rw [← hp, List.dropLast_concat]
  unfold Dir
  rcases uptoLastSlash_cases p.data with ⟨hu, hno⟩ | ⟨a, r0, hd, hno, hu⟩
  · rw [hu]
    have hA : A = [] := by
      have := segs_of_noslash p hno
      rw [hseg] at this
      have hl := congrArg List.length this
      simp at hl
      exact hl
    have hroot : isRooted p = false := by
      unfold isRooted
      simpa using head_ne_slash p hno
    rw [hA, hroot]
    rfl
  · rw [hu]
    have hq : String.mk (a ++ ['/']) ≠ "" := by
      apply str_data_ne
      simp
    rw [resolve_Clean cwd _ hq]
    unfold resolve
    simp only [hq, if_false, Option.some.injEq]
    have hsegp : segs p = (splitSlash a).map String.mk ++ [String.mk r0] := by
      unfold segs
      rw [hd, splitSlash_append, splitSlash_of_not_mem _ hno]
      simp
    have hA : A = (splitSlash a).map String.mk := by
      rw [hseg] at hsegp
      exact (List.append_inj' hsegp rfl).1
    have hsegq : segs (String.mk (a ++ ['/'])) = A ++ [""] := by
      unfold segs
      rw [hA]
      show List.map String.mk (splitSlash (a ++ '/' :: [])) = _
      rw [splitSlash_append]
      simp [splitSlash]
    have hroot : isRooted (String.mk (a ++ ['/'])) = isRooted p := by
      unfold isRooted
      rw [hd]
      cases a <;> simp
    rw [hsegq, hroot, walk_append]
    simp [walk]

theorem digitChar_ne_slash (d : Fin 10) : digitChar d ≠ '/' := by
  revert d
  decide

theorem tempName_facts (ds : List (Fin 10)) :
    '/' ∉ ("backup" ++ String.mk (ds.map digitChar)).data
      ∧ "backup" ++ String.mk (ds.map digitChar) ≠ ""
      ∧ "backup" ++ String.mk (ds.map digitChar) ≠ "."
      ∧ "backup" ++ String.mk (ds.map digitChar) ≠ ".." := by
  have hd : ("backup" ++ String.mk (ds.map digitChar)).data
      = 'b' :: 'a' :: 'c' :: 'k' :: 'u' :: 'p' :: ds.map digitChar := by
    rw [String.data_append]
    rfl
  refine ⟨?_, ?_, ?_, ?_⟩
  · rw [hd]
    intro hm
    simp only [List.mem_cons, List.mem_map] at hm
    rcases hm with h | h | h | h | h | h | ⟨d, -, h⟩
    all_goals first
      | exact absurd h (by decide)
      | exact digitChar_ne_slash d h
  · apply str_data_ne
    rw [hd]
    simp
  · intro h0
    have := congrArg String.data h0
    rw [hd] at this
    simp at this
  · intro h0
    have := congrArg String.data h0
    rw [hd] at this
    have h2 : ("..": String).data = ['.', '.'] := rfl
    rw [h2] at this
    simp at this

theorem resolve_tempName (cwd : Loc) (dir : String) (ds : List (Fin 10)) :
    resolve cwd (joinPath dir "backup" ++ String.mk (ds.map digitChar))
      = some ((resolve cwd dir).getD [] ++ ["backup" ++ String.mk (ds.map digitChar)]) := by
  obtain ⟨hns, hn1, hn2, hn3⟩ := tempName_facts ds
  generalize hnm : "backup" ++ String.mk (ds.map digitChar) = nm at hns hn1 hn2 hn3
  unfold joinPath
  by_cases hl : dir.data.getLast? = some '/'
  · simp only [hl, if_true]
    obtain ⟨a, ha⟩ := List.getLast?_eq_some_iff.1 hl
    have hdne : dir ≠ "" := by
      apply str_data_ne
      rw [ha]
      simp
    have hfull : dir ++ "backup" ++ String.mk (ds.map digitChar) = String.mk a ++ "/" ++ nm := by
      rw [String.append_assoc, hnm]
      apply String.ext
      rw [String.data_append, String.data_append, String.data_append, ha]
    have hdir : dir = String.mk a ++ "/" ++ "" := by
      apply String.ext
      rw [String.data_append, String.data_append, ha]
      show a ++ ['/'] = a ++ ['/'] ++ []
      simp
    have hne : String.mk a ++ "/" ++ nm ≠ "" := by
      apply str_data_ne
      rw [String.data_append, String.data_append]
      simp
    have hroot : isRooted (String.mk a ++ "/" ++ nm) = isRooted dir := by
      rw [hdir]
      unfold isRooted
      simp only [String.data_append]
      cases a <;> rfl
    rw [hfull]
    unfold resolve
    simp only [hne, hdne, if_false, Option.getD_some, Option.some.injEq, hroot]
    rw [segs_append_slash, walk_append, segs_of_noslash nm hns,
      walk_single_name _ _ hn1 hn2 hn3]
    have hsd : segs dir = segs (String.mk a) ++ [""] := by
      rw [hdir, segs_append_slash]
      rfl
    rw [hsd, walk_append]
    rfl
  · simp only [hl, if_false]
    have hfull : dir ++ "/" ++ "backup" ++ String.mk (ds.map digitChar) = dir ++ "/" ++ nm := by
      rw [String.append_assoc, hnm]
    have hne : dir ++ "/" ++ nm ≠ "" := by
      apply str_data_ne
      rw [String.data_append, String.data_append]
      simp
    rw [hfull]
    unfold resolve
    simp only [hne, if_false, Option.some.injEq]
    rw [segs_append_slash, walk_append, segs_of_noslash nm hns,
      walk_single_name _ _ hn1 hn2 hn3]
    by_cases hd : dir = ""
    · rw [hd]
      rfl
    · simp only [hd, if_false, Option.getD_some]
      rw [String.append_assoc, isRooted_append _ _ hd]


theorem resolve_backup_path (cwd : Loc) (bd dest : String) (b : Loc)
    (hb : resolve cwd bd = some b) (hrel : relParts dest ≠ []) (hup : ".." ∉ relParts dest) :
    resolve cwd (Join bd dest) = some (b ++ relParts dest)
      ∧ resolve cwd (Dir (Join bd dest)) = some (b ++ (relParts dest).dropLast) := by
  have hne : bd ≠ "" := by
    intro h0
    rw [h0] at hb
    simp [resolve] at hb
  have h1 : resolve cwd (Join bd dest) = some (b ++ relParts dest) := by
    rw [resolve_Join cwd bd dest b hb, walk_local b dest hup]
  refine ⟨h1, ?_⟩
  obtain ⟨r, hr⟩ : ∃ r, (relParts dest).getLast? = some r := by
    cases hg : (relParts dest).getLast? with
    | none => exact absurd (List.getLast?_eq_none_iff.1 hg) hrel
    | some r => exact ⟨r, rfl⟩
  have hmem : r ∈ relParts dest := List.mem_of_getLast?_eq_some hr
  have hnd := cleanSegs_nodot false (segs dest) [] (by simp) r hmem
  have hr3 : r ≠ ".." := fun h0 => hup (h0 ▸ hmem)
  have hlast := segs_Join_last bd dest hne hrel hup
  rw [hr] at hlast
  obtain ⟨A, hA⟩ := List.getLast?_eq_some_iff.1 hlast
  rw [resolve_Dir cwd _ _ A r h1 hA hnd.1 hnd.2 hr3, List.dropLast_append_of_ne_nil _ hrel]

/-! ## Entries after a call -/

theorem prefix_incomparable_append (old new r : Loc) (h1 : old.isPrefixOf new = false)
    (h2 : new.isPrefixOf old = false) : new.isPrefixOf (old ++ r) = false := by
  rw [Bool.eq_false_iff] at h1 h2 ⊢
  intro h
  rw [List.isPrefixOf_iff_prefix] at h
  rcases List.prefix_or_prefix_of_prefix h (List.prefix_append old r) with h3 | h3
  · exact h2 (List.isPrefixOf_iff_prefix.2 h3)
  · exact h1 (List.isPrefixOf_iff_prefix.2 h3)

theorem lookupFs_moveTree (old new : Loc) (h1 : old.isPrefixOf new = false)
    (h2 : new.isPrefixOf old = false) (fs : List (Loc × Entry)) (q : Loc) :
    lookupFs (moveTree fs old new) q
      = if new.isPrefixOf q then lookupFs fs (old ++ q.drop new.length)
        else if old.isPrefixOf q then none else lookupFs fs q := by
  induction fs with
  | nil => simp [moveTree, lookupFs]
  | cons x rest ih =>
    obtain ⟨k, e⟩ := x
    have hmt : moveTree ((k, e) :: rest) old new
        = if new.isPrefixOf k then moveTree rest old new
          else (if old.isPrefixOf k then (new ++ k.drop old.length, e) else (k, e))
                :: moveTree rest old new := by
      unfold moveTree
      by_cases hk : new.isPrefixOf k = true
      · simp [List.filter_cons, hk]
      · simp [List.filter_cons, hk]
    rw [hmt]
    have hR : ∀ K, lookupFs ((k, e) :: rest) K = if k = K then some e else lookupFs rest K :=
      fun K => rfl
    have hL : ∀ (k' : Loc) (tl : List (Loc × Entry)),
        lookupFs ((k', e) :: tl) q = if k' = q then some e else lookupFs tl q := fun _ _ => rfl
    by_cases hk1 : new.isPrefixOf k = true
    · -- the entry lies under the new name and is replaced
      rw [if_pos hk1, ih, hR, hR]
      by_cases hq1 : new.isPrefixOf q = true
      · have hne : k ≠ old ++ q.drop new.length := by
          intro h0
          rw [h0, prefix_incomparable_append old new _ h1 h2] at hk1
          cases hk1
        simp only [if_pos hq1, if_neg hne]
      · by_cases hq2 : old.isPrefixOf q = true
        · simp only [if_neg hq1, if_pos hq2]
        · have hne : k ≠ q := by
            intro h0
            rw [h0] at hk1
            exact hq1 hk1
          simp only [if_neg hq1, if_neg hq2, if_neg hne]
    · rw [if_neg hk1]
      by_cases hk2 : old.isPrefixOf k = true
      · -- the entry lies under the old name and moves
        rw [if_pos hk2, hL, ih, hR, hR]
        have hkeq : old ++ k.drop old.length = k :=
          List.prefix_iff_eq_append.1 (List.isPrefixOf_iff_prefix.1 hk2)
        by_cases hq1 : new.isPrefixOf q = true
        · have hqeq : new ++ q.drop new.length = q :=
            List.prefix_iff_eq_append.1 (List.isPrefixOf_iff_prefix.1 hq1)
          by_cases ht : k.drop old.length = q.drop new.length
          · have e1 : new ++ k.drop old.length = q := by rw [ht, hqeq]
            have e2 : k = old ++ q.drop new.length := by rw [← ht, hkeq]
            simp only [if_pos hq1, if_pos e1, if_pos e2]
          · have e1 : new ++ k.drop old.length ≠ q := by
              intro h0
              rw [← hqeq] at h0
              exact ht (List.append_cancel_left h0)
            have e2 : k ≠ old ++ q.drop new.length := by
              intro h0
              rw [← hkeq] at h0
              exact ht (List.append_cancel_left h0)
            simp only [if_pos hq1, if_neg e1, if_neg e2]
        · have e1 : new ++ k.drop old.length ≠ q := by
            intro h0
            apply hq1
            rw [← h0]
            exact List.isPrefixOf_iff_prefix.2 (List.prefix_append _ _)
          by_cases hq2 : old.isPrefixOf q = true
          · simp only [if_neg hq1, if_neg e1, if_pos hq2]
          · have e2 : k ≠ q := by
              intro h0
              rw [h0] at hk2
              exact hq2 hk2
            simp only [if_neg hq1, if_neg e1, if_neg hq2, if_neg e2]
      · -- the entry is elsewhere and stays
        rw [if_neg hk2, hL, ih, hR, hR]
        by_cases hq1 : new.isPrefixOf q = true
        · have e1 : k ≠ q := by
            intro h0
            rw [h0] at hk1
            exact hk1 hq1
          have e2 : k ≠ old ++ q.drop new.length := by
            intro h0
            apply hk2
            rw [h0]
            exact List.isPrefixOf_iff_prefix.2 (List.prefix_append _ _)
          simp only [if_pos hq1, if_neg e1, if_neg e2]
        · by_cases hq2 : old.isPrefixOf q = true
          · have e1 : k ≠ q := by
              intro h0
              rw [h0] at hk2
              exact hk2 hq2
            simp only [if_neg hq1, if_pos hq2, if_neg e1]
          · simp only [if_neg hq1, if_neg hq2]

theorem look_put (w : World) (p q : Loc) (e : Entry) :
    (w.put p e).look q = if q = [] then some .dir else if p = q then some e else w.look q := by
  unfold World.look World.put
  by_cases hq : q = []
  · simp [hq]
  · simp [hq, lookupFs]

theorem put_cwd (w : World) (p : Loc) (e : Entry) : (w.put p e).cwd = w.cwd := rfl

theorem Lstat_ok_iff (w : World) (name : String) (e : Entry) :
    Lstat w name = .ok e ↔ ∃ p, resolve w.cwd name = some p ∧ w.look p = some e := by
  unfold Lstat
  cases hr : resolve w.cwd name with
  | none => simp
  | some p =>
    cases hl : w.look p with
    | none => simp [hl]
    | some e2 =>
      simp only [hl, Option.some.injEq, exists_eq_left']
      constructor
      · intro h; cases h; rfl
      · intro h; cases h; rfl

theorem Lstat_error_iff (w : World) (name : String) :
    (∃ e, Lstat w name = .error e) ↔ ∀ p, resolve w.cwd name = some p → w.look p = none := by
  unfold Lstat
  cases hr : resolve w.cwd name with
  | none => simp
  | some p =>
    cases hl : w.look p with
    | none => simp [hl]
    | some e2 => simp [hl]

theorem look_root (w : World) : w.look [] = some .dir := by simp [World.look]

theorem backup_of_absent (i : Installer) (w : World) (dest : String) (e : Errno)
    (h : Lstat w (Join i.destDir dest) = .error e) : backup i w dest = .ret none i w := by
  unfold backup
  rw [h]

theorem install_error_unchanged (i : Installer) (w : World) (src dest : String)
    (h : (install i w src dest).1 ≠ none) : (install i w src dest).2 = w := by
  unfold install at h ⊢
  cases hs : Lstat w (Join i.srcDir src) with
  | error e => simp
  | ok fi =>
    simp only [hs] at h ⊢
    by_cases hd : fi.IsDir = true
    · simp only [hd, if_true] at h ⊢
      cases hy : Symlink w (Join i.srcDir src) (Join i.destDir dest) with
      | error e => simp
      | ok w1 => simp [hy] at h
    · simp only [hd] at h ⊢
      cases hy : Link w (Join i.srcDir src) (Join i.destDir dest) with
      | error e => simp
      | ok w1 => simp [hy] at h

theorem install_of_absent (i : Installer) (w : World) (src dest : String) (fi : Entry)
    (px : Loc) (habs : w.look px = none)
    (hsrc : Lstat w (Join i.srcDir src) = .ok fi)
    (hres : resolve w.cwd (Join i.destDir dest) = some px)
    (hpar : w.look px.dropLast = some .dir)
    (hrf : ∀ ps, resolve w.cwd (Join i.srcDir src) = some ps →
      w.refuse (linkCall fi (Join i.srcDir src) ps px) = none) :
    install i w src dest
      = (none, w.put px (if fi.IsDir then .symlink (Join i.srcDir src) else fi)) := by
  obtain ⟨ps, hps, hls⟩ := (Lstat_ok_iff _ _ _).1 hsrc
  have hr := hrf ps hps
  have hne : Join i.srcDir src ≠ "" := by
    intro h0
    rw [h0] at hps
    simp [resolve] at hps
  have hcc : w.canCreate px = .ok () := by
    simp [World.canCreate, habs, hpar]
  unfold install
  rw [hsrc]
  cases fi with
  | dir =>
    simp only [linkCall, Entry.IsDir, if_true] at hr
    simp [Entry.IsDir, Symlink, hne, hres, hcc, hr]
  | file n =>
    simp only [linkCall, Entry.IsDir, Bool.false_eq_true, if_false] at hr
    simp [Entry.IsDir, Link, hps, hres, hls, hcc, hr]
  | symlink t =>
    simp only [linkCall, Entry.IsDir, Bool.false_eq_true, if_false] at hr
    simp [Entry.IsDir, Link, hps, hres, hls, hcc, hr]

theorem Install_of_absent (i : Installer) (w : World) (src dest : String) (e : Errno)
    (habs : Lstat w (Join i.destDir dest) = .error e) :
    Install i w src dest
      = match install i w src dest with
        | (some err, w2) => .ret (some (.installFailed src dest err)) i w2
        | (none, w2) => .ret none i w2 := by
  unfold Install
  rw [backup_of_absent i w dest e habs]

/-! ## Calls change the entries only -/

theorem Rename_shape (w w' : World) (a b : String) (h : Rename w a b = .ok w') :
    w' = { w with fs := w'.fs } := by
  unfold Rename at h
  repeat' split at h
  all_goals (cases h; try rfl)

theorem Link_shape (w w' : World) (a b : String) (h : Link w a b = .ok w') :
    w' = { w with fs := w'.fs } := by
  unfold Link at h
  repeat' split at h
  all_goals (cases h; try rfl)

theorem Symlink_shape (w w' : World) (a b : String) (h : Symlink w a b = .ok w') :
    w' = { w with fs := w'.fs } := by
  unfold Symlink at h
  repeat' split at h
  all_goals (cases h; try rfl)

theorem mkdirAllFrom_shape (l : List String) : ∀ (w : World) (base : Loc),
    (mkdirAllFrom w base l).1 = { w with fs := (mkdirAllFrom w base l).1.fs } := by
  induction l with
  | nil => intro w base; rfl
  | cons n rest ih =>
    intro w base
    unfold mkdirAllFrom
    split
    · exact ih w _
    · rfl
    · split
      · rfl
      · rw [ih (w.put (base ++ [n]) .dir) _]
        rfl

theorem MkdirAll_shape (w : World) (path : String) :
    (MkdirAll w path).1 = { w with fs := (MkdirAll w path).1.fs } := by
  unfold MkdirAll
  split
  · rfl
  · exact mkdirAllFrom_shape _ w []

theorem install_shape (i : Installer) (w : World) (src dest : String) :
    (install i w src dest).2 = { w with fs := (install i w src dest).2.fs } := by
  unfold install
  repeat' split
  all_goals first
    | rfl
    | (rename_i h; first | exact Symlink_shape _ _ _ _ h | exact Link_shape _ _ _ _ h)

theorem append_ne_empty (s t : String) (h : s ≠ "") : s ++ t ≠ "" := by
  apply str_data_ne
  rw [String.data_append]
  intro h0
  have := List.append_eq_nil.1 h0
  exact h (String.ext this.1)

theorem joinPath_ne_empty (dir : String) : joinPath dir "backup" ≠ "" := by
  unfold joinPath
  split <;> (apply str_data_ne; simp [String.data_append])

theorem canCreate_ok_iff (w : World) (p : Loc) (u : Unit) :
    w.canCreate p = .ok u ↔ w.look p = none ∧ w.look p.dropLast = some .dir := by
  unfold World.canCreate
  cases hl : w.look p with
  | some e => simp
  | none =>
    cases hp : w.look p.dropLast with
    | none => simp
    | some e => cases e <;> simp

theorem Mkdir_ok_iff (w w' : World) (name : String) :
    Mkdir w name = .ok w' ↔ ∃ p, resolve w.cwd name = some p ∧ w.look p = none
      ∧ w.look p.dropLast = some .dir ∧ w.refuse (.mkdir p) = none ∧ w' = w.put p .dir := by
  unfold Mkdir
  cases hr : resolve w.cwd name with
  | none => simp
  | some p =>
    cases hc : w.canCreate p with
    | error e =>
      have : ¬ (w.look p = none ∧ w.look p.dropLast = some .dir) := by
        intro h
        rw [(canCreate_ok_iff w p ()).2 h] at hc
        cases hc
      simp only [hc, Option.some.injEq, exists_eq_left']
      constructor
      · intro h; cases h
      · intro h; exact absurd ⟨h.1, h.2.1⟩ this
    | ok u =>
      have := (canCreate_ok_iff w p u).1 hc
      cases hf : w.refuse (.mkdir p) with
      | some e => simp [hc, hf]
      | none => simp [hc, this, hf, eq_comm]

theorem mkdirTempTry_ok (pre : String) : ∀ (n : Nat) (w w' : World) (name : String),
    mkdirTempTry pre n w = (w', .ok name) →
    ∃ k p, name = pre ++ String.mk ((w.rnd (w.tick + k)).map digitChar)
      ∧ resolve w.cwd name = some p ∧ w.look p = none ∧ w.look p.dropLast = some .dir
      ∧ w' = { w with fs := (p, .dir) :: w.fs, tick := w.tick + k + 1,
                      temps := name :: w.temps } := by
  intro n
  induction n with
  | zero => intro w w' name h; simp [mkdirTempTry] at h
  | succ n ih =>
    intro w w' name h
    unfold mkdirTempTry at h
    cases hm : Mkdir { w with tick := w.tick + 1 } (pre ++ nextRandom w) with
    | ok w2 =>
      rw [hm] at h
      simp only [Prod.mk.injEq, Except.ok.injEq] at h
      obtain ⟨p, h1, h2, h3, -, h4⟩ := (Mkdir_ok_iff _ _ _).1 hm
      refine ⟨0, p, ?_, ?_, h2, h3, ?_⟩
      · rw [← h.2]; rfl
      · rw [← h.2]; exact h1
      · rw [← h.1, ← h.2, h4]; rfl
    | error e =>
      rw [hm] at h
      cases e with
      | EEXIST =>
        simp only at h
        obtain ⟨k, p, h1, h2, h3, h4, h5⟩ := ih _ _ _ h
        refine ⟨k + 1, p, ?_, h2, h3, h4, ?_⟩
        · rw [h1]; simp only [Nat.add_assoc, Nat.add_comm 1 k]
        · rw [h5]; simp only [Nat.add_assoc, Nat.add_comm 1 k]
      | ENOENT => simp at h
      | ENOTDIR => simp at h
      | EINVAL => simp at h
      | EPERM => simp at h
      | ENAMETOOLONG => simp at h
      | EXDEV => simp at h
      | EACCES => simp at h

theorem mkdirTempTry_error (pre : String) : ∀ (n : Nat) (w w' : World) (e : Errno),
    mkdirTempTry pre n w = (w', .error e) → ∃ k, w' = { w with tick := w.tick + k } := by
  intro n
  induction n with
  | zero =>
    intro w w' e h
    simp only [mkdirTempTry, Prod.mk.injEq] at h
    exact ⟨0, h.1 ▸ rfl⟩
  | succ n ih =>
    intro w w' e h
    unfold mkdirTempTry at h
    cases hm : Mkdir { w with tick := w.tick + 1 } (pre ++ nextRandom w) with
    | ok w2 => rw [hm] at h; simp at h
    | error e1 =>
      rw [hm] at h
      cases e1 with
      | EEXIST =>
        simp only at h
        obtain ⟨k, h5⟩ := ih _ _ _ h
        exact ⟨1 + k, by rw [h5]; simp only [Nat.add_assoc]⟩
      | ENOENT => simp only [Prod.mk.injEq] at h; exact ⟨1, h.1 ▸ rfl⟩
      | ENOTDIR => simp only [Prod.mk.injEq] at h; exact ⟨1, h.1 ▸ rfl⟩
      | EINVAL => simp only [Prod.mk.injEq] at h; exact ⟨1, h.1 ▸ rfl⟩
      | EPERM => simp only [Prod.mk.injEq] at h; exact ⟨1, h.1 ▸ rfl⟩
      | ENAMETOOLONG => simp only [Prod.mk.injEq] at h; exact ⟨1, h.1 ▸ rfl⟩
      | EXDEV => simp only [Prod.mk.injEq] at h; exact ⟨1, h.1 ▸ rfl⟩
      | EACCES => simp only [Prod.mk.injEq] at h; exact ⟨1, h.1 ▸ rfl⟩

theorem MkdirTemp_ok (w w1 : World) (dir tmp : String)
    (h : MkdirTemp w dir "backup" = (w1, .ok tmp)) :
    tmp ≠ "" ∧ ∃ k p,
      tmp = joinPath (if dir = "" then w.tmp else dir) "backup"
              ++ String.mk ((w.rnd (w.tick + k)).map digitChar)
      ∧ resolve w.cwd tmp = some p ∧ w.look p = none ∧ w.look p.dropLast = some .dir
      ∧ w1 = { w with fs := (p, .dir) :: w.fs, tick := w.tick + k + 1,
                      temps := tmp :: w.temps } := by
  unfold MkdirTemp at h
  obtain ⟨k, p, h1, h2⟩ := mkdirTempTry_ok _ _ _ _ _ h
  refine ⟨?_, k, p, h1, h2⟩
  rw [h1]
  exact append_ne_empty _ _ (joinPath_ne_empty _)

theorem backupPath_set (i : Installer) (w : World) (d : String) (h : i.backupDir ≠ "") :
    backupPath i w d = .ret (Join i.backupDir d, none) i w := by
  simp [backupPath, h]

theorem backupPath_unset (i : Installer) (w : World) (d : String) (h : i.backupDir = "") :
    (∃ w1 e, MkdirTemp w i.destDir "backup" = (w1, .error e) ∧ backupPath i w d = .exit w1)
    ∨ (∃ w1 tmp, MkdirTemp w i.destDir "backup" = (w1, .ok tmp)
        ∧ backupPath i w d = .ret (Join tmp d, none) { i with backupDir := tmp } w1) := by
  unfold backupPath
  cases hm : MkdirTemp w i.destDir "backup" with
  | mk w1 r =>
    cases r with
    | error e => left; exact ⟨w1, e, rfl, by simp [h]⟩
    | ok tmp => right; exact ⟨w1, tmp, rfl, by simp [h]⟩

theorem backup_after_path (i : Installer) (w : World) (dest : String) (e0 : Entry)
    (hl : Lstat w (Join i.destDir dest) = .ok e0) (back : String) (i1 : Installer) (w1 : World)
    (hp : backupPath i w dest = .ret (back, none) i1 w1) :
    backup i w dest
      = match MkdirAll w1 (Dir back) with
        | (w2, some e) => .ret (some (.sys e)) i1 w2
        | (w2, none) =>
          match Rename w2 (Join i.destDir dest) back with
          | .error e => .ret (some (.sys e)) i1 w2
          | .ok w3 => .ret none i1 w3 := by
  unfold backup
  rw [hl, hp]

theorem backup_after_path_temps (i : Installer) (w : World) (dest : String) (e0 : Entry)
    (hl : Lstat w (Join i.destDir dest) = .ok e0) (back : String) (i1 : Installer) (w1 : World)
    (hp : backupPath i w dest = .ret (back, none) i1 w1) :
    ∃ r w', backup i w dest = .ret r i1 w' ∧ w' = { w1 with fs := w'.fs } := by
  rw [backup_after_path i w dest e0 hl back i1 w1 hp]
  have hs := MkdirAll_shape w1 (Dir back)
  cases hm : MkdirAll w1 (Dir back) with
  | mk w2 r =>
    rw [hm] at hs
    simp only at hs
    cases r with
    | some e => exact ⟨_, _, rfl, hs⟩
    | none =>
      simp only
      cases hr : Rename w2 (Join i.destDir dest) back with
      | error e => exact ⟨_, _, rfl, hs⟩
      | ok w3 =>
        refine ⟨_, _, rfl, ?_⟩
        have h3 := Rename_shape _ _ _ _ hr
        rw [h3, hs]

theorem backup_inv (i : Installer) (w : World) (dest : String) :
    match backup i w dest with
    | .ret _ i' w' =>
      (i' = i ∧ w'.temps = w.temps)
      ∨ (i.backupDir = "" ∧ i'.backupDir ≠ "" ∧ i' = { i with backupDir := i'.backupDir }
          ∧ w'.temps = i'.backupDir :: w.temps)
    | .exit w' => i.backupDir = "" ∧ w'.temps = w.temps := by
  cases hl : Lstat w (Join i.destDir dest) with
  | error e =>
    rw [backup_of_absent i w dest e hl]
    exact Or.inl ⟨rfl, rfl⟩
  | ok e0 =>
    by_cases hb : i.backupDir = ""
    · rcases backupPath_unset i w dest hb with ⟨w1, e, hm, hp⟩ | ⟨w1, tmp, hm, hp⟩
      · have : backup i w dest = .exit w1 := by
          unfold backup
          rw [hl, hp]
        rw [this]
        refine ⟨hb, ?_⟩
        obtain ⟨k, hk⟩ := mkdirTempTry_error _ _ _ _ _ hm
        rw [hk]
      · obtain ⟨r, w', hbk, hw'⟩ := backup_after_path_temps i w dest e0 hl _ _ _ hp
        rw [hbk]
        right
        obtain ⟨hne, k, p, -, -, -, -, hw1⟩ := MkdirTemp_ok _ _ _ _ hm
        refine ⟨hb, hne, rfl, ?_⟩
        rw [hw', hw1]
    · have hp := backupPath_set i w dest hb
      obtain ⟨r, w', hbk, hw'⟩ := backup_after_path_temps i w dest e0 hl _ _ _ hp
      rw [hbk]
      left
      exact ⟨rfl, by rw [hw']⟩

theorem Install_inv (i : Installer) (w : World) (src dest : String) :
    match Install i w src dest with
    | .ret _ i' w' =>
      (i' = i ∧ w'.temps = w.temps)
      ∨ (i.backupDir = "" ∧ i'.backupDir ≠ "" ∧ i' = { i with backupDir := i'.backupDir }
          ∧ w'.temps = i'.backupDir :: w.temps)
    | .exit w' => i.backupDir = "" ∧ w'.temps = w.temps := by
  have hb := backup_inv i w dest
  unfold Install
  cases hbk : backup i w dest with
  | exit w1 => rw [hbk] at hb; exact hb
  | ret v i1 w1 =>
    rw [hbk] at hb
    simp only at hb
    cases v with
    | some err => exact hb
    | none =>
      simp only
      have hs := install_shape i1 w1 src dest
      cases hin : install i1 w1 src dest with
      | mk r1 w2 =>
        rw [hin] at hs
        simp only at hs
        have ht : w2.temps = w1.temps := by rw [hs]
        cases r1 with
        | none => simp only; rw [ht]; exact hb
        | some err => simp only; rw [ht]; exact hb

theorem backup_exited_iff (i : Installer) (w : World) (dest : String) :
    (backup i w dest).exited = true
      ↔ ((∃ e0, Lstat w (Join i.destDir dest) = .ok e0) ∧ i.backupDir = ""
          ∧ ∃ e, (MkdirTemp w i.destDir "backup").2 = .error e) := by
  cases hl : Lstat w (Join i.destDir dest) with
  | error e =>
    rw [backup_of_absent i w dest e hl]
    simp [Run.exited]
  | ok e0 =>
    by_cases hb : i.backupDir = ""
    · rcases backupPath_unset i w dest hb with ⟨w1, e, hm, hp⟩ | ⟨w1, tmp, hm, hp⟩
      · have : backup i w dest = .exit w1 := by
          unfold backup
          rw [hl, hp]
        rw [this, hm]
        simp [Run.exited, hb]
      · obtain ⟨r, w', hbk, -⟩ := backup_after_path_temps i w dest e0 hl _ _ _ hp
        rw [hbk, hm]
        simp [Run.exited]
    · have hp := backupPath_set i w dest hb
      obtain ⟨r, w', hbk, -⟩ := backup_after_path_temps i w dest e0 hl _ _ _ hp
      rw [hbk]
      simp [Run.exited, hb]

theorem Install_exited_eq (i : Installer) (w : World) (src dest : String) :
    (Install i w src dest).exited = (backup i w dest).exited := by
  unfold Install
  cases hbk : backup i w dest with
  | exit w1 => rfl
  | ret v i1 w1 =>
    cases v with
    | some err => rfl
    | none =>
      simp only
      cases hin : install i1 w1 src dest with
      | mk r1 w2 => cases r1 <;> rfl

theorem mainLoop_inv (entries : List (String × String)) :
    ∀ (i : Installer) (w : World) (done : List error),
    match mainLoop entries i w done with
    | .ret _ i' w' =>
      (i' = i ∧ w'.temps = w.temps)
      ∨ (i.backupDir = "" ∧ i'.backupDir ≠ "" ∧ i' = { i with backupDir := i'.backupDir }
          ∧ w'.temps = i'.backupDir :: w.temps)
    | .exit w' => i.backupDir = "" ∧ w'.temps = w.temps := by
  induction entries with
  | nil => intro i w done; exact Or.inl ⟨rfl, rfl⟩
  | cons x rest ih =>
    intro i w done
    obtain ⟨src, dest⟩ := x
    have hstep := Install_inv i w src dest
    unfold mainLoop
    cases hI : Install i w src dest with
    | exit w1 => rw [hI] at hstep; exact hstep
    | ret r i1 w1 =>
      rw [hI] at hstep
      simp only at hstep ⊢
      have hrest := ih i1 w1 (done ++ [r])
      cases hm : mainLoop rest i1 w1 (done ++ [r]) with
      | exit w2 =>
        rw [hm] at hrest
        simp only at hrest ⊢
        rcases hstep with ⟨h1, h2⟩ | ⟨h1, h2, h3, h4⟩
        · rw [h1] at hrest; exact ⟨hrest.1, by rw [hrest.2, h2]⟩
        · exact absurd hrest.1 h2
      | ret rs i2 w2 =>
        rw [hm] at hrest
        simp only at hrest ⊢
        rcases hstep with ⟨h1, h2⟩ | ⟨h1, h2, h3, h4⟩
        · rcases hrest with ⟨g1, g2⟩ | ⟨g1, g2, g3, g4⟩
          · left; exact ⟨by rw [g1, h1], by rw [g2, h2]⟩
          · right
            refine ⟨by rw [← h1]; exact g1, g2, ?_, by rw [g4, h2]⟩
            rw [g3, h1]
        · rcases hrest with ⟨g1, g2⟩ | ⟨g1, g2, g3, g4⟩
          · right
            rw [g1, g2]
            exact ⟨h1, h2, h3, h4⟩
          · exact absurd g1 h2

theorem mainLoop_all (entries : List (String × String)) :
    ∀ (i : Installer) (w : World) (done : List error),
    (mainLoop entries i w done).exited = false →
    ∃ rs i' w', mainLoop entries i w done = .ret (done ++ rs) i' w'
      ∧ rs.length = entries.length := by
  induction entries with
  | nil => intro i w done _; exact ⟨[], i, w, by simp [mainLoop], rfl⟩
  | cons x rest ih =>
    intro i w done h
    obtain ⟨src, dest⟩ := x
    unfold mainLoop at h ⊢
    cases hI : Install i w src dest with
    | exit w1 => rw [hI] at h; simp [Run.exited] at h
    | ret r i1 w1 =>
      rw [hI] at h
      simp only at h ⊢
      obtain ⟨rs, i', w', h1, h2⟩ := ih i1 w1 (done ++ [r]) h
      exact ⟨r :: rs, i', w', by rw [h1]; simp, by simp [h2]⟩

theorem mainLoop_set (entries : List (String × String)) (i : Installer) (w : World)
    (done : List error) (hb : i.backupDir ≠ "") :
    ∃ rs w', mainLoop entries i w done = .ret (done ++ rs) i w'
      ∧ rs.length = entries.length ∧ w'.temps = w.temps := by
  have hinv := mainLoop_inv entries i w done
  have hall := mainLoop_all entries i w done
  cases hm : mainLoop entries i w done with
  | exit w1 => rw [hm] at hinv; exact absurd hinv.1 hb
  | ret rs i1 w1 =>
    rw [hm] at hinv hall
    simp only at hinv
    obtain ⟨rs', i', w', h1, h2⟩ := hall rfl
    simp only [Run.ret.injEq] at h1
    rcases hinv with ⟨g1, g2⟩ | ⟨g1, -⟩
    · exact ⟨rs', w1, by rw [h1.1, g1], h2, g2⟩
    · exact absurd g1 hb

/-! ## What a successful backup and link leave behind -/

theorem isPrefixOf_nil_left (l : Loc) : List.isPrefixOf ([] : Loc) l = true := by
  cases l <;> rfl

theorem look_moved (w : World) (old new : Loc) (h1 : old.isPrefixOf new = false)
    (h2 : new.isPrefixOf old = false) (q : Loc) :
    ({ w with fs := moveTree w.fs old new } : World).look q
      = if new.isPrefixOf q then w.look (old ++ q.drop new.length)
        else if old.isPrefixOf q then none else w.look q := by
  have hold : old ≠ [] := by
    intro h0
    rw [h0, isPrefixOf_nil_left] at h1
    cases h1
  have hnew : new ≠ [] := by
    intro h0
    rw [h0, isPrefixOf_nil_left] at h2
    cases h2
  unfold World.look
  by_cases hq : q = []
  · subst hq
    have e1 : new.isPrefixOf ([] : Loc) = false := by
      cases new with
      | nil => exact absurd rfl hnew
      | cons a b => rfl
    have e2 : old.isPrefixOf ([] : Loc) = false := by
      cases old with
      | nil => exact absurd rfl hold
      | cons a b => rfl
    simp only [↓reduceIte, e1, e2, Bool.false_eq_true]
  · have e3 : ∀ r, old ++ r ≠ [] := fun r h0 => hold (List.append_eq_nil.1 h0).1
    simp only [hq, if_false, e3]
    exact lookupFs_moveTree old new h1 h2 w.fs q

theorem look_moved_under (w : World) (old new : Loc) (h1 : old.isPrefixOf new = false)
    (h2 : new.isPrefixOf old = false) (s : Loc) :
    ({ w with fs := moveTree w.fs old new } : World).look (new ++ s) = w.look (old ++ s) := by
  rw [look_moved w old new h1 h2]
  have : new.isPrefixOf (new ++ s) = true := List.isPrefixOf_iff_prefix.2 (List.prefix_append _ _)
  simp [this]

theorem mkdirAllFrom_frame (l : List String) : ∀ (w : World) (base : Loc),
    (∀ q e, w.look q = some e → (mkdirAllFrom w base l).1.look q = some e)
    ∧ (∀ q, (mkdirAllFrom w base l).1.look q ≠ w.look q → q <+: base ++ l) := by
  induction l with
  | nil =>
    intro w base
    exact ⟨fun q e h => h, fun q h => absurd rfl h⟩
  | cons n rest ih =>
    intro w base
    have happ : base ++ n :: rest = (base ++ [n]) ++ rest := by simp
    unfold mkdirAllFrom
    cases hl : w.look (base ++ [n]) with
    | none =>
      simp only
      cases hf : w.refuse (.mkdir (base ++ [n])) with
      | some e => exact ⟨fun q e h => h, fun q h => absurd rfl h⟩
      | none =>
      simp only
      obtain ⟨i1, i2⟩ := ih (w.put (base ++ [n]) .dir) (base ++ [n])
      have hput : ∀ q, q ≠ base ++ [n] → (w.put (base ++ [n]) .dir).look q = w.look q := by
        intro q hq
        rw [look_put]
        by_cases h0 : q = []
        · simp [h0, look_root]
        · simp [h0, Ne.symm hq]
      constructor
      · intro q e hq
        apply i1
        rw [hput q]
        · exact hq
        · intro h0
          rw [h0, hl] at hq
          cases hq
      · intro q hq
        rw [happ]
        by_cases h0 : q = base ++ [n]
        · rw [h0]
          exact List.prefix_append _ _
        · apply i2
          rw [hput q h0]
          exact hq
    | some e0 =>
      cases e0 with
      | dir =>
        simp only
        obtain ⟨i1, i2⟩ := ih w (base ++ [n])
        refine ⟨i1, fun q hq => ?_⟩
        rw [happ]
        exact i2 q hq
      | file k => exact ⟨fun q e h => h, fun q h => absurd rfl h⟩
      | symlink t => exact ⟨fun q e h => h, fun q h => absurd rfl h⟩

theorem MkdirAll_frame (w : World) (path : String) (d : Loc)
    (hd : resolve w.cwd path = some d) :
    (∀ q e, w.look q = some e → (MkdirAll w path).1.look q = some e)
    ∧ (∀ q, (MkdirAll w path).1.look q ≠ w.look q → q <+: d) := by
  unfold MkdirAll
  rw [hd]
  have := mkdirAllFrom_frame d w []
  simpa using this

theorem Rename_ok_cases (w w' : World) (a b : String) (h : Rename w a b = .ok w') :
    ∃ po pn eo, resolve w.cwd a = some po ∧ resolve w.cwd b = some pn ∧ w.look po = some eo
      ∧ ((w' = w ∧ (po = pn ∨ (w.look pn = some eo ∧ eo ≠ .dir)))
        ∨ (po.isPrefixOf pn = false ∧ pn.isPrefixOf po = false
            ∧ w' = { w with fs := moveTree w.fs po pn })) := by
  unfold Rename at h
  cases hpo : resolve w.cwd a with
  | none => simp [hpo] at h
  | some po =>
    cases hpn : resolve w.cwd b with
    | none => simp [hpo, hpn] at h
    | some pn =>
      cases heo : w.look po with
      | none => simp [hpo, hpn, heo] at h
      | some eo =>
        refine ⟨po, pn, eo, rfl, rfl, heo, ?_⟩
        simp only [hpo, hpn, heo] at h
        by_cases c1 : w.look pn = some .dir
        · rw [if_pos c1] at h
          by_cases c2 : b = a ∨ po ≠ pn
          · rw [if_pos c2] at h
            cases h
          · rw [if_neg c2] at h
            left
            have : po = pn := by
              by_contra h0
              exact c2 (Or.inr h0)
            exact ⟨(Except.ok.inj h).symm, Or.inl this⟩
        · rw [if_neg c1] at h
          by_cases c2 : po = pn
          · rw [if_pos c2] at h
            left
            exact ⟨(Except.ok.inj h).symm, Or.inl c2⟩
          · rw [if_neg c2] at h
            by_cases c3 : po.isPrefixOf pn = true
            · rw [if_pos c3] at h
              cases h
            · rw [if_neg c3] at h
              by_cases c4 : pn.isPrefixOf po = true
              · rw [if_pos c4] at h
                cases h
              · rw [if_neg c4] at h
                have c3f : po.isPrefixOf pn = false := Bool.eq_false_iff.2 c3
                have c4f : pn.isPrefixOf po = false := Bool.eq_false_iff.2 c4
                cases hen : w.look pn with
                | some en =>
                  simp only [hen] at h
                  by_cases c5 : sameFile eo en = true
                  · rw [if_pos c5] at h
                    left
                    refine ⟨(Except.ok.inj h).symm, Or.inr ?_⟩
                    cases eo <;> cases en <;> simp [sameFile] at c5
                    rw [c5]
                    exact ⟨rfl, by simp⟩
                  · rw [if_neg c5] at h
                    by_cases c6 : eo = .dir
                    · rw [if_pos c6] at h
                      cases h
                    · rw [if_neg c6] at h
                      right
                      cases hf : w.refuse (.rename po pn) with
                      | some e => simp [hf] at h
                      | none =>
                        simp only [hf] at h
                        exact ⟨c3f, c4f, (Except.ok.inj h).symm⟩
                | none =>
                  simp only [hen] at h
                  cases hpar : w.look pn.dropLast with
                  | none => simp [hpar] at h
                  | some ep =>
                    cases ep with
                    | dir =>
                      simp only [hpar] at h
                      right
                      cases hf : w.refuse (.rename po pn) with
                      | some e => simp [hf] at h
                      | none =>
                        simp only [hf] at h
                        exact ⟨c3f, c4f, (Except.ok.inj h).symm⟩
                    | file k => simp [hpar] at h
                    | symlink t => simp [hpar] at h

theorem install_ok_inv (i : Installer) (w w' : World) (src dest : String)
    (h : install i w src dest = (none, w')) :
    ∃ px fi, resolve w.cwd (Join i.destDir dest) = some px ∧ w.look px = none
      ∧ Lstat w (Join i.srcDir src) = .ok fi
      ∧ w' = w.put px (if fi.IsDir then .symlink (Join i.srcDir src) else fi)
      ∧ w.look px.dropLast = some .dir
      ∧ ∀ ps, resolve w.cwd (Join i.srcDir src) = some ps →
          w.refuse (linkCall fi (Join i.srcDir src) ps px) = none := by
  unfold install at h
  cases hs : Lstat w (Join i.srcDir src) with
  | error e => simp [hs] at h
  | ok fi =>
    simp only [hs] at h
    by_cases hd : fi.IsDir = true
    · rw [if_pos hd] at h
      cases hy : Symlink w (Join i.srcDir src) (Join i.destDir dest) with
      | error e => simp [hy] at h
      | ok w1 =>
        simp only [hy, Prod.mk.injEq, true_and] at h
        unfold Symlink at hy
        split at hy
        · cases hy
        · cases hr : resolve w.cwd (Join i.destDir dest) with
          | none => simp [hr] at hy
          | some px =>
            simp only [hr] at hy
            cases hc : w.canCreate px with
            | error e => simp [hc] at hy
            | ok u =>
              simp only [hc] at hy
              cases hf : w.refuse (.symlink (Join i.srcDir src) px) with
              | some e => simp [hf] at hy
              | none =>
                simp only [hf, Except.ok.injEq] at hy
                refine ⟨px, fi, rfl, ((canCreate_ok_iff w px u).1 hc).1, rfl, ?_,
                  ((canCreate_ok_iff w px u).1 hc).2, ?_⟩
                · rw [← h, ← hy]
                  simp [hd]
                · intro ps _
                  simp only [linkCall, hd, if_true]
                  exact hf
    · rw [if_neg hd] at h
      cases hy : Link w (Join i.srcDir src) (Join i.destDir dest) with
      | error e => simp [hy] at h
      | ok w1 =>
        simp only [hy, Prod.mk.injEq, true_and] at h
        obtain ⟨ps, hps, hls⟩ := (Lstat_ok_iff _ _ _).1 hs
        unfold Link at hy
        cases hr : resolve w.cwd (Join i.destDir dest) with
        | none => simp [hps, hr] at hy
        | some px =>
          simp only [hps, hr, hls] at hy
          have key : ∀ e : Entry, e.IsDir = false →
              (match w.canCreate px with
                | .error err => (.error err : Except Errno World)
                | .ok _ =>
                  match w.refuse (.link ps px) with
                  | some err => .error err
                  | none => .ok (w.put px e)) = .ok w1 →
              w.look px = none ∧ w.look px.dropLast = some .dir
                ∧ w.refuse (.link ps px) = none ∧ w1 = w.put px e := by
            intro e _ hy
            cases hc : w.canCreate px with
            | error e => simp [hc] at hy
            | ok u =>
              simp only [hc] at hy
              cases hf : w.refuse (.link ps px) with
              | some e => simp [hf] at hy
              | none =>
                simp only [hf, Except.ok.injEq] at hy
                exact ⟨((canCreate_ok_iff w px u).1 hc).1, ((canCreate_ok_iff w px u).1 hc).2,
                  rfl, hy.symm⟩
          cases fi with
          | dir => simp [Entry.IsDir] at hd
          | file k =>
            obtain ⟨k1, k2, k3, k4⟩ := key (.file k) rfl hy
            refine ⟨px, .file k, rfl, k1, rfl, ?_, k2, ?_⟩
            · rw [← h, k4]
              simp [Entry.IsDir]
            · intro ps' hps'
              rw [hps] at hps'
              cases hps'
              simp only [linkCall, Entry.IsDir, Bool.false_eq_true, if_false]
              exact k3
          | symlink t =>
            obtain ⟨k1, k2, k3, k4⟩ := key (.symlink t) rfl hy
            refine ⟨px, .symlink t, rfl, k1, rfl, ?_, k2, ?_⟩
            · rw [← h, k4]
              simp [Entry.IsDir]
            · intro ps' hps'
              rw [hps] at hps'
              cases hps'
              simp only [linkCall, Entry.IsDir, Bool.false_eq_true, if_false]
              exact k3

theorem not_prefix_iff (a b : Loc) : a.isPrefixOf b = false ↔ ¬ a <+: b := by
  rw [Bool.eq_false_iff, ne_eq, List.isPrefixOf_iff_prefix]

theorem resolve_of_ne (cwd : Loc) (s : String) (h : s ≠ "") : ∃ p, resolve cwd s = some p := by
  unfold resolve
  simp [h]

theorem ne_of_resolve (cwd : Loc) (s : String) (p : Loc) (h : resolve cwd s = some p) :
    s ≠ "" := by
  intro h0
  rw [h0] at h
  simp [resolve] at h

theorem backup_ok_anatomy (i i' : Installer) (w w' : World) (dest : String) (e0 : Entry)
    (hl : Lstat w (Join i.destDir dest) = .ok e0)
    (h : backup i w dest = .ret none i' w')
    (hrel : relParts dest ≠ []) (hup : ".." ∉ relParts dest) :
    ∃ px b w2,
      resolve w.cwd (Join i.destDir dest) = some px ∧ w.look px = some e0
      ∧ i'.backupDir ≠ "" ∧ resolve w.cwd i'.backupDir = some b
      ∧ resolve w.cwd (Join i'.backupDir dest) = some (b ++ relParts dest)
      ∧ i'.srcDir = i.srcDir ∧ i'.destDir = i.destDir ∧ (i.backupDir ≠ "" → i' = i)
      ∧ (i.backupDir = "" → w.look b = none ∧ w2.look b = some .dir
          ∧ ∃ ds, b = (resolve w.cwd (if i.destDir = "" then w.tmp else i.destDir)).getD []
                        ++ ["backup" ++ String.mk (List.map digitChar ds)])
      ∧ w2.cwd = w.cwd ∧ w2.tmp = w.tmp ∧ w2.content = w.content
      ∧ (∀ q e, w.look q = some e → w2.look q = some e)
      ∧ (∀ q, w2.look q ≠ w.look q → q <+: b ++ (relParts dest).dropLast)
      ∧ Rename w2 (Join i.destDir dest) (Join i'.backupDir dest) = .ok w' := by
  obtain ⟨px, hpx, hlpx⟩ := (Lstat_ok_iff _ _ _).1 hl
  by_cases hb : i.backupDir = ""
  · rcases backupPath_unset i w dest hb with ⟨w1, e, hm, hp⟩ | ⟨w1, tmp, hm, hp⟩
    · have : backup i w dest = .exit w1 := by
        unfold backup
        rw [hl, hp]
      rw [this] at h
      cases h
    · obtain ⟨hne, k, p, htmp, hres, hnone, -, hw1⟩ := MkdirTemp_ok _ _ _ _ hm
      have hbk := backup_after_path i w dest e0 hl _ _ _ hp
      rw [h] at hbk
      have hcwd1 : w1.cwd = w.cwd := by rw [hw1]
      have hlook1 : ∀ q, w1.look q = (w.put p .dir).look q := by
        intro q
        rw [hw1]
        rfl
      obtain ⟨hj1, hj2⟩ := resolve_backup_path w.cwd tmp dest p hres hrel hup
      have hfr := MkdirAll_frame w1 (Dir (Join tmp dest)) _ (by rw [hcwd1]; exact hj2)
      have hsh := MkdirAll_shape w1 (Dir (Join tmp dest))
      cases hma : MkdirAll w1 (Dir (Join tmp dest)) with
      | mk w2 r =>
        rw [hma] at hbk hfr hsh
        simp only at hfr hsh
        obtain ⟨hf1, hf2⟩ := hfr
        cases r with
        | some e => simp at hbk
        | none =>
          simp only at hbk
          cases hrn : Rename w2 (Join i.destDir dest) (Join tmp dest) with
          | error e => rw [hrn] at hbk; simp at hbk
          | ok w3 =>
            rw [hrn] at hbk
            simp only [Run.ret.injEq, true_and] at hbk
            obtain ⟨hi', hw'⟩ := hbk
            have hpne : p ≠ [] := by
              intro h0
              rw [h0, look_root] at hnone
              cases hnone
            have hp1 : w1.look p = some .dir := by
              rw [hlook1, look_put]
              simp [hpne]
            have hput : ∀ q, q ≠ p → w1.look q = w.look q := by
              intro q hq
              rw [hlook1, look_put]
              by_cases h0 : q = []
              · simp [h0, look_root]
              · simp [h0, Ne.symm hq]
            refine ⟨px, p, w2, hpx, hlpx, ?_, ?_, ?_, ?_, ?_, ?_, ?_, ?_, ?_, ?_, ?_, ?_, ?_⟩
            · rw [hi']; exact hne
            · rw [hi']; exact hres
            · rw [hi']; exact hj1
            · rw [hi']
            · rw [hi']
            · intro h0; exact absurd hb h0
            · intro _
              refine ⟨hnone, hf1 p _ hp1, w.rnd (w.tick + k), ?_⟩
              have := resolve_tempName w.cwd (if i.destDir = "" then w.tmp else i.destDir)
                (w.rnd (w.tick + k))
              rw [← htmp, hres] at this
              exact Option.some.inj this
            · rw [hsh, hw1]
            · rw [hsh, hw1]
            · rw [hsh, hw1]
            · intro q e hq
              apply hf1
              rw [hput q]
              · exact hq
              · intro h0
                rw [h0, hnone] at hq
                cases hq
            · intro q hq
              by_cases h0 : q = p
              · rw [h0]
                exact List.prefix_append _ _
              · apply hf2
                rw [hput q h0]
                exact hq
            · rw [hi', hw']
              exact hrn
  · have hp := backupPath_set i w dest hb
    obtain ⟨b, hbres⟩ := resolve_of_ne w.cwd i.backupDir hb
    have hbk := backup_after_path i w dest e0 hl _ _ _ hp
    rw [h] at hbk
    obtain ⟨hj1, hj2⟩ := resolve_backup_path w.cwd i.backupDir dest b hbres hrel hup
    have hfr := MkdirAll_frame w (Dir (Join i.backupDir dest)) _ hj2
    have hsh := MkdirAll_shape w (Dir (Join i.backupDir dest))
    cases hma : MkdirAll w (Dir (Join i.backupDir dest)) with
    | mk w2 r =>
      rw [hma] at hbk hfr hsh
      simp only at hfr hsh
      obtain ⟨hf1, hf2⟩ := hfr
      cases r with
      | some e => simp at hbk
      | none =>
        simp only at hbk
        cases hrn : Rename w2 (Join i.destDir dest) (Join i.backupDir dest) with
        | error e => rw [hrn] at hbk; simp at hbk
        | ok w3 =>
          rw [hrn] at hbk
          simp only [Run.ret.injEq, true_and] at hbk
          obtain ⟨hi', hw'⟩ := hbk
          refine ⟨px, b, w2, hpx, hlpx, ?_, ?_, ?_, ?_, ?_, ?_, ?_, ?_, ?_, ?_, hf1, hf2, ?_⟩
          · rw [hi']; exact hb
          · rw [hi']; exact hbres
          · rw [hi']; exact hj1
          · rw [hi']
          · rw [hi']
          · intro _; exact hi'
          · intro h0; exact absurd h0 hb
          · rw [hsh]
          · rw [hsh]
          · rw [hsh]
          · rw [hi', hw']
            exact hrn

theorem backup_ok_found (i i' : Installer) (w w' : World) (dest : String) (e0 : Entry)
    (hl : Lstat w (Join i.destDir dest) = .ok e0)
    (h : backup i w dest = .ret none i' w')
    (hrel : relParts dest ≠ []) (hup : ".." ∉ relParts dest) :
    ∃ px b,
      resolve w.cwd (Join i.destDir dest) = some px
      ∧ w'.cwd = w.cwd
      ∧ resolve w.cwd i'.backupDir = some b
      ∧ resolve w.cwd (Join i'.backupDir dest) = some (b ++ relParts dest)
      ∧ w'.look (b ++ relParts dest) = some e0
      ∧ (e0 = .dir → ∀ s, w'.look (b ++ relParts dest ++ s) = w.look (px ++ s)) := by
  obtain ⟨px, b, w2, hpx, hlpx, hne, hbres, hj, -, -, -, -, hcwd, -, -, hf1, hf2, hrn⟩ :=
    backup_ok_anatomy i i' w w' dest e0 hl h hrel hup
  have hsh := Rename_shape _ _ _ _ hrn
  obtain ⟨po, pn, eo, hpo, hpn, heo, hcase⟩ := Rename_ok_cases _ _ _ _ hrn
  rw [hcwd, hpx] at hpo
  rw [hcwd, hj] at hpn
  have e1 := Option.some.inj hpo
  have e2 := Option.some.inj hpn
  subst e1
  subst e2
  have heq : eo = e0 := by
    have := hf1 px e0 hlpx
    rw [heo] at this
    exact Option.some.inj this
  subst heq
  have hlen : ∀ s : Loc, ¬ (b ++ relParts dest ++ s) <+: b ++ (relParts dest).dropLast := by
    intro s hp
    have := hp.length_le
    have hr : 0 < (relParts dest).length := List.length_pos.2 hrel
    simp only [List.length_append, List.length_dropLast] at this
    omega
  have hframe : ∀ s, ¬ px <+: b ++ relParts dest → w2.look (px ++ s) = w.look (px ++ s) := by
    intro s hn
    by_contra hne2
    have h1 := hf2 _ hne2
    apply hn
    have h2 : b ++ (relParts dest).dropLast <+: b ++ relParts dest :=
      (List.prefix_append_right_inj b).2 (List.dropLast_prefix _)
    exact (List.prefix_append px s).trans (h1.trans h2)
  refine ⟨px, b, hpx, ?_, hbres, hj, ?_, ?_⟩
  · rw [hsh]; exact hcwd
  · rcases hcase with ⟨hw, hor⟩ | ⟨h1, h2, hw⟩
    · rw [hw]
      rcases hor with h0 | h0
      · rw [← h0]; exact heo
      · exact h0.1
    · rw [hw]
      have := look_moved_under w2 px (b ++ relParts dest) h1 h2 []
      simp only [List.append_nil] at this
      rw [this]
      exact heo
  · intro hdir s
    rcases hcase with ⟨hw, hor⟩ | ⟨h1, h2, hw⟩
    · rw [hw]
      rcases hor with h0 | h0
      · by_contra hne2
        rw [← h0] at hne2
        have := hf2 _ hne2
        rw [h0] at this
        exact hlen s this
      · exact absurd hdir h0.2
    · rw [hw, look_moved_under w2 px (b ++ relParts dest) h1 h2 s]
      exact hframe s ((not_prefix_iff _ _).1 h1)

theorem Install_ok_split (i i' : Installer) (w w' : World) (src dest : String)
    (h : Install i w src dest = .ret none i' w') :
    ∃ w3, backup i w dest = .ret none i' w3 ∧ install i' w3 src dest = (none, w') := by
  unfold Install at h
  cases hb : backup i w dest with
  | exit w1 => rw [hb] at h; cases h
  | ret v i1 w3 =>
    rw [hb] at h
    cases v with
    | some err => simp at h
    | none =>
      simp only at h
      cases hin : install i1 w3 src dest with
      | mk r w4 =>
        rw [hin] at h
        cases r with
        | some err => simp at h
        | none =>
          simp only [Run.ret.injEq, true_and] at h
          obtain ⟨h1, h2⟩ := h
          subst h1
          subst h2
          exact ⟨w3, rfl, hin⟩

theorem look_put_ne (w : World) (p q : Loc) (e : Entry) (h : q ≠ p) :
    (w.put p e).look q = w.look q := by
  rw [look_put]
  by_cases h0 : q = []
  · simp [h0, look_root]
  · simp [h0, Ne.symm h]

theorem look_put_self (w : World) (p : Loc) (e : Entry) (h : p ≠ []) :
    (w.put p e).look p = some e := by
  rw [look_put]
  simp [h]

theorem Install_ok_anatomy (i i' : Installer) (w w' : World) (src dest : String) (e0 : Entry)
    (hl : Lstat w (Join i.destDir dest) = .ok e0)
    (h : Install i w src dest = .ret none i' w')
    (hrel : relParts dest ≠ []) (hup : ".." ∉ relParts dest) :
    ∃ px b fi,
      resolve w.cwd (Join i.destDir dest) = some px ∧ w.look px = some e0
      ∧ i'.backupDir ≠ "" ∧ resolve w.cwd i'.backupDir = some b
      ∧ resolve w.cwd (Join i'.backupDir dest) = some (b ++ relParts dest)
      ∧ ¬ px <+: b ++ relParts dest ∧ ¬ b ++ relParts dest <+: px
      ∧ (∀ s, w'.look (b ++ relParts dest ++ s) = w.look (px ++ s))
      ∧ Lstat w' (Join i.srcDir src) = .ok fi
      ∧ w'.look px = some (if fi.IsDir then .symlink (Join i.srcDir src) else fi)
      ∧ (∀ q, ¬ px <+: q → ¬ q <+: b ++ (relParts dest).dropLast → ¬ b ++ relParts dest <+: q
          → w'.look q = w.look q)
      ∧ w'.cwd = w.cwd ∧ w'.tmp = w.tmp ∧ w'.content = w.content
      ∧ i'.srcDir = i.srcDir ∧ i'.destDir = i.destDir ∧ (i.backupDir ≠ "" → i' = i)
      ∧ (i.backupDir = "" → w.look b = none ∧ w'.look b = some .dir
          ∧ ∃ ds, b = (resolve w.cwd (if i.destDir = "" then w.tmp else i.destDir)).getD []
                        ++ ["backup" ++ String.mk (List.map digitChar ds)]) := by
  obtain ⟨w3, hbk, hin⟩ := Install_ok_split i i' w w' src dest h
  obtain ⟨px, b, w2, hpx, hlpx, hne, hbres, hj, hsd, hdd, hset, hunset, hcwd, htmp, hcont,
    hf1, hf2, hrn⟩ := backup_ok_anatomy i i' w w3 dest e0 hl hbk hrel hup
  have hsh3 := Rename_shape _ _ _ _ hrn
  have hcwd3 : w3.cwd = w.cwd := by rw [hsh3]; exact hcwd
  obtain ⟨po, pn, eo, hpo, hpn, heo, hcase⟩ := Rename_ok_cases _ _ _ _ hrn
  rw [hcwd, hpx] at hpo
  rw [hcwd, hj] at hpn
  have e1 := Option.some.inj hpo
  have e2 := Option.some.inj hpn
  subst e1
  subst e2
  obtain ⟨px', fi, hpx', hnone3, hls3, hw', -, -⟩ := install_ok_inv i' w3 w' src dest hin
  rw [hcwd3, hdd, hpx] at hpx'
  have e3 := Option.some.inj hpx'
  subst e3
  rw [hsd] at hls3 hw'
  rcases hcase with ⟨hw, -⟩ | ⟨h1, h2, hw⟩
  · -- the rename left the destination in place: the link cannot be made
    rw [hw, heo] at hnone3
    cases hnone3
  · have n1 : ¬ px <+: b ++ relParts dest := (not_prefix_iff _ _).1 h1
    have n2 : ¬ b ++ relParts dest <+: px := (not_prefix_iff _ _).1 h2
    have hpxne : px ≠ [] := by
      intro h0
      rw [h0, look_root] at hnone3
      cases hnone3
    have hdrop : b ++ (relParts dest).dropLast <+: b ++ relParts dest :=
      (List.prefix_append_right_inj b).2 (List.dropLast_prefix _)
    have hframe2 : ∀ q, ¬ q <+: b ++ (relParts dest).dropLast → w2.look q = w.look q := by
      intro q hn
      by_contra hne2
      exact hn (hf2 _ hne2)
    have hlook3 : ∀ q, w3.look q
        = if (b ++ relParts dest).isPrefixOf q
            then w2.look (px ++ q.drop (b ++ relParts dest).length)
          else if px.isPrefixOf q then none else w2.look q := by
      intro q
      rw [hw]
      exact look_moved w2 px (b ++ relParts dest) h1 h2 q
    have hunder : ∀ s, w'.look (b ++ relParts dest ++ s) = w.look (px ++ s) := by
      intro s
      have hq : b ++ relParts dest ++ s ≠ px := by
        intro h0
        apply n2
        rw [← h0]
        exact List.prefix_append _ _
      rw [hw', look_put_ne _ _ _ _ hq, hw, look_moved_under w2 px _ h1 h2 s]
      apply hframe2
      intro hp
      exact n1 ((List.prefix_append px s).trans (hp.trans hdrop))
    have hother : ∀ q, ¬ px <+: q → ¬ q <+: b ++ (relParts dest).dropLast
        → ¬ b ++ relParts dest <+: q → w'.look q = w.look q := by
      intro q q1 q2 q3
      have hq : q ≠ px := by
        intro h0
        apply q1
        rw [h0]
      rw [hw', look_put_ne _ _ _ _ hq, hlook3 q, (not_prefix_iff _ _).2 q3,
        (not_prefix_iff _ _).2 q1]
      simp only [Bool.false_eq_true, if_false]
      exact hframe2 q q2
    obtain ⟨ps, hps, hlps⟩ := (Lstat_ok_iff _ _ _).1 hls3
    have hpsne : ps ≠ px := by
      intro h0
      rw [h0, hnone3] at hlps
      cases hlps
    have hsh' : w' = { w3 with fs := w'.fs } := by rw [hw']; rfl
    refine ⟨px, b, fi, hpx, hlpx, hne, hbres, hj, n1, n2, hunder, ?_, ?_, hother, ?_, ?_, ?_,
      hsd, hdd, hset, ?_⟩
    · refine (Lstat_ok_iff _ _ _).2 ⟨ps, ?_, ?_⟩
      · rw [hsh']; exact hps
      · rw [hw', look_put_ne _ _ _ _ hpsne]; exact hlps
    · rw [hw', look_put_self _ _ _ hpxne]
    · rw [hsh']; exact hcwd3
    · rw [hsh', hsh3]; exact htmp
    · rw [hsh', hsh3]; exact hcont
    · intro hb
      obtain ⟨u1, u2, u3⟩ := hunset hb
      refine ⟨u1, ?_, u3⟩
      have hbpx : b ≠ px := by
        intro h0
        apply n1
        rw [← h0]
        exact List.prefix_append _ _
      have q1 : px.isPrefixOf b = false := by
        rw [not_prefix_iff]
        intro hp
        exact n1 (hp.trans (List.prefix_append _ _))
      have q3 : (b ++ relParts dest).isPrefixOf b = false := by
        rw [not_prefix_iff]
        intro hp
        have := hp.length_le
        have hr : 0 < (relParts dest).length := List.length_pos.2 hrel
        simp only [List.length_append] at this
        omega
      rw [hw', look_put_ne _ _ _ _ hbpx, hlook3 b, q3, q1]
      simp only [Bool.false_eq_true, if_false]
      exact u2

theorem prefix_eq_of_length_eq (a b c : Loc) (ha : a <+: c) (hb : b <+: c)
    (hlen : a.length = b.length) : a = b := by
  rcases List.prefix_or_prefix_of_prefix ha hb with h | h
  · exact h.eq_of_length hlen
  · exact (h.eq_of_length hlen.symm).symm

theorem reinstall_anatomy (i i1 i2 : Installer) (w w1 w2 : World) (src dest : String)
    (e0 : Entry) (hb : i.backupDir = "")
    (hl : Lstat w (Join i.destDir dest) = .ok e0)
    (h1 : Install i w src dest = .ret none i1 w1)
    (h2 : Install i w1 src dest = .ret none i2 w2)
    (hrel : relParts dest ≠ []) (hup : ".." ∉ relParts dest) :
    ∃ px b1 b2 fi1 fi2,
      resolve w.cwd (Join i.destDir dest) = some px
      ∧ resolve w.cwd i1.backupDir = some b1 ∧ resolve w.cwd i2.backupDir = some b2
      ∧ b1 ≠ b2
      ∧ w1.look px = some (if fi1.IsDir then .symlink (Join i.srcDir src) else fi1)
      ∧ (∀ s, w2.look (b1 ++ relParts dest ++ s) = w.look (px ++ s))
      ∧ (∀ s, w2.look (b2 ++ relParts dest ++ s) = w1.look (px ++ s))
      ∧ w2.look px = some (if fi2.IsDir then .symlink (Join i.srcDir src) else fi2)
      ∧ Lstat w2 (Join i.srcDir src) = .ok fi2
      ∧ w2.cwd = w.cwd ∧ w2.content = w.content ∧ w1.cwd = w.cwd ∧ w.look px = some e0 := by
  obtain ⟨px, b1, fi1, a1, a2, a3, a4, a5, a6, a7, a8, a9, a10, a11, a12, a13, a14, a15, a16,
    a17, a18⟩ := Install_ok_anatomy i i1 w w1 src dest e0 hl h1 hrel hup
  have hl2 : Lstat w1 (Join i.destDir dest)
      = .ok (if fi1.IsDir then .symlink (Join i.srcDir src) else fi1) :=
    (Lstat_ok_iff _ _ _).2 ⟨px, by rw [a12]; exact a1, a10⟩
  obtain ⟨px2, b2, fi2, c1, c2, c3, c4, c5, c6, c7, c8, c9, c10, c11, c12, c13, c14, c15, c16,
    c17, c18⟩ := Install_ok_anatomy i i2 w1 w2 src dest _ hl2 h2 hrel hup
  rw [a12, a1] at c1
  have e1 := Option.some.inj c1
  subst e1
  rw [a12] at c4
  obtain ⟨u1, u2, ds1, u3⟩ := a18 hb
  obtain ⟨v1, v2, ds2, v3⟩ := c18 hb
  rw [a12, a13] at v3
  have hne : b1 ≠ b2 := by
    intro h0
    rw [h0, v1] at u2
    cases u2
  have hlen : b1.length = b2.length := by
    rw [u3, v3]
    simp
  have hr : 0 < (relParts dest).length := List.length_pos.2 hrel
  refine ⟨px, b1, b2, fi1, fi2, a1, a4, c4, hne, a10, ?_, c8, c10, c9, ?_, ?_, a12, a2⟩
  · intro s
    rw [← a8 s]
    apply c11
    · intro hp
      rcases List.prefix_or_prefix_of_prefix hp
          (List.prefix_append (b1 ++ relParts dest) s) with h | h
      · exact a6 h
      · exact a7 h
    · intro hp
      have := hp.length_le
      simp only [List.length_append, List.length_dropLast] at this
      omega
    · intro hp
      apply hne
      have p1 : b1 <+: b1 ++ relParts dest ++ s := by
        rw [List.append_assoc]
        exact List.prefix_append _ _
      have p2 : b2 <+: b1 ++ relParts dest ++ s :=
        (List.prefix_append b2 (relParts dest)).trans hp
      exact prefix_eq_of_length_eq b1 b2 _ p1 p2 hlen
  · rw [c12, a12]
  · rw [c14, a14]

/-! ## Calls read and write a few locations only -/

theorem seg_cases (base q : Loc) (n : String) (rest : List String)
    (h1 : base <+: q) (h2 : q <+: base ++ n :: rest) (h3 : q ≠ base) :
    q = base ++ [n]
      ∨ (base ++ [n] <+: q ∧ q <+: (base ++ [n]) ++ rest ∧ q ≠ base ++ [n]) := by
  obtain ⟨t, rfl⟩ := h1
  have ht : t <+: n :: rest := (List.prefix_append_right_inj base).1 h2
  cases t with
  | nil => exact absurd (by simp) h3
  | cons a t' =>
    rw [List.cons_prefix_cons] at ht
    obtain ⟨rfl, ht'⟩ := ht
    by_cases h0 : t' = []
    · left
      rw [h0]
    · right
      refine ⟨⟨t', by simp⟩, ?_, ?_⟩
      · rw [List.append_assoc]
        exact (List.prefix_append_right_inj base).2 (by simpa using ht')
      · intro h
        apply h0
        have := congrArg List.length h
        simp at this
        exact this

theorem seg_under (base q : Loc) (n : String) (rest : List String)
    (h1 : base ++ [n] <+: q) (h2 : q <+: (base ++ [n]) ++ rest) :
    base <+: q ∧ q <+: base ++ n :: rest ∧ q ≠ base := by
  refine ⟨(List.prefix_append _ _).trans h1, by simpa using h2, ?_⟩
  intro h
  rw [h] at h1
  have := h1.length_le
  simp at this

theorem mkdirAllFrom_rel (l : List String) : ∀ (w w' : World) (base : Loc),
    w'.refuse = w.refuse →
    (∀ q, base <+: q → q <+: base ++ l → q ≠ base →
      w'.look q = w.look q
        ∨ (w.look q = none ∧ w'.look q = some .dir ∧ w.refuse (.mkdir q) = none)) →
    ∃ r o o', mkdirAllFrom w base l = (o, r) ∧ mkdirAllFrom w' base l = (o', r)
      ∧ o = { w with fs := o.fs } ∧ o' = { w' with fs := o'.fs }
      ∧ (∀ q, ¬ (base <+: q ∧ q <+: base ++ l ∧ q ≠ base) →
          o.look q = w.look q ∧ o'.look q = w'.look q)
      ∧ (∀ q, base <+: q → q <+: base ++ l → q ≠ base →
          (o.look q = w.look q
            ∨ (w.look q = none ∧ o.look q = some .dir ∧ w.refuse (.mkdir q) = none))
          ∧ o'.look q = (if o.look q = none then w'.look q else o.look q))
      ∧ (r = none → ∀ q, base <+: q → q <+: base ++ l → q ≠ base →
          o.look q = some .dir ∧ o'.look q = some .dir) := by
  induction l with
  | nil =>
    intro w w' base _ _
    refine ⟨none, w, w', rfl, rfl, rfl, rfl, fun q _ => ⟨rfl, rfl⟩, ?_, ?_⟩
    · intro q h1 h2 h3
      exact absurd (List.Sublist.antisymm (by simpa using h2.sublist) h1.sublist) h3
    · intro _ q h1 h2 h3
      exact absurd (List.Sublist.antisymm (by simpa using h2.sublist) h1.sublist) h3
  | cons n rest ih =>
    intro w w' base hrf hag
    have hq0 : base <+: base ++ [n] ∧ base ++ [n] <+: base ++ n :: rest ∧ base ++ [n] ≠ base :=
      seg_under base _ n rest (List.prefix_refl _) (List.prefix_append _ _)
    have hne0 : base ++ [n] ≠ [] := by simp
    have h0 := hag _ hq0.1 hq0.2.1 hq0.2.2
    -- the facts that do not depend on the case
    have stay : (∀ q, base <+: q → q <+: base ++ n :: rest → q ≠ base →
          (w.look q = w.look q
            ∨ (w.look q = none ∧ w.look q = some .dir ∧ w.refuse (.mkdir q) = none))
          ∧ w'.look q = (if w.look q = none then w'.look q else w.look q)) := by
      intro q h1 h2 h3
      refine ⟨Or.inl rfl, ?_⟩
      by_cases hn : w.look q = none
      · rw [if_pos hn]
      · rw [if_neg hn]
        rcases hag q h1 h2 h3 with h | h
        · exact h
        · exact absurd h.1 hn
    unfold mkdirAllFrom
    cases hl : w.look (base ++ [n]) with
    | some e0 =>
      have hl' : w'.look (base ++ [n]) = some e0 := by
        rcases h0 with h | h
        · rw [h, hl]
        · rw [hl] at h
          cases h.1
      rw [hl']
      cases e0 with
      | dir =>
        simp only
        obtain ⟨r, o, o', a1, a2, a3, a4, a5, a6, a7⟩ := ih w w' (base ++ [n]) hrf
          (fun q h1 h2 _ => by
            obtain ⟨g1, g2, g3⟩ := seg_under base q n rest h1 h2
            exact hag q g1 g2 g3)
        have hself : ¬ (base ++ [n] <+: base ++ [n] ∧ base ++ [n] <+: base ++ [n] ++ rest
            ∧ base ++ [n] ≠ base ++ [n]) := fun h => h.2.2 rfl
        refine ⟨r, o, o', a1, a2, a3, a4, ?_, ?_, ?_⟩
        · intro q hq
          apply a5
          intro h
          exact hq (seg_under base q n rest h.1 h.2.1)
        · intro q h1 h2 h3
          rcases seg_cases base q n rest h1 h2 h3 with h | ⟨g1, g2, g3⟩
          · rw [h, (a5 _ hself).1, (a5 _ hself).2, hl, hl']
            exact ⟨Or.inl rfl, by simp⟩
          · exact a6 q g1 g2 g3
        · intro hr q h1 h2 h3
          rcases seg_cases base q n rest h1 h2 h3 with h | ⟨g1, g2, g3⟩
          · rw [h, (a5 _ hself).1, (a5 _ hself).2, hl, hl']
            exact ⟨rfl, rfl⟩
          · exact a7 hr q g1 g2 g3
      | file k =>
        exact ⟨_, w, w', rfl, rfl, rfl, rfl, fun q _ => ⟨rfl, rfl⟩, stay,
          fun h => by cases h⟩
      | symlink t =>
        exact ⟨_, w, w', rfl, rfl, rfl, rfl, fun q _ => ⟨rfl, rfl⟩, stay,
          fun h => by cases h⟩
    | none =>
      simp only
      have hput : ∀ (u : World) q, q ≠ base ++ [n] → (u.put (base ++ [n]) .dir).look q = u.look q :=
        fun u q hq => look_put_ne u _ q _ hq
      have hputs : ∀ (u : World), (u.put (base ++ [n]) .dir).look (base ++ [n]) = some .dir :=
        fun u => look_put_self u _ _ hne0
      have hself : ¬ (base ++ [n] <+: base ++ [n] ∧ base ++ [n] <+: base ++ [n] ++ rest
          ∧ base ++ [n] ≠ base ++ [n]) := fun h => h.2.2 rfl
      rcases h0 with h | h
      · -- absent on both sides
        rw [hl] at h
        have hrf0 : w'.refuse (.mkdir (base ++ [n])) = w.refuse (.mkdir (base ++ [n])) := by
          rw [hrf]
        rw [h, hrf0]
        cases hf : w.refuse (.mkdir (base ++ [n])) with
        | some e =>
          exact ⟨_, w, w', rfl, rfl, rfl, rfl, fun q _ => ⟨rfl, rfl⟩, stay,
            fun h => by cases h⟩
        | none =>
          simp only
          obtain ⟨r, o, o', a1, a2, a3, a4, a5, a6, a7⟩ :=
            ih (w.put (base ++ [n]) .dir) (w'.put (base ++ [n]) .dir) (base ++ [n]) hrf
            (fun q h1 h2 h3 => by
              obtain ⟨g1, g2, g3⟩ := seg_under base q n rest h1 h2
              rw [hput w q h3, hput w' q h3]
              exact hag q g1 g2 g3)
          refine ⟨r, o, o', a1, a2, by rw [a3]; rfl, by rw [a4]; rfl, ?_, ?_, ?_⟩
          · intro q hq
            have hq' : q ≠ base ++ [n] := fun h0 => hq (h0 ▸ hq0)
            rw [← hput w q hq', ← hput w' q hq']
            apply a5
            intro h
            exact hq (seg_under base q n rest h.1 h.2.1)
          · intro q h1 h2 h3
            rcases seg_cases base q n rest h1 h2 h3 with h | ⟨g1, g2, g3⟩
            · rw [h, (a5 _ hself).1, (a5 _ hself).2, hputs, hputs, hl]
              exact ⟨Or.inr ⟨rfl, rfl, hf⟩, by simp⟩
            · have := a6 q g1 g2 g3
              rw [hput w q g3, hput w' q g3] at this
              exact this
          · intro hr q h1 h2 h3
            rcases seg_cases base q n rest h1 h2 h3 with h | ⟨g1, g2, g3⟩
            · rw [h, (a5 _ hself).1, (a5 _ hself).2, hputs, hputs]
              exact ⟨rfl, rfl⟩
            · exact a7 hr q g1 g2 g3
      · -- made already on the other side
        obtain ⟨-, h2', h3'⟩ := h
        rw [h2', h3']
        simp only
        obtain ⟨r, o, o', a1, a2, a3, a4, a5, a6, a7⟩ :=
          ih (w.put (base ++ [n]) .dir) w' (base ++ [n]) hrf
          (fun q h1 h2 h3 => by
            obtain ⟨g1, g2, g3⟩ := seg_under base q n rest h1 h2
            rw [hput w q h3]
            exact hag q g1 g2 g3)
        refine ⟨r, o, o', a1, a2, by rw [a3]; rfl, a4, ?_, ?_, ?_⟩
        · intro q hq
          have hq' : q ≠ base ++ [n] := fun h0 => hq (h0 ▸ hq0)
          rw [← hput w q hq']
          apply a5
          intro h
          exact hq (seg_under base q n rest h.1 h.2.1)
        · intro q h1 h2 h3
          rcases seg_cases base q n rest h1 h2 h3 with h | ⟨g1, g2, g3⟩
          · rw [h, (a5 _ hself).1, (a5 _ hself).2, hputs, hl, h2']
            exact ⟨Or.inr ⟨rfl, rfl, h3'⟩, by simp⟩
          · have := a6 q g1 g2 g3
            rw [hput w q g3] at this
            exact this
        · intro hr q h1 h2 h3
          rcases seg_cases base q n rest h1 h2 h3 with h | ⟨g1, g2, g3⟩
          · rw [h, (a5 _ hself).1, (a5 _ hself).2, hputs, h2']
            exact ⟨rfl, rfl⟩
          · exact a7 hr q g1 g2 g3

theorem install_fst_congr (i : Installer) (w w' : World) (src dest : String)
    (hc : w'.cwd = w.cwd) (hrf : w'.refuse = w.refuse)
    (hS : ∀ p, resolve w.cwd (Join i.srcDir src) = some p → w'.look p = w.look p)
    (hX : ∀ p, resolve w.cwd (Join i.destDir dest) = some p →
      w'.look p = w.look p ∧ w'.look p.dropLast = w.look p.dropLast) :
    (install i w' src dest).1 = (install i w src dest).1 := by
  unfold install Lstat
  rw [hc]
  cases hrs : resolve w.cwd (Join i.srcDir src) with
  | none => rfl
  | some ps =>
    simp only
    rw [hS ps hrs]
    cases hls : w.look ps with
    | none => rfl
    | some fi =>
      simp only
      cases hrx : resolve w.cwd (Join i.destDir dest) with
      | none =>
        unfold Symlink Link
        rw [hc, hrs, hrx]
        by_cases hd : fi.IsDir = true
        · simp only [if_pos hd]
          by_cases h0 : Join i.srcDir src = ""
          · simp only [if_pos h0]
          · simp only [if_neg h0]
        · simp only [if_neg hd]
      | some px =>
        obtain ⟨hx1, hx2⟩ := hX px hrx
        have hcc : w'.canCreate px = w.canCreate px := by
          unfold World.canCreate
          rw [hx1, hx2]
        unfold Symlink Link
        rw [hc, hrs, hrx]
        simp only
        rw [hS ps hrs, hls, hcc, hrf]
        by_cases hd : fi.IsDir = true
        · simp only [if_pos hd]
          by_cases h0 : Join i.srcDir src = ""
          · simp only [if_pos h0]
          · simp only [if_neg h0]
            cases w.canCreate px with
            | error e => rfl
            | ok u => cases w.refuse (.symlink (Join i.srcDir src) px) <;> rfl
        · simp only [if_neg hd]
          cases fi with
          | dir => exact absurd rfl hd
          | file k =>
            cases w.canCreate px with
            | error e => rfl
            | ok u => cases w.refuse (.link ps px) <;> rfl
          | symlink t =>
            cases w.canCreate px with
            | error e => rfl
            | ok u => cases w.refuse (.link ps px) <;> rfl

theorem install_cases (i : Installer) (w : World) (src dest : String) :
    (∃ err, install i w src dest = (some err, w))
    ∨ (∃ px fi, resolve w.cwd (Join i.destDir dest) = some px ∧ w.look px = none
        ∧ w.look px.dropLast = some .dir ∧ Lstat w (Join i.srcDir src) = .ok fi
        ∧ (∀ ps, resolve w.cwd (Join i.srcDir src) = some ps →
            w.refuse (linkCall fi (Join i.srcDir src) ps px) = none)
        ∧ install i w src dest
            = (none, w.put px (if fi.IsDir then .symlink (Join i.srcDir src) else fi))) := by
  cases hin : install i w src dest with
  | mk r w1 =>
    cases r with
    | some err =>
      left
      have := install_error_unchanged i w src dest (by rw [hin]; simp)
      rw [hin] at this
      simp only at this
      exact ⟨err, by rw [this]⟩
    | none =>
      right
      obtain ⟨px, fi, h1, h2, h3, h4, h5, h6⟩ := install_ok_inv i w w1 src dest hin
      exact ⟨px, fi, h1, h2, h5, h3, h6, by rw [h4]⟩

theorem install_transfer (i : Installer) (w w' : World) (src dest : String)
    (hc : w'.cwd = w.cwd) (hrf : w'.refuse = w.refuse)
    (hS : ∀ p, resolve w.cwd (Join i.srcDir src) = some p → w'.look p = w.look p)
    (hX : ∀ p, resolve w.cwd (Join i.destDir dest) = some p →
      w'.look p = w.look p ∧ w'.look p.dropLast = w.look p.dropLast) :
    (∀ err, install i w src dest = (some err, w) → install i w' src dest = (some err, w'))
    ∧ (∀ px fi, resolve w.cwd (Join i.destDir dest) = some px → w.look px = none
        → w.look px.dropLast = some .dir → Lstat w (Join i.srcDir src) = .ok fi
        → (∀ ps, resolve w.cwd (Join i.srcDir src) = some ps →
            w.refuse (linkCall fi (Join i.srcDir src) ps px) = none)
        → install i w' src dest
            = (none, w'.put px (if fi.IsDir then .symlink (Join i.srcDir src) else fi))) := by
  constructor
  · intro err h
    have h1 := install_fst_congr i w w' src dest hc hrf hS hX
    rw [h] at h1
    simp only at h1
    have h2 := install_error_unchanged i w' src dest (by rw [h1]; simp)
    cases hin : install i w' src dest with
    | mk r w1 =>
      rw [hin] at h1 h2
      simp only at h1 h2
      rw [h1, h2]
  · intro px fi h1 h2 h3 h4 h5
    obtain ⟨ps, hps, hls⟩ := (Lstat_ok_iff _ _ _).1 h4
    obtain ⟨hx1, hx2⟩ := hX px h1
    apply install_of_absent i w' src dest fi px
    · rw [hx1]; exact h2
    · exact (Lstat_ok_iff _ _ _).2 ⟨ps, by rw [hc]; exact hps, by rw [hS ps hps]; exact hls⟩
    · rw [hc]; exact h1
    · rw [hx2]; exact h3
    · intro ps' hps'
      rw [hc] at hps'
      rw [hrf]
      exact h5 ps' hps'

theorem Install_absent_eq (i : Installer) (w : World) (src dest : String) (e : Errno)
    (habs : Lstat w (Join i.destDir dest) = .error e) :
    Install i w src dest
      = .ret ((install i w src dest).1.map (.installFailed src dest)) i
          (install i w src dest).2 := by
  rw [Install_of_absent i w src dest e habs]
  cases hin : install i w src dest with
  | mk r w1 => cases r <;> rfl

theorem mkdirAllFrom_noop (l : List String) : ∀ (w : World) (base : Loc),
    (∀ q, q <+: base ++ l → w.look q = some .dir) → mkdirAllFrom w base l = (w, none) := by
  induction l with
  | nil => intro w base _; rfl
  | cons n rest ih =>
    intro w base h
    have happ : base ++ n :: rest = (base ++ [n]) ++ rest := by simp
    unfold mkdirAllFrom
    rw [h (base ++ [n]) (by rw [happ]; exact List.prefix_append _ _)]
    simp only
    apply ih
    intro q hq
    apply h
    rw [happ]
    exact hq

theorem MkdirAll_noop (w : World) (path : String) (d : Loc)
    (hd : resolve w.cwd path = some d) (h : ∀ q, q <+: d → w.look q = some .dir) :
    MkdirAll w path = (w, none) := by
  unfold MkdirAll
  rw [hd]
  exact mkdirAllFrom_noop d w [] (by simpa using h)

theorem nil_below (q : Loc) : ([] : Loc) <+: q := ⟨q, rfl⟩

theorem MkdirAll_rel (w w' : World) (path : String) (d : Loc)
    (hc : w'.cwd = w.cwd) (hrf : w'.refuse = w.refuse)
    (hd : resolve w.cwd path = some d)
    (hag : ∀ q, q <+: d →
      w'.look q = w.look q
        ∨ (w.look q = none ∧ w'.look q = some .dir ∧ w.refuse (.mkdir q) = none)) :
    ∃ r o o', MkdirAll w path = (o, r) ∧ MkdirAll w' path = (o', r)
      ∧ o = { w with fs := o.fs } ∧ o' = { w' with fs := o'.fs }
      ∧ (∀ q, ¬ q <+: d → o.look q = w.look q ∧ o'.look q = w'.look q)
      ∧ (∀ q, q <+: d →
          (o.look q = w.look q
            ∨ (w.look q = none ∧ o.look q = some .dir ∧ w.refuse (.mkdir q) = none))
          ∧ o'.look q = (if o.look q = none then w'.look q else o.look q))
      ∧ (r = none → ∀ q, q <+: d → o.look q = some .dir ∧ o'.look q = some .dir)
      ∧ (∀ q, w'.look q = w.look q → o'.look q = o.look q) := by
  obtain ⟨r, o, o', a1, a2, a3, a4, a5, a6, a7⟩ := mkdirAllFrom_rel d w w' [] hrf
    (fun q _ h2 _ => hag q (by simpa using h2))
  have hroot : ∀ q : Loc, q = [] → o.look q = w.look q ∧ o'.look q = w'.look q := by
    intro q hq
    rw [hq]
    simp only [look_root, and_self]
  have b5 : ∀ q, ¬ q <+: d → o.look q = w.look q ∧ o'.look q = w'.look q := by
    intro q hq
    apply a5
    intro h
    exact hq (by simpa using h.2.1)
  have b6 : ∀ q, q <+: d →
      (o.look q = w.look q
        ∨ (w.look q = none ∧ o.look q = some .dir ∧ w.refuse (.mkdir q) = none))
      ∧ o'.look q = (if o.look q = none then w'.look q else o.look q) := by
    intro q hq
    by_cases h0 : q = []
    · rw [h0]
      simp only [look_root, true_or, true_and]
      simp
    · exact a6 q (nil_below q) (by simpa using hq) h0
  refine ⟨r, o, o', ?_, ?_, a3, a4, b5, b6, ?_, ?_⟩
  · unfold MkdirAll
    rw [hd]
    exact a1
  · unfold MkdirAll
    rw [hc, hd]
    exact a2
  · intro hr q hq
    by_cases h0 : q = []
    · rw [h0]
      simp only [look_root, and_self]
    · exact a7 hr q (nil_below q) (by simpa using hq) h0
  · intro q hq
    by_cases h1 : q <+: d
    · obtain ⟨c1, c2⟩ := b6 q h1
      rw [c2]
      by_cases h2 : o.look q = none
      · rw [if_pos h2, hq, h2]
        rcases c1 with c | c
        · rw [← c]; exact h2
        · rw [c.2.1] at h2
          cases h2
      · rw [if_neg h2]
    · rw [(b5 q h1).1, (b5 q h1).2]
      exact hq

theorem Rename_congr (w w' : World) (a b : String) (po pn : Loc)
    (hc : w'.cwd = w.cwd) (hrf : w'.refuse = w.refuse)
    (hpo : resolve w.cwd a = some po) (hpn : resolve w.cwd b = some pn)
    (h1 : w'.look po = w.look po) (h2 : w'.look pn = w.look pn)
    (h3 : w'.look pn.dropLast = w.look pn.dropLast) :
    (∃ e, Rename w a b = .error e ∧ Rename w' a b = .error e)
    ∨ (Rename w a b = .ok w ∧ Rename w' a b = .ok w')
    ∨ (po.isPrefixOf pn = false ∧ pn.isPrefixOf po = false
        ∧ Rename w a b = .ok { w with fs := moveTree w.fs po pn }
        ∧ Rename w' a b = .ok { w' with fs := moveTree w'.fs po pn }) := by
  unfold Rename
  rw [hc, hpo, hpn]
  simp only
  rw [h1, h2, h3, hrf]
  cases heo : w.look po with
  | none => left; exact ⟨_, rfl, rfl⟩
  | some eo =>
    simp only
    by_cases c1 : w.look pn = some .dir
    · simp only [if_pos c1]
      by_cases c2 : b = a ∨ po ≠ pn
      · simp only [if_pos c2]
        left; exact ⟨_, rfl, rfl⟩
      · simp only [if_neg c2]
        right; left; first | exact ⟨rfl, rfl⟩ | simp
    · simp only [if_neg c1]
      by_cases c2 : po = pn
      · simp only [if_pos c2]
        right; left; first | exact ⟨rfl, rfl⟩ | simp
      · simp only [if_neg c2]
        by_cases c3 : po.isPrefixOf pn = true
        · simp only [if_pos c3]
          left; exact ⟨_, rfl, rfl⟩
        · simp only [if_neg c3]
          by_cases c4 : pn.isPrefixOf po = true
          · simp only [if_pos c4]
            left; exact ⟨_, rfl, rfl⟩
          · simp only [if_neg c4]
            have c3f : po.isPrefixOf pn = false := Bool.eq_false_iff.2 c3
            have c4f : pn.isPrefixOf po = false := Bool.eq_false_iff.2 c4
            cases hen : w.look pn with
            | some en =>
              simp only
              by_cases c5 : sameFile eo en = true
              · simp only [if_pos c5]
                right; left; first | exact ⟨rfl, rfl⟩ | simp
              · simp only [if_neg c5]
                by_cases c6 : eo = .dir
                · simp only [if_pos c6]
                  left; exact ⟨_, rfl, rfl⟩
                · simp only [if_neg c6]
                  cases hf : w.refuse (.rename po pn) with
                  | some e => left; exact ⟨_, rfl, rfl⟩
                  | none => right; right; exact ⟨c3f, c4f, rfl, rfl⟩
            | none =>
              simp only
              cases hpar : w.look pn.dropLast with
              | none => left; exact ⟨_, rfl, rfl⟩
              | some ep =>
                cases ep with
                | dir =>
                  simp only
                  cases hf : w.refuse (.rename po pn) with
                  | some e => left; exact ⟨_, rfl, rfl⟩
                  | none => right; right; exact ⟨c3f, c4f, rfl, rfl⟩
                | file k => left; exact ⟨_, rfl, rfl⟩
                | symlink t => left; exact ⟨_, rfl, rfl⟩

theorem install_local (i : Installer) (u u' : World) (src dest : String) (px : Loc)
    (hc : u'.cwd = u.cwd) (hrf : u'.refuse = u.refuse)
    (hpx : resolve u.cwd (Join i.destDir dest) = some px)
    (h1 : u'.look px = u.look px) (h2 : u'.look px.dropLast = u.look px.dropLast)
    (h3 : ∀ q, resolve u.cwd (Join i.srcDir src) = some q → u'.look q = u.look q) :
    ∃ r o o', install i u src dest = (r, o) ∧ install i u' src dest = (r, o')
      ∧ o = { u with fs := o.fs } ∧ o' = { u' with fs := o'.fs }
      ∧ (∀ q, q ≠ px → o.look q = u.look q ∧ o'.look q = u'.look q)
      ∧ o'.look px = o.look px := by
  have hX : ∀ p, resolve u.cwd (Join i.destDir dest) = some p →
      u'.look p = u.look p ∧ u'.look p.dropLast = u.look p.dropLast := by
    intro p hp
    rw [hpx] at hp
    cases hp
    exact ⟨h1, h2⟩
  obtain ⟨t1, t2⟩ := install_transfer i u u' src dest hc hrf h3 hX
  rcases install_cases i u src dest with ⟨err, hI⟩ | ⟨px', fi, a1, a2, a3, a4, a5, hI⟩
  · exact ⟨_, u, u', hI, t1 err hI, rfl, rfl, fun q _ => ⟨rfl, rfl⟩, h1⟩
  · rw [hpx] at a1
    cases a1
    have hne : px ≠ [] := by
      intro h0
      rw [h0, look_root] at a2
      cases a2
    refine ⟨_, _, _, hI, t2 px fi hpx a2 a3 a4 a5, rfl, rfl, ?_, ?_⟩
    · intro q hq
      exact ⟨look_put_ne _ _ _ _ hq, look_put_ne _ _ _ _ hq⟩
    · rw [look_put_self _ _ _ hne, look_put_self _ _ _ hne]

theorem Install_after_backup (i i1 : Installer) (w u : World) (src dest : String)
    (r : Option GoError) (o : World)
    (hbk : backup i w dest = .ret none i1 u) (hin : install i1 u src dest = (r, o)) :
    Install i w src dest = .ret (r.map (.installFailed src dest)) i1 o := by
  unfold Install
  rw [hbk]
  simp only
  rw [hin]
  cases r <;> rfl

theorem Install_backup_failed (i i1 : Installer) (w u : World) (src dest : String)
    (err : GoError) (hbk : backup i w dest = .ret (some err) i1 u) :
    Install i w src dest = .ret (some (.backupFailed dest err)) i1 u := by
  unfold Install
  rw [hbk]

theorem not_both_under (a b q : Loc) (h : ¬ a <+: b ∧ ¬ b <+: a) (ha : a <+: q)
    (hb : b <+: q) : False := by
  rcases List.prefix_or_prefix_of_prefix ha hb with h0 | h0
  · exact h.1 h0
  · exact h.2 h0

theorem mainLoop_two (i i1 i2 : Installer) (w w1 w2 : World) (s1 d1 s2 d2 : String)
    (r1 r2 : error)
    (h1 : Install i w s1 d1 = .ret r1 i1 w1) (h2 : Install i1 w1 s2 d2 = .ret r2 i2 w2) :
    mainLoop [(s1, d1), (s2, d2)] i w [] = .ret [r1, r2] i2 w2 := by
  unfold mainLoop
  rw [h1]
  simp only
  unfold mainLoop
  rw [h2]
  simp [mainLoop]

theorem not_prefix_dropLast (b r s : Loc) (hr : r ≠ []) :
    ¬ (b ++ r ++ s) <+: b ++ r.dropLast := by
  intro hp
  have := hp.length_le
  have h0 : 0 < r.length := List.length_pos.2 hr
  simp only [List.length_append, List.length_dropLast] at this
  omega

theorem backup_local (i : Installer) (w w' : World) (dest : String) (px b : Loc)
    (hb : i.backupDir ≠ "") (hrel : relParts dest ≠ []) (hup : ".." ∉ relParts dest)
    (hpx : resolve w.cwd (Join i.destDir dest) = some px)
    (hbres : resolve w.cwd i.backupDir = some b)
    (hc : w'.cwd = w.cwd) (hrf : w'.refuse = w.refuse)
    (hagX : ∀ q, (px <+: q ∨ b ++ relParts dest <+: q) → w'.look q = w.look q)
    (hagD : ∀ q, q <+: b ++ (relParts dest).dropLast →
        w'.look q = w.look q
          ∨ (w.look q = none ∧ w'.look q = some .dir ∧ w.refuse (.mkdir q) = none)) :
    ∃ r o o', backup i w dest = .ret r i o ∧ backup i w' dest = .ret r i o'
      ∧ o = { w with fs := o.fs } ∧ o' = { w' with fs := o'.fs }
      ∧ (∀ q, ¬ px <+: q → ¬ b ++ relParts dest <+: q → ¬ q <+: b ++ (relParts dest).dropLast
          → o.look q = w.look q ∧ o'.look q = w'.look q)
      ∧ (∀ q, q <+: b ++ (relParts dest).dropLast → ¬ px <+: q →
          (o.look q = w.look q
            ∨ (w.look q = none ∧ o.look q = some .dir ∧ w.refuse (.mkdir q) = none))
          ∧ o'.look q = (if o.look q = none then w'.look q else o.look q))
      ∧ (∀ q, w'.look q = w.look q → o'.look q = o.look q) := by
  obtain ⟨hj1, hj2⟩ := resolve_backup_path w.cwd i.backupDir dest b hbres hrel hup
  have hself : px <+: px := List.prefix_refl px
  have hagpx : w'.look px = w.look px := hagX px (Or.inl hself)
  have hagY : w'.look (b ++ relParts dest) = w.look (b ++ relParts dest) :=
    hagX _ (Or.inr (List.prefix_refl _))
  have hdrop : (b ++ relParts dest).dropLast = b ++ (relParts dest).dropLast :=
    List.dropLast_append_of_ne_nil _ hrel
  cases hl : Lstat w (Join i.destDir dest) with
  | error e =>
    have hnone : w.look px = none := (Lstat_error_iff w _).1 ⟨e, hl⟩ px hpx
    obtain ⟨e', hl'⟩ : ∃ e', Lstat w' (Join i.destDir dest) = .error e' := by
      apply (Lstat_error_iff _ _).2
      intro p hp
      rw [hc, hpx] at hp
      cases hp
      rw [hagpx]
      exact hnone
    rw [backup_of_absent i w dest e hl, backup_of_absent i w' dest e' hl']
    refine ⟨none, w, w', rfl, rfl, rfl, rfl, fun q _ _ _ => ⟨rfl, rfl⟩, ?_, fun q h => h⟩
    intro q hq _
    refine ⟨Or.inl rfl, ?_⟩
    by_cases hn : w.look q = none
    · rw [if_pos hn]
    · rw [if_neg hn]
      rcases hagD q hq with h | h
      · exact h
      · exact absurd h.1 hn
  | ok e0 =>
    have hlpx : w.look px = some e0 := by
      obtain ⟨p, hp, hlp⟩ := (Lstat_ok_iff _ _ _).1 hl
      rw [hpx] at hp
      cases hp
      exact hlp
    have hl' : Lstat w' (Join i.destDir dest) = .ok e0 :=
      (Lstat_ok_iff _ _ _).2 ⟨px, by rw [hc]; exact hpx, by rw [hagpx]; exact hlpx⟩
    have hbk := backup_after_path i w dest e0 hl _ _ _ (backupPath_set i w dest hb)
    have hbk' := backup_after_path i w' dest e0 hl' _ _ _ (backupPath_set i w' dest hb)
    obtain ⟨rm, w2, w2', m1, m2, m3, m4, m5, m6, m7, m8⟩ :=
      MkdirAll_rel w w' (Dir (Join i.backupDir dest)) _ hc hrf hj2 hagD
    rw [m1] at hbk
    rw [m2] at hbk'
    have keep : w2 = { w with fs := w2.fs } ∧ w2' = { w' with fs := w2'.fs }
      ∧ (∀ q, ¬ px <+: q → ¬ b ++ relParts dest <+: q → ¬ q <+: b ++ (relParts dest).dropLast
          → w2.look q = w.look q ∧ w2'.look q = w'.look q)
      ∧ (∀ q, q <+: b ++ (relParts dest).dropLast → ¬ px <+: q →
          (w2.look q = w.look q
            ∨ (w.look q = none ∧ w2.look q = some .dir ∧ w.refuse (.mkdir q) = none))
          ∧ w2'.look q = (if w2.look q = none then w'.look q else w2.look q))
      ∧ (∀ q, w'.look q = w.look q → w2'.look q = w2.look q) :=
      ⟨m3, m4, fun q _ _ h3 => m5 q h3, fun q h _ => m6 q h, m8⟩
    cases rm with
    | some e =>
      simp only at hbk hbk'
      exact ⟨_, w2, w2', hbk, hbk', keep⟩
    | none =>
      simp only at hbk hbk'
      have c2 : w2.cwd = w.cwd := by rw [m3]
      have c2' : w2'.cwd = w2.cwd := by rw [m4, c2]; exact hc
      have rf2 : w2'.refuse = w2.refuse := by rw [m4, m3]; exact hrf
      have hD2 := m7 rfl _ (List.prefix_refl (b ++ (relParts dest).dropLast))
      rcases Rename_congr w2 w2' (Join i.destDir dest) (Join i.backupDir dest) px
          (b ++ relParts dest) c2' rf2 (by rw [c2]; exact hpx) (by rw [c2]; exact hj1)
          (m8 px hagpx) (m8 _ hagY) (by rw [hdrop, hD2.1, hD2.2]) with
        ⟨e, g1, g2⟩ | ⟨g1, g2⟩ | ⟨n1, n2, g1, g2⟩
      · rw [g1] at hbk
        rw [g2] at hbk'
        exact ⟨_, w2, w2', hbk, hbk', keep⟩
      · rw [g1] at hbk
        rw [g2] at hbk'
        exact ⟨_, w2, w2', hbk, hbk', keep⟩
      · rw [g1] at hbk
        rw [g2] at hbk'
        have hu : ∀ q, ({ w2 with fs := moveTree w2.fs px (b ++ relParts dest) } : World).look q
            = if (b ++ relParts dest).isPrefixOf q
                then w2.look (px ++ q.drop (b ++ relParts dest).length)
              else if px.isPrefixOf q then none else w2.look q :=
          fun q => look_moved w2 px _ n1 n2 q
        have hu' : ∀ q, ({ w2' with fs := moveTree w2'.fs px (b ++ relParts dest) } : World).look q
            = if (b ++ relParts dest).isPrefixOf q
                then w2'.look (px ++ q.drop (b ++ relParts dest).length)
              else if px.isPrefixOf q then none else w2'.look q :=
          fun q => look_moved w2' px _ n1 n2 q
        refine ⟨_, _, _, hbk, hbk', ?_, ?_, ?_, ?_, ?_⟩
        · rw [m3]
        · rw [m4]
        · intro q q1 q2 q3
          rw [hu, hu', (not_prefix_iff _ _).2 q1, (not_prefix_iff _ _).2 q2]
          simp only [Bool.false_eq_true, if_false]
          exact m5 q q3
        · intro q hq q1
          have q2 : ¬ b ++ relParts dest <+: q := by
            intro h0
            have := not_prefix_dropLast b (relParts dest) [] hrel
            rw [List.append_nil] at this
            exact this (h0.trans hq)
          rw [hu, hu', (not_prefix_iff _ _).2 q1, (not_prefix_iff _ _).2 q2]
          simp only [Bool.false_eq_true, if_false]
          exact m6 q hq
        · intro q hq
          rw [hu, hu']
          by_cases c1 : (b ++ relParts dest).isPrefixOf q = true
          · simp only [if_pos c1]
            exact m8 _ (hagX _ (Or.inl (List.prefix_append _ _)))
          · simp only [if_neg c1]
            by_cases c2 : px.isPrefixOf q = true
            · simp only [if_pos c2]
            · simp only [if_neg c2]
              exact m8 q hq

theorem Install_local (i : Installer) (w w' : World) (src dest : String) (px b : Loc)
    (hb : i.backupDir ≠ "") (hrel : relParts dest ≠ []) (hup : ".." ∉ relParts dest)
    (hpx : resolve w.cwd (Join i.destDir dest) = some px)
    (hbres : resolve w.cwd i.backupDir = some b)
    (hc : w'.cwd = w.cwd) (hrf : w'.refuse = w.refuse)
    (hag : ∀ q, (px <+: q ∨ b ++ relParts dest <+: q ∨ q = px.dropLast
            ∨ resolve w.cwd (Join i.srcDir src) = some q) → w'.look q = w.look q)
    (hagD : ∀ q, q <+: b ++ (relParts dest).dropLast →
        w'.look q = w.look q
          ∨ (w.look q = none ∧ w'.look q = some .dir ∧ w.refuse (.mkdir q) = none)) :
    ∃ r o o', Install i w src dest = .ret r i o ∧ Install i w' src dest = .ret r i o'
      ∧ o = { w with fs := o.fs } ∧ o' = { w' with fs := o'.fs }
      ∧ (∀ q, ¬ px <+: q → ¬ b ++ relParts dest <+: q → ¬ q <+: b ++ (relParts dest).dropLast
          → o.look q = w.look q ∧ o'.look q = w'.look q)
      ∧ (∀ q, (px <+: q ∨ b ++ relParts dest <+: q) → o'.look q = o.look q)
      ∧ (∀ q, q <+: b ++ (relParts dest).dropLast → ¬ px <+: q →
          (o.look q = w.look q
            ∨ (w.look q = none ∧ o.look q = some .dir ∧ w.refuse (.mkdir q) = none))
          ∧ o'.look q = (if o.look q = none then w'.look q else o.look q)) := by
  have hself : px <+: px := List.prefix_refl px
  have hagX : ∀ q, (px <+: q ∨ b ++ relParts dest <+: q) → w'.look q = w.look q :=
    fun q hq => hag q (hq.elim Or.inl (fun h => Or.inr (Or.inl h)))
  obtain ⟨r0, u, u', b1, b2, b3, b4, b5, b6, b7⟩ :=
    backup_local i w w' dest px b hb hrel hup hpx hbres hc hrf hagX hagD
  cases r0 with
  | some err =>
    exact ⟨_, u, u', Install_backup_failed i i w u src dest err b1,
      Install_backup_failed i i w' u' src dest err b2, b3, b4, b5,
      fun q hq => b7 q (hagX q hq), b6⟩
  | none =>
    have cu : u.cwd = w.cwd := by rw [b3]
    have cu' : u'.cwd = u.cwd := by rw [b4, cu]; exact hc
    have ru : u'.refuse = u.refuse := by rw [b4, b3]; exact hrf
    obtain ⟨r, o, o', k1, k2, k3, k4, k5, k6⟩ :=
      install_local i u u' src dest px cu' ru (by rw [cu]; exact hpx)
        (b7 px (hagX px (Or.inl hself)))
        (b7 _ (hag _ (Or.inr (Or.inr (Or.inl rfl)))))
        (fun q hq => b7 q (hag q (Or.inr (Or.inr (Or.inr (by rw [← cu]; exact hq))))))
    refine ⟨_, o, o', Install_after_backup i i w u src dest r o b1 k1,
      Install_after_backup i i w' u' src dest r o' b2 k2, by rw [k3, b3], by rw [k4, b4],
      ?_, ?_, ?_⟩
    · intro q q1 q2 q3
      have h0 : q ≠ px := fun h0 => q1 (h0 ▸ hself)
      rw [(k5 q h0).1, (k5 q h0).2]
      exact b5 q q1 q2 q3
    · intro q hq
      by_cases h0 : q = px
      · rw [h0]; exact k6
      · rw [(k5 q h0).1, (k5 q h0).2]
        exact b7 q (hagX q hq)
    · intro q hq q1
      have h0 : q ≠ px := fun h0 => q1 (h0 ▸ hself)
      rw [(k5 q h0).1, (k5 q h0).2]
      exact b6 q hq q1

theorem incomparable_append (b p r : Loc) (h : ¬ b <+: p ∧ ¬ p <+: b) :
    ¬ p <+: b ++ r ∧ ¬ b ++ r <+: p := by
  constructor
  · intro h0
    rcases List.prefix_or_prefix_of_prefix h0 (List.prefix_append b r) with h1 | h1
    · exact h.2 h1
    · exact h.1 h1
  · intro h0
    exact h.1 ((List.prefix_append b r).trans h0)

theorem merge_made (a b c : Option Entry)
    (ha : a = c ∨ (c = none ∧ a = some .dir)) (hb : b = c ∨ (c = none ∧ b = some .dir)) :
    (if b = none then a else b) = (if a = none then b else a) := by
  rcases ha with ha | ⟨hc, ha⟩ <;> rcases hb with hb | ⟨hc', hb⟩
  · rw [ha, hb]
  · rw [ha, hb, hc']
    simp
  · rw [ha, hb, hc]
    simp
  · rw [ha, hb]

theorem Install_commute_set (i : Installer) (w : World) (s1 d1 s2 d2 : String)
    (px1 px2 b : Loc)
    (hb : i.backupDir ≠ "")
    (hrel1 : relParts d1 ≠ []) (hup1 : ".." ∉ relParts d1)
    (hrel2 : relParts d2 ≠ []) (hup2 : ".." ∉ relParts d2)
    (hpx1 : resolve w.cwd (Join i.destDir d1) = some px1)
    (hpx2 : resolve w.cwd (Join i.destDir d2) = some px2)
    (hbres : resolve w.cwd i.backupDir = some b)
    (hanc : ∀ q, q <+: b → q ≠ b → w.look q = some .dir)
    (hxx : ¬ px1 <+: px2 ∧ ¬ px2 <+: px1)
    (hrr : ¬ relParts d1 <+: relParts d2 ∧ ¬ relParts d2 <+: relParts d1)
    (hb1 : ¬ b <+: px1 ∧ ¬ px1 <+: b) (hb2 : ¬ b <+: px2 ∧ ¬ px2 <+: b)
    (hs1 : ∀ q, resolve w.cwd (Join i.srcDir s1) = some q → ¬ px2 <+: q ∧ ¬ b <+: q)
    (hs2 : ∀ q, resolve w.cwd (Join i.srcDir s2) = some q → ¬ px1 <+: q ∧ ¬ b <+: q) :
    ∃ r1 r2 wa wb,
      Install i w s1 d1 = .ret r1 i (Install i w s1 d1).world
      ∧ Install i w s2 d2 = .ret r2 i (Install i w s2 d2).world
      ∧ Install i (Install i w s1 d1).world s2 d2 = .ret r2 i wa
      ∧ Install i (Install i w s2 d2).world s1 d1 = .ret r1 i wb
      ∧ (∀ p, wa.look p = wb.look p)
      ∧ wa = { w with fs := wa.fs } ∧ wb = { w with fs := wb.fs } := by
  have hxy : ¬ px1 <+: b ++ relParts d2 ∧ ¬ b ++ relParts d2 <+: px1 :=
    incomparable_append b px1 _ hb1
  have hyx : ¬ px2 <+: b ++ relParts d1 ∧ ¬ b ++ relParts d1 <+: px2 :=
    incomparable_append b px2 _ hb2
  have hyy : ¬ b ++ relParts d1 <+: b ++ relParts d2
      ∧ ¬ b ++ relParts d2 <+: b ++ relParts d1 :=
    ⟨fun h => hrr.1 ((List.prefix_append_right_inj b).1 h),
     fun h => hrr.2 ((List.prefix_append_right_inj b).1 h)⟩
  have hdrop1 : b ++ (relParts d1).dropLast <+: b ++ relParts d1 :=
    (List.prefix_append_right_inj b).2 (List.dropLast_prefix _)
  have hdrop2 : b ++ (relParts d2).dropLast <+: b ++ relParts d2 :=
    (List.prefix_append_right_inj b).2 (List.dropLast_prefix _)
  -- a location above a backup path that is not under the backup root exists
  have habove : ∀ q r, q <+: b ++ r → ¬ b <+: q → w.look q = some .dir := by
    intro q r hq hn
    rcases List.prefix_or_prefix_of_prefix hq (List.prefix_append b r) with h | h
    · exact hanc q h (fun h0 => hn (h0 ▸ List.prefix_refl _))
    · exact absurd h hn
  -- each call on the initial machine
  obtain ⟨r1, oA, oA', A1, A1', A3, -, A5, -, A7⟩ :=
    Install_local i w w s1 d1 px1 b hb hrel1 hup1 hpx1 hbres rfl rfl (fun _ _ => rfl)
      (fun _ _ => Or.inl rfl)
  obtain ⟨r2, oB, oB', B1, B1', B3, -, B5, -, B7⟩ :=
    Install_local i w w s2 d2 px2 b hb hrel2 hup2 hpx2 hbres rfl rfl (fun _ _ => rfl)
      (fun _ _ => Or.inl rfl)
  -- what the first entry leaves where it does not move anything
  have clsA : ∀ q, ¬ px1 <+: q → ¬ b ++ relParts d1 <+: q →
      oA.look q = w.look q
        ∨ (w.look q = none ∧ oA.look q = some .dir ∧ w.refuse (.mkdir q) = none) := by
    intro q q1 q2
    by_cases q3 : q <+: b ++ (relParts d1).dropLast
    · exact (A7 q q3 q1).1
    · exact Or.inl (A5 q q1 q2 q3).1
  have clsB : ∀ q, ¬ px2 <+: q → ¬ b ++ relParts d2 <+: q →
      oB.look q = w.look q
        ∨ (w.look q = none ∧ oB.look q = some .dir ∧ w.refuse (.mkdir q) = none) := by
    intro q q1 q2
    by_cases q3 : q <+: b ++ (relParts d2).dropLast
    · exact (B7 q q3 q1).1
    · exact Or.inl (B5 q q1 q2 q3).1
  have sameA : ∀ q, ¬ px1 <+: q → ¬ b ++ relParts d1 <+: q →
      (q <+: b ++ (relParts d1).dropLast → w.look q ≠ none) → oA.look q = w.look q := by
    intro q q1 q2 q3
    rcases clsA q q1 q2 with h | h
    · exact h
    · by_cases q4 : q <+: b ++ (relParts d1).dropLast
      · exact absurd h.1 (q3 q4)
      · exact (A5 q q1 q2 q4).1
  have sameB : ∀ q, ¬ px2 <+: q → ¬ b ++ relParts d2 <+: q →
      (q <+: b ++ (relParts d2).dropLast → w.look q ≠ none) → oB.look q = w.look q := by
    intro q q1 q2 q3
    rcases clsB q q1 q2 with h | h
    · exact h
    · by_cases q4 : q <+: b ++ (relParts d2).dropLast
      · exact absurd h.1 (q3 q4)
      · exact (B5 q q1 q2 q4).1
  have some_ne : ∀ q : Loc, w.look q = some .dir → w.look q ≠ none := by
    intro q h h0
    rw [h] at h0
    cases h0
  -- what the first entry writes is not read by the second, and conversely
  have hA : ∀ q, (px2 <+: q ∨ b ++ relParts d2 <+: q ∨ q = px2.dropLast
      ∨ resolve w.cwd (Join i.srcDir s2) = some q) → oA.look q = w.look q := by
    intro q hq
    rcases hq with h | h | h | h
    · exact sameA q (fun h0 => not_both_under _ _ q hxx h0 h)
        (fun h0 => not_both_under _ _ q hyx.symm h0 h)
        (fun h0 => absurd (h.trans (h0.trans hdrop1)) hyx.1)
    · exact sameA q (fun h0 => not_both_under _ _ q hxy h0 h)
        (fun h0 => not_both_under _ _ q hyy h0 h)
        (fun h0 => absurd (h.trans (h0.trans hdrop1)) hyy.2)
    · have hnb : ¬ b <+: q := by
        rw [h]
        exact fun h0 => hb2.1 (h0.trans (List.dropLast_prefix _))
      refine sameA q ?_ ?_ (fun h0 => some_ne q (habove q _ h0 hnb))
      · rw [h]
        exact fun h0 => hxx.1 (h0.trans (List.dropLast_prefix _))
      · exact fun h0 => hnb ((List.prefix_append _ _).trans h0)
    · have hnb : ¬ b <+: q := (hs2 q h).2
      exact sameA q (hs2 q h).1 (fun h0 => hnb ((List.prefix_append _ _).trans h0))
        (fun h0 => some_ne q (habove q _ h0 hnb))
  have hB : ∀ q, (px1 <+: q ∨ b ++ relParts d1 <+: q ∨ q = px1.dropLast
      ∨ resolve w.cwd (Join i.srcDir s1) = some q) → oB.look q = w.look q := by
    intro q hq
    rcases hq with h | h | h | h
    · exact sameB q (fun h0 => not_both_under _ _ q hxx h h0)
        (fun h0 => not_both_under _ _ q hxy h h0)
        (fun h0 => absurd (h.trans (h0.trans hdrop2)) hxy.1)
    · exact sameB q (fun h0 => not_both_under _ _ q hyx.symm h h0)
        (fun h0 => not_both_under _ _ q hyy h h0)
        (fun h0 => absurd (h.trans (h0.trans hdrop2)) hyy.1)
    · have hnb : ¬ b <+: q := by
        rw [h]
        exact fun h0 => hb1.1 (h0.trans (List.dropLast_prefix _))
      refine sameB q ?_ ?_ (fun h0 => some_ne q (habove q _ h0 hnb))
      · rw [h]
        exact fun h0 => hxx.2 (h0.trans (List.dropLast_prefix _))
      · exact fun h0 => hnb ((List.prefix_append _ _).trans h0)
    · have hnb : ¬ b <+: q := (hs1 q h).2
      exact sameB q (hs1 q h).1 (fun h0 => hnb ((List.prefix_append _ _).trans h0))
        (fun h0 => some_ne q (habove q _ h0 hnb))
  have hAD : ∀ q, q <+: b ++ (relParts d2).dropLast →
      oA.look q = w.look q
        ∨ (w.look q = none ∧ oA.look q = some .dir ∧ w.refuse (.mkdir q) = none) :=
    fun q hq => clsA q (fun h0 => hxy.1 (h0.trans (hq.trans hdrop2)))
      (fun h0 => hyy.1 (h0.trans (hq.trans hdrop2)))
  have hBD : ∀ q, q <+: b ++ (relParts d1).dropLast →
      oB.look q = w.look q
        ∨ (w.look q = none ∧ oB.look q = some .dir ∧ w.refuse (.mkdir q) = none) :=
    fun q hq => clsB q (fun h0 => hyx.1 (h0.trans (hq.trans hdrop1)))
      (fun h0 => hyy.2 (h0.trans (hq.trans hdrop1)))
  have hcA : oA.cwd = w.cwd := by rw [A3]
  have hcB : oB.cwd = w.cwd := by rw [B3]
  have hrA : oA.refuse = w.refuse := by rw [A3]
  have hrB : oB.refuse = w.refuse := by rw [B3]
  obtain ⟨r2', oB2, oAB, C1, C2, -, C4, C5, C6, C7⟩ :=
    Install_local i w oA s2 d2 px2 b hb hrel2 hup2 hpx2 hbres hcA hrA hA hAD
  obtain ⟨r1', oA2, oBA, E1, E2, -, E4, E5, E6, E7⟩ :=
    Install_local i w oB s1 d1 px1 b hb hrel1 hup1 hpx1 hbres hcB hrB hB hBD
  rw [B1] at C1
  rw [A1] at E1
  simp only [Run.ret.injEq, true_and] at C1 E1
  obtain ⟨c1, c2⟩ := C1
  obtain ⟨e1, e2⟩ := E1
  subst c1 c2 e1 e2
  have hwA : (Install i w s1 d1).world = oA := by rw [A1]; rfl
  have hwB : (Install i w s2 d2).world = oB := by rw [B1]; rfl
  rw [hwA, hwB]
  refine ⟨r1, r2, oAB, oBA, A1, B1, C2, E2, ?_, by rw [C4, A3], by rw [E4, B3]⟩
  intro q
  by_cases q1 : px1 <+: q ∨ b ++ relParts d1 <+: q
  · -- moved or linked by the first entry only
    have n2 : ¬ px2 <+: q ∧ ¬ b ++ relParts d2 <+: q := by
      rcases q1 with h | h
      · exact ⟨fun h0 => not_both_under _ _ q hxx h h0, fun h0 => not_both_under _ _ q hxy h h0⟩
      · exact ⟨fun h0 => not_both_under _ _ q hyx.symm h h0,
          fun h0 => not_both_under _ _ q hyy h h0⟩
    have n3 : ¬ q <+: b ++ (relParts d2).dropLast := by
      intro h0
      rcases q1 with h | h
      · exact hxy.1 (h.trans (h0.trans hdrop2))
      · exact hyy.1 (h.trans (h0.trans hdrop2))
    rw [(C5 q n2.1 n2.2 n3).2, E6 q q1]
  · have n1 : ¬ px1 <+: q ∧ ¬ b ++ relParts d1 <+: q :=
      ⟨fun h => q1 (Or.inl h), fun h => q1 (Or.inr h)⟩
    by_cases q2 : px2 <+: q ∨ b ++ relParts d2 <+: q
    · have n3 : ¬ q <+: b ++ (relParts d1).dropLast := by
        intro h0
        rcases q2 with h | h
        · exact hyx.1 (h.trans (h0.trans hdrop1))
        · exact hyy.2 (h.trans (h0.trans hdrop1))
      rw [C6 q q2, (E5 q n1.1 n1.2 n3).2]
    · have n2 : ¬ px2 <+: q ∧ ¬ b ++ relParts d2 <+: q :=
        ⟨fun h => q2 (Or.inl h), fun h => q2 (Or.inr h)⟩
      have cA := clsA q n1.1 n1.2
      have cB := clsB q n2.1 n2.2
      have cA' : oA.look q = w.look q ∨ (w.look q = none ∧ oA.look q = some .dir) :=
        cA.elim Or.inl (fun h => Or.inr ⟨h.1, h.2.1⟩)
      have cB' : oB.look q = w.look q ∨ (w.look q = none ∧ oB.look q = some .dir) :=
        cB.elim Or.inl (fun h => Or.inr ⟨h.1, h.2.1⟩)
      by_cases t1 : q <+: b ++ (relParts d1).dropLast
      · by_cases t2 : q <+: b ++ (relParts d2).dropLast
        · rw [(C7 q t2 n2.1).2, (E7 q t1 n1.1).2]
          exact merge_made _ _ _ cA' cB'
        · rw [(C5 q n2.1 n2.2 t2).2, (E7 q t1 n1.1).2, (B5 q n2.1 n2.2 t2).1]
          by_cases hn : oA.look q = none
          · rw [if_pos hn, hn]
            rcases cA' with h | h
            · rw [← h, hn]
            · rw [h.2] at hn
              cases hn
          · rw [if_neg hn]
      · by_cases t2 : q <+: b ++ (relParts d2).dropLast
        · rw [(C7 q t2 n2.1).2, (E5 q n1.1 n1.2 t1).2, (A5 q n1.1 n1.2 t1).1]
          by_cases hn : oB.look q = none
          · rw [if_pos hn, hn]
            rcases cB' with h | h
            · rw [← h, hn]
            · rw [h.2] at hn
              cases hn
          · rw [if_neg hn]
        · rw [(C5 q n2.1 n2.2 t2).2, (E5 q n1.1 n1.2 t1).2, (A5 q n1.1 n1.2 t1).1,
            (B5 q n2.1 n2.2 t2).1]

/-! ## The first backup of a run -/

theorem Install_congr_backup (i i1 : Installer) (w w1 : World) (src dest : String)
    (h : backup i w dest = backup i1 w1 dest) :
    Install i w src dest = Install i1 w1 src dest := by
  unfold Install
  rw [h]

theorem Install_unset_eq (i : Installer) (w w1 : World) (src dest bk : String) (e0 : Entry)
    (hb : i.backupDir = "")
    (hl : Lstat w (Join i.destDir dest) = .ok e0)
    (hm : MkdirTemp w i.destDir "backup" = (w1, .ok bk)) :
    Install i w src dest = Install { i with backupDir := bk } w1 src dest := by
  apply Install_congr_backup
  obtain ⟨hne, k, p, -, hres, hnone, -, hw1⟩ := MkdirTemp_ok _ _ _ _ hm
  have hp : backupPath i w dest = .ret (Join bk dest, none) { i with backupDir := bk } w1 := by
    unfold backupPath
    rw [if_pos hb, hm]
  obtain ⟨px, hpx, hlpx⟩ := (Lstat_ok_iff _ _ _).1 hl
  have hl1 : Lstat w1 (Join i.destDir dest) = .ok e0 := by
    refine (Lstat_ok_iff _ _ _).2 ⟨px, by rw [hw1]; exact hpx, ?_⟩
    have : w1.look px = (w.put p .dir).look px := by rw [hw1]; rfl
    rw [this, look_put_ne _ _ _ _ (fun h0 => by rw [h0, hnone] at hlpx; cases hlpx)]
    exact hlpx
  rw [backup_after_path i w dest e0 hl _ _ _ hp,
    backup_after_path { i with backupDir := bk } w1 dest e0 hl1 _ _ _
      (backupPath_set { i with backupDir := bk } w1 dest hne)]

theorem Mkdir_EEXIST_ext (w w' : World) (name : String)
    (hc : w'.cwd = w.cwd) (hrf : w'.refuse = w.refuse)
    (hext : ∀ q e, w.look q = some e → w'.look q = some e)
    (h : Mkdir w name = .error .EEXIST) : Mkdir w' name = .error .EEXIST := by
  unfold Mkdir at h ⊢
  rw [hc]
  cases hr : resolve w.cwd name with
  | none => rw [hr] at h; cases h
  | some c =>
    rw [hr] at h
    simp only at h ⊢
    cases hl' : w'.look c with
    | some e => simp [World.canCreate, hl']
    | none =>
      have hl : w.look c = none := by
        cases hlc : w.look c with
        | none => rfl
        | some e =>
          rw [hext c e hlc] at hl'
          cases hl'
      cases hp : w.look c.dropLast with
      | none => simp [World.canCreate, hl, hp] at h
      | some ep =>
        have hp' := hext _ _ hp
        cases ep with
        | file n => simp [World.canCreate, hl, hp] at h
        | symlink t => simp [World.canCreate, hl, hp] at h
        | dir =>
          simp only [World.canCreate, hl, hp, Option.isSome_none, Bool.false_eq_true,
            if_false] at h
          simp only [World.canCreate, hl', hp', Option.isSome_none, Bool.false_eq_true,
            if_false, hrf]
          cases hf : w.refuse (.mkdir c) with
          | none => rw [hf] at h; cases h
          | some e => rw [hf] at h; exact h

theorem mkdirTempTry_ext (pre : String) : ∀ (n : Nat) (w w' w1 : World) (name : String) (p : Loc),
    mkdirTempTry pre n w = (w1, .ok name) → resolve w.cwd name = some p →
    w'.cwd = w.cwd → w'.refuse = w.refuse → w'.rnd = w.rnd → w'.tick = w.tick →
    (∀ q e, w.look q = some e → w'.look q = some e) → w'.look p = none →
    mkdirTempTry pre n w'
      = ({ w' with fs := (p, .dir) :: w'.fs, tick := w1.tick, temps := name :: w'.temps },
          .ok name) := by
  intro n
  induction n with
  | zero => intro w w' w1 name p h; simp [mkdirTempTry] at h
  | succ n ih =>
    intro w w' w1 name p h hp hc hrf hrn htk hext hnone
    have hnr : nextRandom w' = nextRandom w := by
      unfold nextRandom
      rw [hrn, htk]
    unfold mkdirTempTry at h ⊢
    rw [hnr, htk]
    cases hm : Mkdir { w with tick := w.tick + 1 } (pre ++ nextRandom w) with
    | ok w2 =>
      rw [hm] at h
      simp only [Prod.mk.injEq, Except.ok.injEq] at h
      obtain ⟨p', h1, h2, h3, h4, h5⟩ := (Mkdir_ok_iff _ _ _).1 hm
      obtain ⟨hw1, hname⟩ := h
      rw [hname] at h1
      have h1' : resolve w.cwd name = some p' := h1
      rw [hp] at h1'
      cases h1'
      have hm' : Mkdir { w' with tick := w.tick + 1 } (pre ++ nextRandom w)
          = .ok (({ w' with tick := w.tick + 1 } : World).put p .dir) := by
        refine (Mkdir_ok_iff _ _ _).2 ⟨p, ?_, hnone, hext _ _ h3, ?_, rfl⟩
        · rw [hname]
          show resolve w'.cwd name = some p
          rw [hc]
          exact hp
        · show w'.refuse (.mkdir p) = none
          rw [hrf]
          exact h4
      rw [hm']
      simp only [hname]
      rw [← hw1, h5]
      rfl
    | error e =>
      rw [hm] at h
      cases e with
      | EEXIST =>
        simp only at h
        have hm' : Mkdir { w' with tick := w.tick + 1 } (pre ++ nextRandom w)
            = .error .EEXIST :=
          Mkdir_EEXIST_ext { w with tick := w.tick + 1 } { w' with tick := w.tick + 1 } _
            hc hrf hext hm
        rw [hm']
        simp only
        exact ih { w with tick := w.tick + 1 } { w' with tick := w.tick + 1 } w1 name p h hp
          hc hrf hrn rfl hext hnone
      | ENOENT => simp at h
      | ENOTDIR => simp at h
      | EINVAL => simp at h
      | EPERM => simp at h
      | ENAMETOOLONG => simp at h
      | EXDEV => simp at h
      | EACCES => simp at h

theorem MkdirTemp_ext (w w' w1 : World) (dir name : String) (p : Loc)
    (h : MkdirTemp w dir "backup" = (w1, .ok name)) (hp : resolve w.cwd name = some p)
    (hc : w'.cwd = w.cwd) (hrf : w'.refuse = w.refuse) (hrn : w'.rnd = w.rnd)
    (htk : w'.tick = w.tick) (htm : w'.tmp = w.tmp)
    (hext : ∀ q e, w.look q = some e → w'.look q = some e) (hnone : w'.look p = none) :
    MkdirTemp w' dir "backup"
      = ({ w' with fs := (p, .dir) :: w'.fs, tick := w1.tick, temps := name :: w'.temps },
          .ok name) := by
  unfold MkdirTemp at h ⊢
  have ht : (if dir = "" then w'.tmp else dir) = (if dir = "" then w.tmp else dir) := by
    rw [htm]
  rw [ht]
  exact mkdirTempTry_ext _ _ w w' w1 name p h hp hc hrf hrn htk hext hnone

theorem Install_congr (i : Installer) (w w' : World) (src dest : String) (px b : Loc)
    (hb : i.backupDir ≠ "") (hrel : relParts dest ≠ []) (hup : ".." ∉ relParts dest)
    (hpx : resolve w.cwd (Join i.destDir dest) = some px)
    (hbres : resolve w.cwd i.backupDir = some b)
    (hc : w'.cwd = w.cwd) (hrf : w'.refuse = w.refuse)
    (hag : ∀ q, w'.look q = w.look q) :
    ∃ r o o', Install i w src dest = .ret r i o ∧ Install i w' src dest = .ret r i o'
      ∧ o = { w with fs := o.fs } ∧ o' = { w' with fs := o'.fs }
      ∧ ∀ q, o'.look q = o.look q := by
  obtain ⟨r, o, o', a1, a2, a3, a4, a5, a6, a7⟩ :=
    Install_local i w w' src dest px b hb hrel hup hpx hbres hc hrf (fun q _ => hag q)
      (fun q _ => Or.inl (hag q))
  refine ⟨r, o, o', a1, a2, a3, a4, ?_⟩
  intro q
  by_cases q1 : px <+: q ∨ b ++ relParts dest <+: q
  · exact a6 q q1
  · by_cases q2 : q <+: b ++ (relParts dest).dropLast
    · have := a7 q q2 (fun h => q1 (Or.inl h))
      rw [this.2]
      by_cases hn : o.look q = none
      · rw [if_pos hn, hag q, hn]
        rcases this.1 with h | h
        · rw [← h]; exact hn
        · rw [h.2.1] at hn
          cases hn
      · rw [if_neg hn]
    · have := a5 q (fun h => q1 (Or.inl h)) (fun h => q1 (Or.inr h)) q2
      rw [this.1, this.2]
      exact hag q

/-! ## Two entries at whose destinations nothing exists -/

theorem mainLoop_two_absent (i : Installer) (w : World) (s1 d1 s2 d2 : String)
    (e1 e2 : Errno) (r1 r2 : Option GoError) (w1 w2 : World)
    (habs1 : Lstat w (Join i.destDir d1) = .error e1)
    (hin1 : install i w s1 d1 = (r1, w1))
    (habs2 : Lstat w1 (Join i.destDir d2) = .error e2)
    (hin2 : install i w1 s2 d2 = (r2, w2)) :
    mainLoop [(s1, d1), (s2, d2)] i w []
      = .ret [r1.map (.installFailed s1 d1), r2.map (.installFailed s2 d2)] i w2 := by
  unfold mainLoop
  rw [Install_absent_eq i w s1 d1 e1 habs1, hin1]
  simp only
  unfold mainLoop
  rw [Install_absent_eq i w1 s2 d2 e2 habs2, hin2]
  simp [mainLoop]

theorem second_after_first (i : Installer) (w : World) (sB dB : String) (pxA : Loc)
    (L : Entry) (xA : Option Loc) (eB : Errno) (hA : xA = some pxA)
    (hx : xA ≠ resolve w.cwd (Join i.destDir dB))
    (hS : resolve w.cwd (Join i.srcDir sB) ≠ xA)
    (hp : (resolve w.cwd (Join i.destDir dB)).map List.dropLast ≠ xA)
    (habs : Lstat w (Join i.destDir dB) = .error eB) :
    (∃ e, Lstat (w.put pxA L) (Join i.destDir dB) = .error e)
    ∧ (∀ err, install i w sB dB = (some err, w)
        → install i (w.put pxA L) sB dB = (some err, w.put pxA L))
    ∧ (∀ px fi, resolve w.cwd (Join i.destDir dB) = some px → w.look px = none
        → w.look px.dropLast = some .dir → Lstat w (Join i.srcDir sB) = .ok fi
        → (∀ ps, resolve w.cwd (Join i.srcDir sB) = some ps →
            w.refuse (linkCall fi (Join i.srcDir sB) ps px) = none)
        → install i (w.put pxA L) sB dB
            = (none, (w.put pxA L).put px
                (if fi.IsDir then .symlink (Join i.srcDir sB) else fi))) := by
  subst hA
  have hX : ∀ p, resolve w.cwd (Join i.destDir dB) = some p →
      (w.put pxA L).look p = w.look p
        ∧ (w.put pxA L).look p.dropLast = w.look p.dropLast := by
    intro p hres
    constructor
    · apply look_put_ne
      intro h0
      apply hx
      rw [hres, h0]
    · apply look_put_ne
      intro h0
      apply hp
      rw [hres, Option.map_some', h0]
  have hS' : ∀ p, resolve w.cwd (Join i.srcDir sB) = some p → (w.put pxA L).look p = w.look p := by
    intro p hres
    apply look_put_ne
    intro h0
    apply hS
    rw [hres, h0]
  refine ⟨?_, install_transfer i w (w.put pxA L) sB dB rfl rfl hS' hX⟩
  apply (Lstat_error_iff _ _).2
  intro p hres
  rw [put_cwd] at hres
  rw [(hX p hres).1]
  exact (Lstat_error_iff _ _).1 ⟨eB, habs⟩ p hres

theorem look_put_put_comm (w : World) (p1 p2 : Loc) (e1 e2 : Entry) (h : p1 ≠ p2) (q : Loc) :
    ((w.put p1 e1).put p2 e2).look q = ((w.put p2 e2).put p1 e1).look q := by
  simp only [look_put]
  by_cases h0 : q = []
  · simp [h0]
  · by_cases h1 : p1 = q
    · have h2 : p2 ≠ q := fun h3 => h (h1.trans h3.symm)
      simp [h0, h1, h2]
    · simp [h0, h1]

theorem Install_commute_absent (i : Installer) (w : World) (s1 d1 s2 d2 : String)
    (e1 e2 : Errno)
    (habs1 : Lstat w (Join i.destDir d1) = .error e1)
    (habs2 : Lstat w (Join i.destDir d2) = .error e2)
    (hx : resolve w.cwd (Join i.destDir d1) ≠ resolve w.cwd (Join i.destDir d2))
    (h12 : resolve w.cwd (Join i.srcDir s1) ≠ resolve w.cwd (Join i.destDir d2))
    (h21 : resolve w.cwd (Join i.srcDir s2) ≠ resolve w.cwd (Join i.destDir d1))
    (hp12 : (resolve w.cwd (Join i.destDir d1)).map List.dropLast
              ≠ resolve w.cwd (Join i.destDir d2))
    (hp21 : (resolve w.cwd (Join i.destDir d2)).map List.dropLast
              ≠ resolve w.cwd (Join i.destDir d1)) :
    ∃ r1 r2 wa wb,
      mainLoop [(s1, d1), (s2, d2)] i w [] = .ret [r1, r2] i wa
      ∧ mainLoop [(s2, d2), (s1, d1)] i w [] = .ret [r2, r1] i wb
      ∧ (∀ p, wa.look p = wb.look p)
      ∧ wa.cwd = wb.cwd ∧ wa.temps = wb.temps ∧ wa.content = wb.content := by
  rcases install_cases i w s1 d1 with ⟨err1, hI1⟩ | ⟨px1, fi1, a1, a2, a3, a4, a5, hI1⟩
  · rcases install_cases i w s2 d2 with ⟨err2, hI2⟩ | ⟨px2, fi2, b1, b2, b3, b4, b5, hI2⟩
    · exact ⟨_, _, w, w, mainLoop_two_absent i w s1 d1 s2 d2 e1 e2 _ _ w w habs1 hI1 habs2 hI2,
        mainLoop_two_absent i w s2 d2 s1 d1 e2 e1 _ _ w w habs2 hI2 habs1 hI1,
        fun _ => rfl, rfl, rfl, rfl⟩
    · obtain ⟨⟨e1', hl1⟩, t1, -⟩ := second_after_first i w s1 d1 px2
        (if fi2.IsDir then .symlink (Join i.srcDir s2) else fi2) _ e1 b1 hx.symm h12 hp12 habs1
      exact ⟨_, _, _, _,
        mainLoop_two_absent i w s1 d1 s2 d2 e1 e2 _ _ w _ habs1 hI1 habs2 hI2,
        mainLoop_two_absent i w s2 d2 s1 d1 e2 e1' _ _ _ _ habs2 hI2 hl1 (t1 err1 hI1),
        fun _ => rfl, rfl, rfl, rfl⟩
  · rcases install_cases i w s2 d2 with ⟨err2, hI2⟩ | ⟨px2, fi2, b1, b2, b3, b4, b5, hI2⟩
    · obtain ⟨⟨e2', hl2⟩, t2, -⟩ := second_after_first i w s2 d2 px1
        (if fi1.IsDir then .symlink (Join i.srcDir s1) else fi1) _ e2 a1 hx h21 hp21 habs2
      exact ⟨_, _, _, _,
        mainLoop_two_absent i w s1 d1 s2 d2 e1 e2' _ _ _ _ habs1 hI1 hl2 (t2 err2 hI2),
        mainLoop_two_absent i w s2 d2 s1 d1 e2 e1 _ _ w _ habs2 hI2 habs1 hI1,
        fun _ => rfl, rfl, rfl, rfl⟩
    · obtain ⟨⟨e2', hl2⟩, -, t2⟩ := second_after_first i w s2 d2 px1
        (if fi1.IsDir then .symlink (Join i.srcDir s1) else fi1) _ e2 a1 hx h21 hp21 habs2
      obtain ⟨⟨e1', hl1⟩, -, t1⟩ := second_after_first i w s1 d1 px2
        (if fi2.IsDir then .symlink (Join i.srcDir s2) else fi2) _ e1 b1 hx.symm h12 hp12 habs1
      have hne : px1 ≠ px2 := by
        intro h0
        apply hx
        rw [a1, b1, h0]
      exact ⟨_, _, _, _,
        mainLoop_two_absent i w s1 d1 s2 d2 e1 e2' _ _ _ _ habs1 hI1 hl2 (t2 px2 fi2 b1 b2 b3 b4 b5),
        mainLoop_two_absent i w s2 d2 s1 d1 e2 e1' _ _ _ _ habs2 hI2 hl1 (t1 px1 fi1 a1 a2 a3 a4 a5),
        fun q => look_put_put_comm w px1 px2 _ _ hne q, rfl, rfl, rfl⟩

/-! ## Two entries, the first backup of the run among them -/

theorem MkdirTemp_made (w w1 : World) (dir bk : String) (b : Loc)
    (hm : MkdirTemp w dir "backup" = (w1, .ok bk)) (hbres : resolve w.cwd bk = some b) :
    bk ≠ "" ∧ w.look b = none ∧ b ≠ []
      ∧ w1 = { w with fs := (b, .dir) :: w.fs, tick := w1.tick, temps := bk :: w.temps }
      ∧ (∀ q, w1.look q = (w.put b .dir).look q) := by
  obtain ⟨hne, k, p, -, hres, hnone, -, hw1⟩ := MkdirTemp_ok _ _ _ _ hm
  rw [hbres] at hres
  cases hres
  have hb0 : b ≠ [] := by
    intro h0
    rw [h0, look_root] at hnone
    cases hnone
  refine ⟨hne, hnone, hb0, by rw [hw1], ?_⟩
  intro q
  rw [hw1]
  rfl

theorem commute_after_MkdirTemp (i : Installer) (w w1 : World) (s1 d1 s2 d2 bk : String)
    (px1 px2 b : Loc)
    (hm : MkdirTemp w i.destDir "backup" = (w1, .ok bk))
    (hrel1 : relParts d1 ≠ []) (hup1 : ".." ∉ relParts d1)
    (hrel2 : relParts d2 ≠ []) (hup2 : ".." ∉ relParts d2)
    (hpx1 : resolve w.cwd (Join i.destDir d1) = some px1)
    (hpx2 : resolve w.cwd (Join i.destDir d2) = some px2)
    (hbres : resolve w.cwd bk = some b)
    (hanc : ∀ q, q <+: b → q ≠ b → w.look q = some .dir)
    (hxx : ¬ px1 <+: px2 ∧ ¬ px2 <+: px1)
    (hrr : ¬ relParts d1 <+: relParts d2 ∧ ¬ relParts d2 <+: relParts d1)
    (hb1 : ¬ b <+: px1 ∧ ¬ px1 <+: b) (hb2 : ¬ b <+: px2 ∧ ¬ px2 <+: b)
    (hs1 : ∀ q, resolve w.cwd (Join i.srcDir s1) = some q → ¬ px2 <+: q ∧ ¬ b <+: q)
    (hs2 : ∀ q, resolve w.cwd (Join i.srcDir s2) = some q → ¬ px1 <+: q ∧ ¬ b <+: q) :
    ∃ r1 r2 wa wb,
      Install { i with backupDir := bk } w1 s1 d1
        = .ret r1 { i with backupDir := bk } (Install { i with backupDir := bk } w1 s1 d1).world
      ∧ Install { i with backupDir := bk } w1 s2 d2
        = .ret r2 { i with backupDir := bk } (Install { i with backupDir := bk } w1 s2 d2).world
      ∧ Install { i with backupDir := bk } (Install { i with backupDir := bk } w1 s1 d1).world
          s2 d2 = .ret r2 { i with backupDir := bk } wa
      ∧ Install { i with backupDir := bk } (Install { i with backupDir := bk } w1 s2 d2).world
          s1 d1 = .ret r1 { i with backupDir := bk } wb
      ∧ (∀ p, wa.look p = wb.look p)
      ∧ wa = { w1 with fs := wa.fs } ∧ wb = { w1 with fs := wb.fs } := by
  obtain ⟨hne, hnone, hb0, hw1, hlook1⟩ := MkdirTemp_made w w1 _ bk b hm hbres
  have hc1 : w1.cwd = w.cwd := by rw [hw1]
  apply Install_commute_set { i with backupDir := bk } w1 s1 d1 s2 d2 px1 px2 b hne hrel1 hup1
    hrel2 hup2 (by rw [hc1]; exact hpx1) (by rw [hc1]; exact hpx2) (by rw [hc1]; exact hbres)
    ?_ hxx hrr hb1 hb2 (by rw [hc1]; exact hs1) (by rw [hc1]; exact hs2)
  intro q hq hqb
  rw [hlook1, look_put_ne _ _ _ _ hqb]
  exact hanc q hq hqb

theorem Install_commute_both_backed_up (i : Installer) (w w1 : World)
    (s1 d1 s2 d2 bk : String) (px1 px2 b : Loc) (e1 e2 : Entry)
    (hb : i.backupDir = "")
    (hm : MkdirTemp w i.destDir "backup" = (w1, .ok bk))
    (hrel1 : relParts d1 ≠ []) (hup1 : ".." ∉ relParts d1)
    (hrel2 : relParts d2 ≠ []) (hup2 : ".." ∉ relParts d2)
    (hpx1 : resolve w.cwd (Join i.destDir d1) = some px1)
    (hpx2 : resolve w.cwd (Join i.destDir d2) = some px2)
    (hbres : resolve w.cwd bk = some b)
    (hanc : ∀ q, q <+: b → q ≠ b → w.look q = some .dir)
    (hxx : ¬ px1 <+: px2 ∧ ¬ px2 <+: px1)
    (hrr : ¬ relParts d1 <+: relParts d2 ∧ ¬ relParts d2 <+: relParts d1)
    (hb1 : ¬ b <+: px1 ∧ ¬ px1 <+: b) (hb2 : ¬ b <+: px2 ∧ ¬ px2 <+: b)
    (hs1 : ∀ q, resolve w.cwd (Join i.srcDir s1) = some q → ¬ px2 <+: q ∧ ¬ b <+: q)
    (hs2 : ∀ q, resolve w.cwd (Join i.srcDir s2) = some q → ¬ px1 <+: q ∧ ¬ b <+: q)
    (hl1 : Lstat w (Join i.destDir d1) = .ok e1)
    (hl2 : Lstat w (Join i.destDir d2) = .ok e2) :
    ∃ r1 r2 wa wb,
      mainLoop [(s1, d1), (s2, d2)] i w [] = .ret [r1, r2] { i with backupDir := bk } wa
      ∧ mainLoop [(s2, d2), (s1, d1)] i w [] = .ret [r2, r1] { i with backupDir := bk } wb
      ∧ (∀ p, wa.look p = wb.look p)
      ∧ wa = { w1 with fs := wa.fs } ∧ wb = { w1 with fs := wb.fs } := by
  obtain ⟨r1, r2, wa, wb, S1, S2, S3, S4, S5, S6, S7⟩ :=
    commute_after_MkdirTemp i w w1 s1 d1 s2 d2 bk px1 px2 b hm hrel1 hup1 hrel2 hup2 hpx1 hpx2
      hbres hanc hxx hrr hb1 hb2 hs1 hs2
  refine ⟨r1, r2, wa, wb, ?_, ?_, S5, S6, S7⟩
  · exact mainLoop_two i _ _ w _ wa s1 d1 s2 d2 r1 r2
      (by rw [Install_unset_eq i w w1 s1 d1 bk e1 hb hl1 hm]; exact S1) S3
  · exact mainLoop_two i _ _ w _ wb s2 d2 s1 d1 r2 r1
      (by rw [Install_unset_eq i w w1 s2 d2 bk e2 hb hl2 hm]; exact S2) S4

theorem Install_commute_one_backed_up (i : Installer) (w w1 : World)
    (s1 d1 s2 d2 bk : String) (px1 px2 b : Loc) (e1 : Entry) (e2 : Errno)
    (hb : i.backupDir = "")
    (hm : MkdirTemp w i.destDir "backup" = (w1, .ok bk))
    (hrel1 : relParts d1 ≠ []) (hup1 : ".." ∉ relParts d1)
    (hrel2 : relParts d2 ≠ []) (hup2 : ".." ∉ relParts d2)
    (hpx1 : resolve w.cwd (Join i.destDir d1) = some px1)
    (hpx2 : resolve w.cwd (Join i.destDir d2) = some px2)
    (hbres : resolve w.cwd bk = some b)
    (hanc : ∀ q, q <+: b → q ≠ b → w.look q = some .dir)
    (hxx : ¬ px1 <+: px2 ∧ ¬ px2 <+: px1)
    (hrr : ¬ relParts d1 <+: relParts d2 ∧ ¬ relParts d2 <+: relParts d1)
    (hb1 : ¬ b <+: px1 ∧ ¬ px1 <+: b) (hb2 : ¬ b <+: px2 ∧ ¬ px2 <+: b)
    (hs1 : ∀ q, resolve w.cwd (Join i.srcDir s1) = some q → ¬ px2 <+: q ∧ ¬ b <+: q)
    (hs2 : ∀ q, resolve w.cwd (Join i.srcDir s2) = some q → ¬ px1 <+: q ∧ ¬ b <+: q)
    (hl1 : Lstat w (Join i.destDir d1) = .ok e1)
    (hl2 : Lstat w (Join i.destDir d2) = .error e2) :
    ∃ r1 r2 wa wb,
      mainLoop [(s1, d1), (s2, d2)] i w [] = .ret [r1, r2] { i with backupDir := bk } wa
      ∧ mainLoop [(s2, d2), (s1, d1)] i w [] = .ret [r2, r1] { i with backupDir := bk } wb
      ∧ (∀ p, wa.look p = wb.look p)
      ∧ wa.cwd = wb.cwd ∧ wa.temps = wb.temps ∧ wa.content = wb.content
      ∧ wa.tick = wb.tick := by
  obtain ⟨r1, r2, wa, wb', S1, S2, S3, S4, S5, S6, S7⟩ :=
    commute_after_MkdirTemp i w w1 s1 d1 s2 d2 bk px1 px2 b hm hrel1 hup1 hrel2 hup2 hpx1 hpx2
      hbres hanc hxx hrr hb1 hb2 hs1 hs2
  obtain ⟨hne, hnone, hb0, hw1, hlook1⟩ := MkdirTemp_made w w1 _ bk b hm hbres
  have hc1 : w1.cwd = w.cwd := by rw [hw1]
  have hr1 : w1.refuse = w.refuse := by rw [hw1]
  have hA := mainLoop_two i _ _ w _ wa s1 d1 s2 d2 r1 r2
      (by rw [Install_unset_eq i w w1 s1 d1 bk e1 hb hl1 hm]; exact S1) S3
  -- nothing at the second destination, before or after the backup directory is made
  have hx2 : w.look px2 = none := (Lstat_error_iff w _).1 ⟨e2, hl2⟩ px2 hpx2
  have hpb : px2 ≠ b := fun h0 => hb2.1 (h0 ▸ List.prefix_refl _)
  have hpb1 : px1 ≠ b := fun h0 => hb1.1 (h0 ▸ List.prefix_refl _)
  have hx1 : w.look px1 = some e1 := by
    obtain ⟨p, hp, hlp⟩ := (Lstat_ok_iff _ _ _).1 hl1
    rw [hpx1] at hp
    cases hp
    exact hlp
  have hp12 : px1 ≠ px2 := fun h0 => hxx.1 (h0 ▸ List.prefix_refl _)
  obtain ⟨e2', hl2'⟩ : ∃ e, Lstat w1 (Join i.destDir d2) = .error e := by
    apply (Lstat_error_iff _ _).2
    intro p hp
    rw [hc1, hpx2] at hp
    cases hp
    rw [hlook1, look_put_ne _ _ _ _ hpb]
    exact hx2
  obtain ⟨r, o, o', k1, k2, k3, k4, k5, k6⟩ :=
    install_local i w w1 s2 d2 px2 hc1 hr1 hpx2
      (by rw [hlook1, look_put_ne _ _ _ _ hpb])
      (by
        rw [hlook1, look_put_ne _ _ _ _ ?_]
        exact fun h0 => hb2.1 (h0 ▸ List.dropLast_prefix _))
      (fun q hq => by
        rw [hlook1, look_put_ne _ _ _ _ ?_]
        exact fun h0 => (hs2 q hq).2 (h0 ▸ List.prefix_refl _))
  have hI2 : Install i w s2 d2 = .ret (r.map (.installFailed s2 d2)) i o := by
    rw [Install_absent_eq i w s2 d2 e2 hl2, k1]
  have hI2' : Install { i with backupDir := bk } w1 s2 d2
      = .ret (r.map (.installFailed s2 d2)) { i with backupDir := bk } o' := by
    rw [Install_absent_eq { i with backupDir := bk } w1 s2 d2 e2' hl2']
    have : install { i with backupDir := bk } w1 s2 d2 = install i w1 s2 d2 := rfl
    rw [this, k2]
  rw [hI2'] at S2 S4
  simp only [Run.ret.injEq, true_and] at S2
  have hr2 : r.map (.installFailed s2 d2) = r2 := S2.1
  simp only [Run.world] at S4
  -- the second order: the backup directory is made after the link
  have ho1 : o.look px1 = some e1 := by rw [(k5 px1 hp12).1]; exact hx1
  have hco : o.cwd = w.cwd := by rw [k3]
  have hlo : Lstat o (Join i.destDir d1) = .ok e1 :=
    (Lstat_ok_iff _ _ _).2 ⟨px1, by rw [hco]; exact hpx1, ho1⟩
  have hmo := MkdirTemp_ext w o w1 i.destDir bk b hm hbres hco (by rw [k3]) (by rw [k3])
    (by rw [k3]) (by rw [k3])
    (fun q e hq => by
      rw [(k5 q (fun h0 => by rw [h0, hx2] at hq; cases hq)).1]
      exact hq)
    (by rw [(k5 b (Ne.symm hpb)).1]; exact hnone)
  obtain ⟨oB1, hmo1, g1, g2, g3, g4, g5, g6⟩ : ∃ oB1 : World,
      MkdirTemp o i.destDir "backup" = (oB1, .ok bk)
      ∧ (∀ q, oB1.look q = (o.put b .dir).look q) ∧ oB1.cwd = o.cwd
      ∧ oB1.refuse = o.refuse ∧ oB1.temps = (bk :: o.temps) ∧ oB1.tick = w1.tick
      ∧ oB1.content = o.content :=
    ⟨_, hmo, fun _ => rfl, rfl, rfl, rfl, rfl, rfl⟩
  have hIo := Install_unset_eq i o oB1 s1 d1 bk e1 hb hlo hmo1
  have hco' : o'.cwd = w.cwd := by rw [k4]; exact hc1
  obtain ⟨r', oo, oo', c1, c2, c3, c4, c5⟩ :=
    Install_congr { i with backupDir := bk } o' oB1 s1 d1 px1 b
      hne hrel1 hup1 (by rw [hco']; exact hpx1) (by rw [hco']; exact hbres)
      (by rw [hco', g2]; exact hco) (by rw [g3, k4, k3]; exact hr1.symm)
      (fun q => by
        rw [g1]
        by_cases h0 : q = px2
        · rw [h0, look_put_ne _ _ _ _ hpb]
          exact k6.symm
        · rw [(k5 q h0).2, hlook1, look_put, look_put, (k5 q h0).1])
  rw [S4] at c1
  simp only [Run.ret.injEq, true_and] at c1
  obtain ⟨c1a, c1b⟩ := c1
  subst c1a
  subst c1b
  have hB := mainLoop_two i i _ w o oo' s2 d2 s1 d1 _ r1 hI2 (by rw [hIo]; exact c2)
  rw [hr2] at hB
  refine ⟨r1, r2, wa, oo', hA, hB, ?_, ?_, ?_, ?_, ?_⟩
  · intro q
    rw [S5 q, c5 q]
  · rw [S6, c4]
    show w1.cwd = oB1.cwd
    rw [hc1, g2, hco]
  · rw [S6, c4]
    show w1.temps = oB1.temps
    rw [g4, hw1, k3]
  · rw [S6, c4]
    show w1.content = oB1.content
    rw [g6, hw1, k3]
  · rw [S6, c4]
    show w1.tick = oB1.tick
    rw [g5]

/-! ## Two entries whose paths do not overlap -/

theorem Install_commute_rooted (i : Installer) (w : World) (s1 d1 s2 d2 bk : String)
    (P b : Loc)
    (hroot : if i.backupDir = "" then (MkdirTemp w i.destDir "backup").2 = .ok bk
      else i.backupDir = bk)
    (hP : resolve w.cwd i.destDir = some P)
    (hbres : resolve w.cwd bk = some b)
    (hrel1 : relParts d1 ≠ []) (hup1 : ".." ∉ relParts d1)
    (hrel2 : relParts d2 ≠ []) (hup2 : ".." ∉ relParts d2)
    (hanc : ∀ q, q <+: b → q ≠ b → w.look q = some .dir)
    (hrr : ¬ relParts d1 <+: relParts d2 ∧ ¬ relParts d2 <+: relParts d1)
    (hb1 : ¬ b <+: P ++ relParts d1 ∧ ¬ P ++ relParts d1 <+: b)
    (hb2 : ¬ b <+: P ++ relParts d2 ∧ ¬ P ++ relParts d2 <+: b)
    (hs1 : ∀ q, resolve w.cwd (Join i.srcDir s1) = some q
      → ¬ P ++ relParts d2 <+: q ∧ ¬ b <+: q)
    (hs2 : ∀ q, resolve w.cwd (Join i.srcDir s2) = some q
      → ¬ P ++ relParts d1 <+: q ∧ ¬ b <+: q) :
    ∃ r1 r2 i' wa wb,
      mainLoop [(s1, d1), (s2, d2)] i w [] = .ret [r1, r2] i' wa
      ∧ mainLoop [(s2, d2), (s1, d1)] i w [] = .ret [r2, r1] i' wb
      ∧ (∀ p, wa.look p = wb.look p)
      ∧ wa.cwd = wb.cwd ∧ wa.temps = wb.temps ∧ wa.content = wb.content := by
  have hpx1 := (resolve_backup_path w.cwd i.destDir d1 P hP hrel1 hup1).1
  have hpx2 := (resolve_backup_path w.cwd i.destDir d2 P hP hrel2 hup2).1
  have hxx : ¬ P ++ relParts d1 <+: P ++ relParts d2
      ∧ ¬ P ++ relParts d2 <+: P ++ relParts d1 :=
    ⟨fun h => hrr.1 ((List.prefix_append_right_inj P).1 h),
     fun h => hrr.2 ((List.prefix_append_right_inj P).1 h)⟩
  by_cases hb : i.backupDir = ""
  · rw [if_pos hb] at hroot
    cases hmt : MkdirTemp w i.destDir "backup" with
    | mk w1 res =>
      rw [hmt] at hroot
      simp only at hroot
      rw [hroot] at hmt
      cases hl1 : Lstat w (Join i.destDir d1) with
      | ok e1 =>
        cases hl2 : Lstat w (Join i.destDir d2) with
        | ok e2 =>
          obtain ⟨r1, r2, wa, wb, h1, h2, h3, h4, h5⟩ :=
            Install_commute_both_backed_up i w w1 s1 d1 s2 d2 bk _ _ b e1 e2 hb hmt hrel1 hup1
              hrel2 hup2 hpx1 hpx2 hbres hanc hxx hrr hb1 hb2 hs1 hs2 hl1 hl2
          exact ⟨r1, r2, _, wa, wb, h1, h2, h3, by rw [h4, h5], by rw [h4, h5], by rw [h4, h5]⟩
        | error e2 =>
          obtain ⟨r1, r2, wa, wb, h1, h2, h3, h4, h5, h6, -⟩ :=
            Install_commute_one_backed_up i w w1 s1 d1 s2 d2 bk _ _ b e1 e2 hb hmt hrel1 hup1
              hrel2 hup2 hpx1 hpx2 hbres hanc hxx hrr hb1 hb2 hs1 hs2 hl1 hl2
          exact ⟨r1, r2, _, wa, wb, h1, h2, h3, h4, h5, h6⟩
      | error e1 =>
        cases hl2 : Lstat w (Join i.destDir d2) with
        | ok e2 =>
          obtain ⟨r2, r1, wb, wa, h1, h2, h3, h4, h5, h6, -⟩ :=
            Install_commute_one_backed_up i w w1 s2 d2 s1 d1 bk _ _ b e2 e1 hb hmt hrel2 hup2
              hrel1 hup1 hpx2 hpx1 hbres hanc hxx.symm hrr.symm hb2 hb1 hs2 hs1 hl2 hl1
          exact ⟨r1, r2, _, wa, wb, h2, h1, fun p => (h3 p).symm, h4.symm, h5.symm, h6.symm⟩
        | error e2 =>
          obtain ⟨r1, r2, wa, wb, h1, h2, h3⟩ :=
            Install_commute_absent i w s1 d1 s2 d2 e1 e2 hl1 hl2
              (by
                rw [hpx1, hpx2]
                exact fun h0 => hxx.1 (Option.some.inj h0 ▸ List.prefix_refl _))
              (by
                intro h0
                rw [hpx2] at h0
                exact (hs1 _ h0).1 (List.prefix_refl _))
              (by
                intro h0
                rw [hpx1] at h0
                exact (hs2 _ h0).1 (List.prefix_refl _))
              (by
                rw [hpx1, hpx2, Option.map_some']
                exact fun h0 => hxx.2 (Option.some.inj h0 ▸ List.dropLast_prefix _))
              (by
                rw [hpx1, hpx2, Option.map_some']
                exact fun h0 => hxx.1 (Option.some.inj h0 ▸ List.dropLast_prefix _))
          exact ⟨r1, r2, i, wa, wb, h1, h2, h3⟩
  · rw [if_neg hb] at hroot
    subst hroot
    obtain ⟨r1, r2, wa, wb, S1, S2, S3, S4, S5, S6, S7⟩ :=
      Install_commute_set i w s1 d1 s2 d2 _ _ b hb hrel1 hup1 hrel2 hup2 hpx1 hpx2 hbres hanc
        hxx hrr hb1 hb2 hs1 hs2
    exact ⟨r1, r2, i, wa, wb, mainLoop_two i i i w _ wa s1 d1 s2 d2 r1 r2 S1 S3,
      mainLoop_two i i i w _ wb s2 d2 s1 d1 r2 r1 S2 S4, S5, by rw [S6, S7], by rw [S6, S7],
      by rw [S6, S7]⟩

/-! ## What a failed backup leaves behind -/

theorem MkdirAll_grows (w : World) (path : String) (q : Loc) :
    (MkdirAll w path).1.look q = w.look q
      ∨ (w.look q = none ∧ (MkdirAll w path).1.look q = some .dir) := by
  cases hd : resolve w.cwd path with
  | none =>
    left
    unfold MkdirAll
    rw [hd]
  | some d =>
    obtain ⟨r, o, o', a1, -, -, -, a5, a6, -, -⟩ :=
      MkdirAll_rel w w path d rfl rfl hd (fun _ _ => Or.inl rfl)
    rw [a1]
    by_cases hq : q <+: d
    · rcases (a6 q hq).1 with h | h
      · exact Or.inl h
      · exact Or.inr ⟨h.1, h.2.1⟩
    · exact Or.inl (a5 q hq).1

theorem backup_error_world (i i' : Installer) (w w' : World) (dest : String) (cause : GoError)
    (e0 : Entry) (back : String) (i1 : Installer) (w1 : World)
    (hl : Lstat w (Join i.destDir dest) = .ok e0)
    (hp : backupPath i w dest = .ret (back, none) i1 w1)
    (h : backup i w dest = .ret (some cause) i' w') :
    i' = i1 ∧ w' = (MkdirAll w1 (Dir back)).1 := by
  rw [backup_after_path i w dest e0 hl back i1 w1 hp] at h
  cases hm : MkdirAll w1 (Dir back) with
  | mk w2 r =>
    rw [hm] at h
    cases r with
    | some e =>
      simp only [Run.ret.injEq] at h
      exact ⟨h.2.1.symm, h.2.2.symm⟩
    | none =>
      simp only at h
      cases hr : Rename w2 (Join i.destDir dest) back with
      | error e =>
        rw [hr] at h
        simp only [Run.ret.injEq] at h
        exact ⟨h.2.1.symm, h.2.2.symm⟩
      | ok w3 =>
        rw [hr] at h
        simp at h

theorem backup_error_anatomy (i i' : Installer) (w w' : World) (dest : String)
    (cause : GoError) (h : backup i w dest = .ret (some cause) i' w') :
    (∃ e0, Lstat w (Join i.destDir dest) = .ok e0 ∧ Lstat w' (Join i.destDir dest) = .ok e0)
    ∧ (∀ q, w'.look q = w.look q ∨ (w.look q = none ∧ w'.look q = some .dir))
    ∧ w'.content = w.content ∧ w'.cwd = w.cwd
    ∧ (i.backupDir ≠ "" → i' = i ∧ w'.temps = w.temps
        ∧ ∀ d, resolve w.cwd (Dir (Join i.backupDir dest)) = some d →
            (∀ q, q <+: d → w.look q = some .dir) → w' = w) := by
  cases hl : Lstat w (Join i.destDir dest) with
  | error e =>
    rw [backup_of_absent i w dest e hl] at h
    simp at h
  | ok e0 =>
    obtain ⟨px, hpx, hlpx⟩ := (Lstat_ok_iff _ _ _).1 hl
    have fin : ∀ w1 : World, (∀ q, w1.look q = w.look q ∨ (w.look q = none ∧ w1.look q = some .dir))
        → w1.cwd = w.cwd → w1.content = w.content → ∀ back, w' = (MkdirAll w1 (Dir back)).1 →
        Lstat w' (Join i.destDir dest) = .ok e0
        ∧ (∀ q, w'.look q = w.look q ∨ (w.look q = none ∧ w'.look q = some .dir))
        ∧ w'.content = w.content ∧ w'.cwd = w.cwd := by
      intro w1 hg hc hct back hw'
      have hs := MkdirAll_shape w1 (Dir back)
      rw [← hw'] at hs
      have hgrow : ∀ q, w'.look q = w.look q ∨ (w.look q = none ∧ w'.look q = some .dir) := by
        intro q
        have h2 := MkdirAll_grows w1 (Dir back) q
        rw [← hw'] at h2
        rcases h2 with h2 | h2
        · rw [h2]
          exact hg q
        · rcases hg q with h1 | h1
          · exact Or.inr ⟨by rw [← h1]; exact h2.1, h2.2⟩
          · rw [h1.2] at h2
            cases h2.1
      have hcw : w'.cwd = w.cwd := by rw [hs]; exact hc
      refine ⟨?_, hgrow, by rw [hs]; exact hct, hcw⟩
      refine (Lstat_ok_iff _ _ _).2 ⟨px, by rw [hcw]; exact hpx, ?_⟩
      rcases hgrow px with h1 | h1
      · rw [h1]; exact hlpx
      · rw [hlpx] at h1
        cases h1.1
    by_cases hb : i.backupDir = ""
    · rcases backupPath_unset i w dest hb with ⟨w1, e, hm, hp⟩ | ⟨w1, tmp, hm, hp⟩
      · have : backup i w dest = .exit w1 := by
          unfold backup
          rw [hl, hp]
        rw [this] at h
        cases h
      · obtain ⟨-, hw'⟩ := backup_error_world i i' w w' dest cause e0 _ _ w1 hl hp h
        obtain ⟨-, k, p, -, -, hnone, -, hw1⟩ := MkdirTemp_ok _ _ _ _ hm
        have hlook1 : ∀ q, w1.look q = (w.put p .dir).look q := by
          intro q
          rw [hw1]
          rfl
        obtain ⟨f1, f2, f3, f4⟩ := fin w1 (fun q => by
            rw [hlook1]
            by_cases h0 : q = p
            · right
              have hp0 : p ≠ [] := by
                intro h1
                rw [h1, look_root] at hnone
                cases hnone
              rw [h0, look_put_self _ _ _ hp0]
              exact ⟨hnone, rfl⟩
            · left
              exact look_put_ne _ _ _ _ h0) (by rw [hw1]) (by rw [hw1]) _ hw'
        exact ⟨⟨e0, rfl, f1⟩, f2, f3, f4, fun h0 => absurd hb h0⟩
    · have hp := backupPath_set i w dest hb
      obtain ⟨hi', hw'⟩ := backup_error_world i i' w w' dest cause e0 _ _ w hl hp h
      obtain ⟨f1, f2, f3, f4⟩ := fin w (fun q => Or.inl rfl) rfl rfl _ hw'
      refine ⟨⟨e0, rfl, f1⟩, f2, f3, f4, fun _ => ⟨hi', ?_, ?_⟩⟩
      · have hs := MkdirAll_shape w (Dir (Join i.backupDir dest))
        rw [← hw'] at hs
        rw [hs]
      · intro d hd hD
        rw [hw', MkdirAll_noop w _ d hd hD]

/-! ## The loop of `main` entry by entry -/

theorem mainLoop_append (pre : List (String × String)) :
    ∀ (post : List (String × String)) (i : Installer) (w : World) (done : List error),
    mainLoop (pre ++ post) i w done
      = match mainLoop pre i w done with
        | .exit w1 => .exit w1
        | .ret rs i1 w1 => mainLoop post i1 w1 rs := by
  induction pre with
  | nil => intro post i w done; simp [mainLoop]
  | cons x rest ih =>
    intro post i w done
    obtain ⟨s, d⟩ := x
    simp only [List.cons_append, mainLoop]
    cases hI : Install i w s d with
    | exit w1 => rfl
    | ret r i1 w1 =>
      simp only
      exact ih post i1 w1 (done ++ [r])

theorem mainLoop_reaches (pre : List (String × String)) (s d : String)
    (post : List (String × String)) (i : Installer) (w : World) (done : List error)
    (h : (mainLoop (pre ++ (s, d) :: post) i w done).exited = false) :
    ∃ rs i1 w1 r i2 w2, mainLoop pre i w done = .ret (done ++ rs) i1 w1
      ∧ rs.length = pre.length
      ∧ Install i1 w1 s d = .ret r i2 w2
      ∧ mainLoop (pre ++ (s, d) :: post) i w done = mainLoop post i2 w2 (done ++ rs ++ [r]) := by
  rw [mainLoop_append] at h ⊢
  cases hp : mainLoop pre i w done with
  | exit w1 =>
    rw [hp] at h
    simp [Run.exited] at h
  | ret rs' i1 w1 =>
    rw [hp] at h
    simp only at h ⊢
    obtain ⟨rs, i1', w1', e1, e2⟩ := mainLoop_all pre i w done (by rw [hp]; rfl)
    rw [hp] at e1
    simp only [Run.ret.injEq] at e1
    obtain ⟨c1, c2, c3⟩ := e1
    subst c1 c2 c3
    simp only [mainLoop] at h ⊢
    cases hI : Install i1 w1 s d with
    | exit w2 =>
      rw [hI] at h
      simp [Run.exited] at h
    | ret r i2 w2 =>
      refine ⟨rs, i1, w1, r, i2, w2, rfl, e2, hI, ?_⟩
      simp only [List.append_assoc]

/-! ## The claims -/

/-- C7: when nothing exists at `Join(destDir, dest)` (`Lstat` reports an
error), `backup(dest)` returns `nil` and changes nothing: the machine, and with
it the file system and the list of temporary directories made, is the same, and
so is the installer with its backup root field. -/
theorem backup_absent_is_noop (i : Installer) (w : World) (dest : String) (e : Errno)
    (h : Lstat w (Join i.destDir dest) = .error e) :
    backup i w dest = .ret none i w :=
  backup_of_absent i w dest e h

theorem backup_absent_is_noop_witness :
    Lstat wHome (Join iHome.destDir ".zshrc") = .error .ENOENT
      ∧ backup iHome wHome ".zshrc" = .ret none iHome wHome :=
  ⟨by rfl, backup_absent_is_noop iHome wHome ".zshrc" .ENOENT (by rfl)⟩

/-- C2 (amended): for an entry whose destination does not exist, on paths that
cross no symbolic link. First part: when `Install` returns `nil`, the source
exists and the destination holds a link of the right kind afterwards: a
symbolic link storing exactly `Join(srcDir, src)` for a directory source,
otherwise the source's own entry under a second name (a hard link: the same
inode for a regular file). The source keeps its entry, no other location
changes, the installer is unchanged and no temporary directory is made.
Second part: `Install` does return `nil` when the source exists, the parent
of the destination is a directory, and the system does not refuse the link
(`World.refuse`: a name too long, a directory that may not be written, another
device). -/
theorem Install_absent_destination_links :
    (∀ (i i' : Installer) (w w' : World) (src dest : String) (e : Errno) (ps px : Loc),
      Lstat w (Join i.destDir dest) = .error e →
      resolve w.cwd (Join i.destDir dest) = some px → w.direct px = true →
      resolve w.cwd (Join i.srcDir src) = some ps → w.direct ps = true →
      Install i w src dest = .ret none i' w' →
      ∃ fi, Lstat w (Join i.srcDir src) = .ok fi
        ∧ i' = i
        ∧ Lstat w' (Join i.destDir dest)
            = .ok (if fi.IsDir then .symlink (Join i.srcDir src) else fi)
        ∧ Lstat w' (Join i.srcDir src) = .ok fi
        ∧ (∀ q, q ≠ px → w'.look q = w.look q)
        ∧ w'.temps = w.temps ∧ w'.content = w.content)
    ∧ (∀ (i : Installer) (w : World) (src dest : String) (e : Errno) (fi : Entry)
        (ps px : Loc),
      Lstat w (Join i.destDir dest) = .error e →
      resolve w.cwd (Join i.destDir dest) = some px → w.direct px = true →
      resolve w.cwd (Join i.srcDir src) = some ps → w.direct ps = true →
      Lstat w (Join i.srcDir src) = .ok fi →
      w.look px.dropLast = some .dir →
      w.refuse (linkCall fi (Join i.srcDir src) ps px) = none →
      ∃ w', Install i w src dest = .ret none i w') := by
  constructor
  · intro i i' w w' src dest e ps px habs hpx _ hps _ h
    rw [Install_of_absent i w src dest e habs] at h
    cases hin : install i w src dest with
    | mk r w2 =>
      rw [hin] at h
      cases r with
      | some err => simp at h
      | none =>
        simp only [Run.ret.injEq, true_and] at h
        obtain ⟨hi, hw⟩ := h
        subst hw
        obtain ⟨px', fi, h1, h2, h3, h4, -, -⟩ := install_ok_inv i w w2 src dest hin
        rw [hpx] at h1
        cases h1
        have hpx0 : px ≠ [] := by
          intro h0
          rw [h0, look_root] at h2
          cases h2
        obtain ⟨ps', hps', hls⟩ := (Lstat_ok_iff _ _ _).1 h3
        have hne : ps' ≠ px := by
          intro h0
          rw [h0, h2] at hls
          cases hls
        have hc : w2.cwd = w.cwd := by rw [h4]; rfl
        refine ⟨fi, h3, hi.symm, ?_, ?_, ?_, by rw [h4]; rfl, by rw [h4]; rfl⟩
        · exact (Lstat_ok_iff _ _ _).2 ⟨px, by rw [hc]; exact hpx,
            by rw [h4]; exact look_put_self _ _ _ hpx0⟩
        · exact (Lstat_ok_iff _ _ _).2 ⟨ps', by rw [hc]; exact hps',
            by rw [h4, look_put_ne _ _ _ _ hne]; exact hls⟩
        · intro q hq
          rw [h4]
          exact look_put_ne _ _ _ _ hq
  · intro i w src dest e fi ps px habs hpx _ hps _ hsrc hpar hrf
    have hnone : w.look px = none := (Lstat_error_iff w _).1 ⟨e, habs⟩ px hpx
    refine ⟨w.put px (if fi.IsDir then .symlink (Join i.srcDir src) else fi), ?_⟩
    rw [Install_of_absent i w src dest e habs,
      install_of_absent i w src dest fi px hnone hsrc hpx hpar
        (fun ps' hps' => by rw [hps] at hps'; cases hps'; exact hrf)]

theorem Install_absent_destination_links_witness :
    (∃ fi, Lstat wHome (Join iHome.srcDir "zshrc") = .ok fi
        ∧ iHome = iHome
        ∧ Lstat (Install iHome wHome "zshrc" ".zshrc").world (Join iHome.destDir ".zshrc")
            = .ok (if fi.IsDir then .symlink (Join iHome.srcDir "zshrc") else fi)
        ∧ Lstat (Install iHome wHome "zshrc" ".zshrc").world (Join iHome.srcDir "zshrc") = .ok fi
        ∧ (∀ q, q ≠ ["home", "u", ".zshrc"]
            → (Install iHome wHome "zshrc" ".zshrc").world.look q = wHome.look q)
        ∧ (Install iHome wHome "zshrc" ".zshrc").world.temps = wHome.temps
        ∧ (Install iHome wHome "zshrc" ".zshrc").world.content = wHome.content)
    ∧ (∃ w', Install iHome wHome "vim" ".vim" = .ret none iHome w')
    ∧ (Install iHome wHome "vim" ".vim").world.look ["home", "u", ".vim"]
        = some (.symlink "/src/vim")
    ∧ (Install iHome wHome "zshrc" ".zshrc").world.look ["home", "u", ".zshrc"]
        = some (.file 2) :=
  ⟨Install_absent_destination_links.1 iHome iHome wHome
      (Install iHome wHome "zshrc" ".zshrc").world "zshrc" ".zshrc" .ENOENT
      ["src", "zshrc"] ["home", "u", ".zshrc"] (by rfl) (by rfl) (by rfl) (by rfl) (by rfl)
      (by rfl),
   Install_absent_destination_links.2 iHome wHome "vim" ".vim" .ENOENT .dir
      ["src", "vim"] ["home", "u", ".vim"] (by rfl) (by rfl) (by rfl) (by rfl) (by rfl)
      (by rfl) (by rfl) (by rfl),
   by decide, by decide⟩

/-- C2 (as stated) fails. First, the source `vim` is a directory and nothing
exists at `/home/u/.config/vim`, but `/home/u/.config` does not exist either:
`Install` returns an error and no link exists at the destination afterwards.
Second, on the machine with a second device on `/home/u/mnt`, nothing exists
at `/home/u/mnt/new`, the source file and the parent directory exist, but a
hard link cannot cross devices: `Install` returns an error and makes no link. -/
theorem Install_absent_destination_may_fail :
    (Lstat wHome (Join iHome.destDir ".config/vim") = .error .ENOENT
      ∧ Lstat wHome (Join iHome.srcDir "vim") = .ok .dir
      ∧ (Install iHome wHome "vim" ".config/vim").val?
          = some (some (.installFailed "vim" ".config/vim" (.sys .ENOENT)))
      ∧ (Install iHome wHome "vim" ".config/vim").world.look ["home", "u", ".config", "vim"]
          = none)
    ∧ (Lstat wMount (Join iHome.destDir "mnt/new") = .error .ENOENT
      ∧ Lstat wMount (Join iHome.srcDir "bashrc") = .ok (.file 1)
      ∧ wMount.look ["home", "u", "mnt"] = some .dir
      ∧ (Install iHome wMount "bashrc" "mnt/new").val?
          = some (some (.installFailed "bashrc" "mnt/new" (.sys .EXDEV)))
      ∧ (Install iHome wMount "bashrc" "mnt/new").world.look ["home", "u", "mnt", "new"]
          = none) := by
  refine ⟨⟨by rfl, by rfl, by decide, by decide⟩, by rfl, by rfl, by decide, by decide,
    by decide⟩

/-- C3 (amended): `Install` does not roll anything back. When it returns an
error for an entry at whose destination nothing existed, the machine and the
installer are as before the call. The error comes either from the backup step
or from the link step. From the link step: the machine and the installer are
exactly what the backup step left (a failed link changes nothing, a backup
already made is not undone). From the backup step: nothing has been moved or
removed, the destination still holds its entry and every location holds what
it held, except that directories made on the way (the backup root by
`MkdirTemp`, parents of the backup path by `MkdirAll`) stay behind; with the
backup root set and the directories down to the parent of the backup path
existing, the machine is unchanged. -/
theorem Install_error_leaves_backup_state (i : Installer) (w : World) (src dest : String)
    (r : GoError) (i' : Installer) (w' : World)
    (h : Install i w src dest = .ret (some r) i' w') :
    ((∃ e, Lstat w (Join i.destDir dest) = .error e) → i' = i ∧ w' = w)
    ∧ ((∃ cause, r = .backupFailed dest cause ∧ backup i w dest = .ret (some cause) i' w')
        ∨ (∃ cause, r = .installFailed src dest cause ∧ backup i w dest = .ret none i' w'))
    ∧ (∀ cause, r = .backupFailed dest cause →
        (∃ e0, Lstat w (Join i.destDir dest) = .ok e0
          ∧ Lstat w' (Join i.destDir dest) = .ok e0)
        ∧ (∀ q, w'.look q = w.look q ∨ (w.look q = none ∧ w'.look q = some .dir))
        ∧ w'.content = w.content
        ∧ (i.backupDir ≠ "" → i' = i ∧ w'.temps = w.temps
            ∧ ∀ d, resolve w.cwd (Dir (Join i.backupDir dest)) = some d →
                (∀ q, q <+: d → w.look q = some .dir) → w' = w)) := by
  have hsplit : (∃ cause, r = .backupFailed dest cause
        ∧ backup i w dest = .ret (some cause) i' w')
      ∨ (∃ cause, r = .installFailed src dest cause ∧ backup i w dest = .ret none i' w') := by
    unfold Install at h
    cases hb : backup i w dest with
    | exit w1 => simp [hb] at h
    | ret v i1 w1 =>
      rw [hb] at h
      cases v with
      | some err =>
        simp only [Run.ret.injEq, Option.some.injEq] at h
        obtain ⟨h1, h2, h3⟩ := h
        left
        exact ⟨err, h1.symm, by rw [h2, h3]⟩
      | none =>
        simp only at h
        have hu := install_error_unchanged i1 w1 src dest
        cases hin : install i1 w1 src dest with
        | mk r1 w2 =>
          rw [hin] at h hu
          cases r1 with
          | none => simp at h
          | some err =>
            simp only [Run.ret.injEq, Option.some.injEq] at h
            obtain ⟨h1, h2, h3⟩ := h
            have := hu (by simp)
            simp only at this
            right
            exact ⟨err, h1.symm, by rw [h2, ← h3, this]⟩
  refine ⟨?_, hsplit, ?_⟩
  · rintro ⟨e, habs⟩
    rw [backup_of_absent i w dest e habs] at hsplit
    rcases hsplit with ⟨cause, -, h2⟩ | ⟨cause, -, h2⟩
    · simp at h2
    · simp only [Run.ret.injEq, true_and] at h2
      exact ⟨h2.1.symm, h2.2.symm⟩
  · intro cause hr
    rcases hsplit with ⟨cause', h1, h2⟩ | ⟨cause', h1, -⟩
    · rw [hr] at h1
      cases h1
      obtain ⟨a1, a2, a3, -, a5⟩ := backup_error_anatomy i i' w w' dest cause h2
      exact ⟨a1, a2, a3, a5⟩
    · rw [hr] at h1
      cases h1

theorem Install_error_leaves_backup_state_witness :
    (Install iHome wHome "nope" ".bashrc"
        = .ret (some (.installFailed "nope" ".bashrc" (.sys .ENOENT))) iHomeSet
            (Install iHome wHome "nope" ".bashrc").world
      ∧ ((∃ cause, GoError.installFailed "nope" ".bashrc" (.sys .ENOENT)
              = .backupFailed ".bashrc" cause
            ∧ backup iHome wHome ".bashrc"
              = .ret (some cause) iHomeSet (Install iHome wHome "nope" ".bashrc").world)
        ∨ (∃ cause, GoError.installFailed "nope" ".bashrc" (.sys .ENOENT)
              = .installFailed "nope" ".bashrc" cause
            ∧ backup iHome wHome ".bashrc"
              = .ret none iHomeSet (Install iHome wHome "nope" ".bashrc").world))
      ∧ (Install iHome wHome "nope" ".bashrc").world.look ["home", "u", "backup420", ".bashrc"]
          = some (.file 7))
    ∧ (Install iHome wMount "bashrc" "mnt/rc"
        = .ret (some (.backupFailed "mnt/rc" (.sys .EXDEV))) iHomeSet
            (Install iHome wMount "bashrc" "mnt/rc").world
      ∧ (∃ e0, Lstat wMount (Join iHome.destDir "mnt/rc") = .ok e0
          ∧ Lstat (Install iHome wMount "bashrc" "mnt/rc").world (Join iHome.destDir "mnt/rc")
              = .ok e0)
      ∧ (∀ q, (Install iHome wMount "bashrc" "mnt/rc").world.look q = wMount.look q
          ∨ (wMount.look q = none
            ∧ (Install iHome wMount "bashrc" "mnt/rc").world.look q = some .dir))
      ∧ (Install iHome wMount "bashrc" "mnt/rc").world.look ["home", "u", "backup420", "mnt"]
          = some .dir) :=
  ⟨⟨by rfl,
    (Install_error_leaves_backup_state iHome wHome "nope" ".bashrc"
      (.installFailed "nope" ".bashrc" (.sys .ENOENT)) iHomeSet
      (Install iHome wHome "nope" ".bashrc").world (by rfl)).2.1,
    by decide⟩,
   ⟨by rfl,
    ((Install_error_leaves_backup_state iHome wMount "bashrc" "mnt/rc"
      (.backupFailed "mnt/rc" (.sys .EXDEV)) iHomeSet
      (Install iHome wMount "bashrc" "mnt/rc").world (by rfl)).2.2 _ rfl).1,
    ((Install_error_leaves_backup_state iHome wMount "bashrc" "mnt/rc"
      (.backupFailed "mnt/rc" (.sys .EXDEV)) iHomeSet
      (Install iHome wMount "bashrc" "mnt/rc").world (by rfl)).2.2 _ rfl).2.1,
    by decide⟩⟩

/-- C3 (as stated) fails. First, `/home/u/.bashrc` exists and the source `nope`
does not: `Install` returns an error from the link step, yet a backup directory
has been created and the destination entry has been moved into it. Second, on
the machine with a second device on `/home/u/mnt`, the existing destination
`mnt/rc` cannot be renamed into the backup directory on the first device:
`Install` returns an error from the backup step, the destination is still in
place, but the backup directory and the parent of the backup path have been
created and stay behind. -/
theorem Install_error_not_atomic :
    ((Install iHome wHome "nope" ".bashrc").val?
        = some (some (.installFailed "nope" ".bashrc" (.sys .ENOENT)))
      ∧ wHome.look ["home", "u", ".bashrc"] = some (.file 7)
      ∧ (Install iHome wHome "nope" ".bashrc").world.look ["home", "u", ".bashrc"] = none
      ∧ wHome.look ["home", "u", "backup420"] = none
      ∧ (Install iHome wHome "nope" ".bashrc").world.look ["home", "u", "backup420"]
          = some .dir
      ∧ (Install iHome wHome "nope" ".bashrc").world.fs ≠ wHome.fs)
    ∧ ((Install iHome wMount "bashrc" "mnt/rc").val?
        = some (some (.backupFailed "mnt/rc" (.sys .EXDEV)))
      ∧ (Install iHome wMount "bashrc" "mnt/rc").world.look ["home", "u", "mnt", "rc"]
          = some (.file 8)
      ∧ wMount.look ["home", "u", "backup420"] = none
      ∧ (Install iHome wMount "bashrc" "mnt/rc").world.look ["home", "u", "backup420"]
          = some .dir
      ∧ (Install iHome wMount "bashrc" "mnt/rc").world.look ["home", "u", "backup420", "mnt"]
          = some .dir
      ∧ (Install iHome wMount "bashrc" "mnt/rc").world.fs ≠ wMount.fs) := by
  refine ⟨⟨by decide, by decide, by decide, by decide, by decide, by decide⟩,
    by decide, by decide, by decide, by decide, by decide, by decide⟩

/-- C8 (amended): over every sequence of `Install` calls on one installer, the
backup root field is set at most once. Either the installer is unchanged and
no temporary directory has been made (always so when the field was already
set, and then the process is not terminated either), or the field was unset,
is now a non-empty path, and exactly that one temporary directory has been
made; when the process is terminated the field was unset and no directory has
been made. With the field set, `backupPath` changes nothing and every backup
path is `Join` of that same directory with the destination; for a destination
whose cleaned relative form is not empty and has no `..` element, that path
names a location properly under the location of that directory. -/
theorem backupDir_set_at_most_once (entries : List (String × String)) (i : Installer)
    (w : World) (done : List error) :
    (∀ d b, i.backupDir ≠ "" → resolve w.cwd i.backupDir = some b →
      backupPath i w d = .ret (Join i.backupDir d, none) i w
      ∧ (relParts d ≠ [] → ".." ∉ relParts d →
          resolve w.cwd (Join i.backupDir d) = some (b ++ relParts d)
          ∧ b <+: b ++ relParts d ∧ b.length < (b ++ relParts d).length))
    ∧ (i.backupDir ≠ "" →
        ∃ rs w', mainLoop entries i w done = .ret (done ++ rs) i w' ∧ w'.temps = w.temps)
    ∧ match mainLoop entries i w done with
      | .ret _ i' w' =>
        (i' = i ∧ w'.temps = w.temps)
        ∨ (i.backupDir = "" ∧ i'.backupDir ≠ "" ∧ i' = { i with backupDir := i'.backupDir }
            ∧ w'.temps = i'.backupDir :: w.temps)
      | .exit w' => i.backupDir = "" ∧ w'.temps = w.temps := by
  refine ⟨fun d b hb hbres => ⟨backupPath_set i w d hb, fun hrel hup => ?_⟩, fun hb => ?_,
    mainLoop_inv entries i w done⟩
  · refine ⟨(resolve_backup_path w.cwd i.backupDir d b hbres hrel hup).1,
      List.prefix_append _ _, ?_⟩
    have hr : 0 < (relParts d).length := List.length_pos.2 hrel
    simp only [List.length_append]
    omega
  · obtain ⟨rs, w', h1, -, h3⟩ := mainLoop_set entries i w done hb
    exact ⟨rs, w', h1, h3⟩

theorem backupDir_set_at_most_once_witness :
    (mainLoop [("bashrc", ".bashrc"), ("vim", ".vim"), ("zshrc", ".bashrc")] iHome wHome []).inst?
        = some iHomeSet
      ∧ (mainLoop [("bashrc", ".bashrc"), ("vim", ".vim"), ("zshrc", ".bashrc")]
            iHome wHome []).world.temps = ["/home/u/backup420"]
      ∧ (∃ rs w', mainLoop [("zshrc", ".bashrc")] iHomeSet wHomeOnce []
            = .ret ([] ++ rs) iHomeSet w'
          ∧ w'.temps = wHomeOnce.temps)
      ∧ (backupPath iHomeSet wHomeOnce ".config/vim"
            = .ret (Join iHomeSet.backupDir ".config/vim", none) iHomeSet wHomeOnce
          ∧ (relParts ".config/vim" ≠ [] → ".." ∉ relParts ".config/vim" →
              resolve wHomeOnce.cwd (Join iHomeSet.backupDir ".config/vim")
                = some (["home", "u", "backup420"] ++ relParts ".config/vim")
              ∧ ["home", "u", "backup420"] <+: ["home", "u", "backup420"] ++ relParts ".config/vim"
              ∧ ["home", "u", "backup420"].length
                  < (["home", "u", "backup420"] ++ relParts ".config/vim").length)) :=
  ⟨by decide, by decide,
   (backupDir_set_at_most_once [("zshrc", ".bashrc")] iHomeSet wHomeOnce []).2.1 (by decide),
   (backupDir_set_at_most_once [] iHomeSet wHomeOnce []).1 ".config/vim"
      ["home", "u", "backup420"] (by decide) (by rfl)⟩

/-- C8 (as stated) fails: with the backup root set to `/home/u/backup420`, the
backup path computed for the destination `../x` is `/home/u/x`, which does not
lie under that directory; a later `Install` for that destination returns `nil`
and moves the existing file `/home/x` (inode 9) there, outside the backup
root. -/
theorem later_backup_path_leaves_backup_root :
    iHomeSet.backupDir = "/home/u/backup420"
      ∧ (backupPath iHomeSet wHomeOnce "../x").val? = some ("/home/u/x", none)
      ∧ resolve wHomeOnce.cwd iHomeSet.backupDir = some ["home", "u", "backup420"]
      ∧ resolve wHomeOnce.cwd "/home/u/x" = some ["home", "u", "x"]
      ∧ ¬ (["home", "u", "backup420"] <+: ["home", "u", "x"])
      ∧ wHomeOnce.look ["home", "x"] = some (.file 9)
      ∧ (Install iHomeSet wHomeOnce "zshrc" "../x").val? = some none
      ∧ (Install iHomeSet wHomeOnce "zshrc" "../x").inst? = some iHomeSet
      ∧ (Install iHomeSet wHomeOnce "zshrc" "../x").world.look ["home", "u", "x"]
          = some (.file 9) := by
  refine ⟨by rfl, by decide, by decide, by decide, by decide, by decide, by decide, by decide,
    by decide⟩

/-- C4 (amended): `Install` terminates the process exactly when the destination
exists, the backup root is unset and `os.MkdirTemp` fails (`log.Fatal` in
`backupPath`). Every other failure is returned to the caller: a failure of
`MkdirAll` or of `Rename` in the backup step as a wrapped backup error, with
the machine as `MkdirAll` left it, and a failure of `Lstat`, `Symlink` or
`Link` in the link step as a wrapped install error, with the machine as the
backup left it. The loop of `main` stops only when a call terminates the
process: otherwise each entry of the configuration gets its own call of
`Install`, on the installer and the machine the earlier calls left, whatever
those calls returned, and the result is recorded; with the backup root set the
loop always runs to the end. -/
theorem Install_exits_only_when_MkdirTemp_fails :
    (∀ (i : Installer) (w : World) (src dest : String),
      (Install i w src dest).exited = true
        ↔ ((∃ e0, Lstat w (Join i.destDir dest) = .ok e0) ∧ i.backupDir = ""
            ∧ ∃ e, (MkdirTemp w i.destDir "backup").2 = .error e))
    ∧ (∀ (i i1 : Installer) (w w1 w2 : World) (src dest back : String) (e0 : Entry)
        (e : Errno),
        Lstat w (Join i.destDir dest) = .ok e0 →
        backupPath i w dest = .ret (back, none) i1 w1 →
        (MkdirAll w1 (Dir back) = (w2, some e)
          ∨ (MkdirAll w1 (Dir back) = (w2, none)
              ∧ Rename w2 (Join i.destDir dest) back = .error e)) →
        Install i w src dest = .ret (some (.backupFailed dest (.sys e))) i1 w2)
    ∧ (∀ (i i1 : Installer) (w w1 : World) (src dest : String) (e : Errno),
        backup i w dest = .ret none i1 w1 →
        (Lstat w1 (Join i1.srcDir src) = .error e
          ∨ (∃ fi, Lstat w1 (Join i1.srcDir src) = .ok fi ∧ fi.IsDir = true
              ∧ Symlink w1 (Join i1.srcDir src) (Join i1.destDir dest) = .error e)
          ∨ (∃ fi, Lstat w1 (Join i1.srcDir src) = .ok fi ∧ fi.IsDir = false
              ∧ Link w1 (Join i1.srcDir src) (Join i1.destDir dest) = .error e)) →
        Install i w src dest = .ret (some (.installFailed src dest (.sys e))) i1 w1)
    ∧ (∀ (pre : List (String × String)) (s d : String) (post : List (String × String))
        (i : Installer) (w : World) (done : List error),
        (mainLoop (pre ++ (s, d) :: post) i w done).exited = false →
        ∃ rs i1 w1 r i2 w2, mainLoop pre i w done = .ret (done ++ rs) i1 w1
          ∧ rs.length = pre.length
          ∧ Install i1 w1 s d = .ret r i2 w2
          ∧ mainLoop (pre ++ (s, d) :: post) i w done
              = mainLoop post i2 w2 (done ++ rs ++ [r]))
    ∧ (∀ (entries : List (String × String)) (i : Installer) (w : World) (done : List error),
        (mainLoop entries i w done).exited = false →
        ∃ rs i' w', mainLoop entries i w done = .ret (done ++ rs) i' w'
          ∧ rs.length = entries.length)
    ∧ (∀ (entries : List (String × String)) (i : Installer) (w : World) (done : List error),
        i.backupDir ≠ "" →
        ∃ rs w', mainLoop entries i w done = .ret (done ++ rs) i w'
          ∧ rs.length = entries.length) := by
  refine ⟨fun i w src dest => ?_, ?_, ?_,
    fun pre s d post i w done h => mainLoop_reaches pre s d post i w done h,
    fun entries i w done h => mainLoop_all entries i w done h,
    fun entries i w done hb => ?_⟩
  · rw [Install_exited_eq]
    exact backup_exited_iff i w dest
  · intro i i1 w w1 w2 src dest back e0 e hl hp hfail
    apply Install_backup_failed
    rw [backup_after_path i w dest e0 hl back i1 w1 hp]
    rcases hfail with hm | ⟨hm, hr⟩
    · rw [hm]
    · rw [hm]
      simp only
      rw [hr]
  · intro i i1 w w1 src dest e hbk hfail
    have hin : install i1 w1 src dest = (some (.sys e), w1) := by
      unfold install
      rcases hfail with hl | ⟨fi, hl, hd, hy⟩ | ⟨fi, hl, hd, hy⟩
      · rw [hl]
      · rw [hl]
        simp only [hd, if_true]
        rw [hy]
      · rw [hl]
        simp only [hd, Bool.false_eq_true, if_false]
        rw [hy]
    exact Install_after_backup i i1 w w1 src dest _ w1 hbk hin
  · obtain ⟨rs, w', h1, h2, -⟩ := mainLoop_set entries i w done hb
    exact ⟨rs, w', h1, h2⟩

theorem Install_exits_only_when_MkdirTemp_fails_witness :
    Install iHome wMount "bashrc" "mnt/rc"
        = .ret (some (.backupFailed "mnt/rc" (.sys .EXDEV))) iHomeSet
            (MkdirAll (backupPath iHome wMount "mnt/rc").world
              (Dir "/home/u/backup420/mnt/rc")).1
      ∧ Install iHome wHome "nope" ".zshrc"
        = .ret (some (.installFailed "nope" ".zshrc" (.sys .ENOENT))) iHome wHome
      ∧ (∃ rs i1 w1 r i2 w2,
          mainLoop [("bashrc", "mnt/rc")] iHome wMount [] = .ret ([] ++ rs) i1 w1
          ∧ rs.length = [("bashrc", "mnt/rc")].length
          ∧ Install i1 w1 "zshrc" ".zshrc" = .ret r i2 w2
          ∧ mainLoop ([("bashrc", "mnt/rc")] ++ ("zshrc", ".zshrc") :: []) iHome wMount []
              = mainLoop [] i2 w2 ([] ++ rs ++ [r]))
      ∧ (mainLoop [("bashrc", "mnt/rc"), ("zshrc", ".zshrc")] iHome wMount []).val?
          = some [some (.backupFailed "mnt/rc" (.sys .EXDEV)), none] :=
  ⟨Install_exits_only_when_MkdirTemp_fails.2.1 iHome iHomeSet wMount
      (backupPath iHome wMount "mnt/rc").world
      (MkdirAll (backupPath iHome wMount "mnt/rc").world (Dir "/home/u/backup420/mnt/rc")).1
      "bashrc" "mnt/rc" "/home/u/backup420/mnt/rc" (.file 8) .EXDEV (by rfl) (by rfl)
      (Or.inr ⟨by rfl, by rfl⟩),
   Install_exits_only_when_MkdirTemp_fails.2.2.1 iHome iHome wHome wHome "nope" ".zshrc"
      .ENOENT (by rfl) (Or.inl (by rfl)),
   Install_exits_only_when_MkdirTemp_fails.2.2.2.1 [("bashrc", "mnt/rc")] "zshrc" ".zshrc" []
      iHome wMount [] (by decide),
   by decide⟩

/-- C4 (as stated) fails: the home directory `/nonexistent` does not exist and
the destination `../etc/x` names the existing file `/etc/x`. Creating the
backup root fails, `log.Fatal` terminates the process inside `Install`, which
returns nothing to its caller, and the loop never reaches the second entry,
although that entry installs without error on its own. -/
theorem MkdirTemp_failure_terminates_process :
    Lstat wNoHome (Join iNoHome.destDir "../etc/x") = .ok (.file 5)
      ∧ (MkdirTemp wNoHome iNoHome.destDir "backup").2 = .error .ENOENT
      ∧ (Install iNoHome wNoHome "a" "../etc/x").exited = true
      ∧ (Install iNoHome wNoHome "a" "../etc/x").val? = none
      ∧ (mainLoop [("a", "../etc/x"), ("bashrc", "../etc/bashrc")] iNoHome wNoHome []).exited
          = true
      ∧ (mainLoop [("a", "../etc/x"), ("bashrc", "../etc/bashrc")]
            iNoHome wNoHome []).world.look ["etc", "bashrc"] = none
      ∧ (Install iNoHome wNoHome "bashrc" "../etc/bashrc").val? = some none
      ∧ (Install iNoHome wNoHome "bashrc" "../etc/bashrc").world.look ["etc", "bashrc"]
          = some (.file 2) := by
  refine ⟨by rfl, by rfl, by decide, by decide, by decide, by decide, by decide, by decide⟩

/-- C5 fails on the code: after `Install("bashrc", ".bashrc")` the original
`.bashrc` (inode 7) is stored at the backup path `/home/u/backup420/.bashrc`.
A second backup of the same destination by the same installer returns `nil`,
and the backup path then holds the link made by the first call (inode 1): the
stored original is gone from the file system. -/
theorem backup_overwrites_earlier_backup :
    (Install iHome wHome "bashrc" ".bashrc").inst? = some iHomeSet
      ∧ wHomeOnce.look ["home", "u", "backup420", ".bashrc"] = some (.file 7)
      ∧ Lstat wHomeOnce (Join iHomeSet.destDir ".bashrc") = .ok (.file 1)
      ∧ (backupPath iHomeSet wHomeOnce ".bashrc").val? = some ("/home/u/backup420/.bashrc", none)
      ∧ (backup iHomeSet wHomeOnce ".bashrc").val? = some none
      ∧ (backup iHomeSet wHomeOnce ".bashrc").world.look ["home", "u", "backup420", ".bashrc"]
          = some (.file 1)
      ∧ (backup iHomeSet wHomeOnce ".bashrc").world.fs.all (fun x => x.2 ≠ .file 7) = true
      ∧ (mainLoop [("bashrc", ".bashrc"), ("zshrc", ".bashrc")] iHome wHome []).val?
          = some [none, none]
      ∧ (mainLoop [("bashrc", ".bashrc"), ("zshrc", ".bashrc")]
            iHome wHome []).world.fs.all (fun x => x.2 ≠ .file 7) = true := by
  refine ⟨by decide, by decide, by rfl, by decide, by decide, by decide, by decide, by decide,
    by decide⟩

/-- C10 (as stated) fails. First, two entries with distinct sources and the
same destination `.profile`: both orders return `nil` twice, but the
destination ends as a link to the source installed last, so the final file
systems differ. Second, two entries of which one destination lies under the
other (`.d` and `.d/x`, nothing existing at either): the second entry fails
with "not a directory" after the first has made `.d` a hard link to a file,
and with "no such file" before, so the results differ. -/
theorem Install_order_matters :
    ((mainLoop [("bashrc", ".profile"), ("zshrc", ".profile")] iHomeSet wHome []).val?
        = some [none, none]
      ∧ (mainLoop [("zshrc", ".profile"), ("bashrc", ".profile")] iHomeSet wHome []).val?
        = some [none, none]
      ∧ (mainLoop [("bashrc", ".profile"), ("zshrc", ".profile")]
            iHomeSet wHome []).world.look ["home", "u", ".profile"] = some (.file 2)
      ∧ (mainLoop [("zshrc", ".profile"), ("bashrc", ".profile")]
            iHomeSet wHome []).world.look ["home", "u", ".profile"] = some (.file 1))
    ∧ ((mainLoop [("bashrc", ".d"), ("zshrc", ".d/x")] iHomeSet wHome []).val?
        = some [none, some (.installFailed "zshrc" ".d/x" (.sys .ENOTDIR))]
      ∧ (mainLoop [("zshrc", ".d/x"), ("bashrc", ".d")] iHomeSet wHome []).val?
        = some [some (.installFailed "zshrc" ".d/x" (.sys .ENOENT)), none]) := by
  refine ⟨⟨by decide, by decide, by decide, by decide⟩, by decide, by decide⟩

/-- C9 (amended): for a destination whose cleaned relative form is not empty
and has no `..` element (`relParts dest`), when an entry exists at
`Join(destDir, dest)` and `backup` returns `nil`: the backup path
`Join(backupDir, dest)` names the location of the backup root followed by the
cleaned elements of `dest`, so the backup root is a proper prefix of it and the
relative path is preserved beneath it; the entry that was at the destination
is found there, and with it, when it is a directory, everything beneath it. -/
theorem backup_moves_under_backup_root (i i' : Installer) (w w' : World) (dest : String)
    (e0 : Entry)
    (hl : Lstat w (Join i.destDir dest) = .ok e0)
    (h : backup i w dest = .ret none i' w')
    (hrel : relParts dest ≠ []) (hup : ".." ∉ relParts dest) :
    ∃ px b,
      resolve w.cwd (Join i.destDir dest) = some px
      ∧ resolve w'.cwd i'.backupDir = some b
      ∧ resolve w'.cwd (Join i'.backupDir dest) = some (b ++ relParts dest)
      ∧ b <+: b ++ relParts dest ∧ b.length < (b ++ relParts dest).length
      ∧ Lstat w' (Join i'.backupDir dest) = .ok e0
      ∧ (e0 = .dir → ∀ s, w'.look (b ++ relParts dest ++ s) = w.look (px ++ s)) := by
  obtain ⟨px, b, h1, h2, h3, h4, h5, h6⟩ := backup_ok_found i i' w w' dest e0 hl h hrel hup
  refine ⟨px, b, h1, by rw [h2]; exact h3, by rw [h2]; exact h4, List.prefix_append _ _, ?_,
    ?_, h6⟩
  · have hr : 0 < (relParts dest).length := List.length_pos.2 hrel
    simp only [List.length_append]
    omega
  · exact (Lstat_ok_iff _ _ _).2 ⟨_, by rw [h2]; exact h4, h5⟩

theorem backup_moves_under_backup_root_witness :
    ∃ px b,
      resolve wHome.cwd (Join iHome.destDir "./.bashrc") = some px
      ∧ resolve (backup iHome wHome "./.bashrc").world.cwd iHomeSet.backupDir = some b
      ∧ resolve (backup iHome wHome "./.bashrc").world.cwd (Join iHomeSet.backupDir "./.bashrc")
          = some (b ++ relParts "./.bashrc")
      ∧ b <+: b ++ relParts "./.bashrc" ∧ b.length < (b ++ relParts "./.bashrc").length
      ∧ Lstat (backup iHome wHome "./.bashrc").world (Join iHomeSet.backupDir "./.bashrc")
          = .ok (.file 7)
      ∧ (Entry.file 7 = .dir → ∀ s, (backup iHome wHome "./.bashrc").world.look
            (b ++ relParts "./.bashrc" ++ s) = wHome.look (px ++ s)) :=
  backup_moves_under_backup_root iHome iHomeSet wHome (backup iHome wHome "./.bashrc").world
    "./.bashrc" (.file 7) (by rfl) (by rfl) (by decide) (by decide)

/-- C9 (as stated) fails for a destination with a `..` element: `../x` names
the existing file `/home/x`; `backup` returns `nil` with the backup root
`/home/u/backup420`, but the backup path `Join(backupDir, "../x")` is
`/home/u/x`, and that is where the entry has been moved: not under the backup
root, which stays empty. -/
theorem backup_escapes_backup_root :
    Lstat wHome (Join iHome.destDir "../x") = .ok (.file 9)
      ∧ (backup iHome wHome "../x").val? = some none
      ∧ (backup iHome wHome "../x").inst? = some iHomeSet
      ∧ Join iHomeSet.backupDir "../x" = "/home/u/x"
      ∧ (backup iHome wHome "../x").world.look ["home", "u", "x"] = some (.file 9)
      ∧ (backup iHome wHome "../x").world.look ["home", "x"] = none
      ∧ resolve [] iHomeSet.backupDir = some ["home", "u", "backup420"]
      ∧ ¬ (["home", "u", "backup420"] <+: ["home", "u", "x"])
      ∧ (backup iHome wHome "../x").world.fs.all
          (fun x => !(List.isPrefixOf ["home", "u", "backup420"] x.1) || x.1 == ["home", "u", "backup420"])
          = true := by
  refine ⟨by rfl, by decide, by decide, by decide, by decide, by decide, by decide, by decide,
    by decide⟩

/-- C1 (amended): for an entry whose destination exists and whose destination
string, cleaned as a relative path, is not empty and has no `..` element: when
`Install(src, dest)` returns `nil`, the tree that was at the destination is
found unchanged at `Join(backupDir, dest)` for the installer's backup root
after the call (the same entry there, the same entries beneath it, file
contents untouched), and the destination path now holds the new link to
`Join(srcDir, src)`: a symbolic link storing that path when the source is a
directory, otherwise the source's own entry (same inode). -/
theorem Install_backs_up_then_links (i i' : Installer) (w w' : World) (src dest : String)
    (e0 : Entry)
    (hl : Lstat w (Join i.destDir dest) = .ok e0)
    (h : Install i w src dest = .ret none i' w')
    (hrel : relParts dest ≠ []) (hup : ".." ∉ relParts dest) :
    ∃ px bp fi,
      resolve w.cwd (Join i.destDir dest) = some px
      ∧ resolve w'.cwd (Join i'.backupDir dest) = some bp
      ∧ Lstat w' (Join i'.backupDir dest) = .ok e0
      ∧ (∀ s, w'.look (bp ++ s) = w.look (px ++ s))
      ∧ w'.content = w.content
      ∧ Lstat w' (Join i.srcDir src) = .ok fi
      ∧ Lstat w' (Join i.destDir dest)
          = .ok (if fi.IsDir then .symlink (Join i.srcDir src) else fi) := by
  obtain ⟨px, b, fi, a1, a2, a3, a4, a5, a6, a7, a8, a9, a10, a11, a12, a13, a14, a15, a16,
    a17, a18⟩ := Install_ok_anatomy i i' w w' src dest e0 hl h hrel hup
  refine ⟨px, b ++ relParts dest, fi, a1, by rw [a12]; exact a5, ?_, a8, a14, a9, ?_⟩
  · refine (Lstat_ok_iff _ _ _).2 ⟨_, by rw [a12]; exact a5, ?_⟩
    have := a8 []
    simp only [List.append_nil] at this
    rw [this]
    exact a2
  · exact (Lstat_ok_iff _ _ _).2 ⟨px, by rw [a12]; exact a1, a10⟩

theorem Install_backs_up_then_links_witness :
    ∃ px bp fi,
      resolve wHome.cwd (Join iHome.destDir ".bashrc") = some px
      ∧ resolve wHomeOnce.cwd (Join iHomeSet.backupDir ".bashrc") = some bp
      ∧ Lstat wHomeOnce (Join iHomeSet.backupDir ".bashrc") = .ok (.file 7)
      ∧ (∀ s, wHomeOnce.look (bp ++ s) = wHome.look (px ++ s))
      ∧ wHomeOnce.content = wHome.content
      ∧ Lstat wHomeOnce (Join iHome.srcDir "bashrc") = .ok fi
      ∧ Lstat wHomeOnce (Join iHome.destDir ".bashrc")
          = .ok (if fi.IsDir then .symlink (Join iHome.srcDir "bashrc") else fi) :=
  Install_backs_up_then_links iHome iHomeSet wHome wHomeOnce "bashrc" ".bashrc" (.file 7)
    (by rfl) (by rfl) (by decide) (by decide)

/-- C1 (as stated) fails. First, `Install` may return an error after the backup:
with the source `nope` missing, `/home/u/.bashrc` has been moved away and no
link exists at the destination. Second, for the destination `../../home/u`,
which names the home directory itself, `Install` returns `nil`, but the
directory found at `Join(backupDir, dest)` (`/home/home/u`) is not the tree
that was at the destination: it now contains the backup directory. -/
theorem Install_existing_destination_may_fail :
    (Lstat wHome (Join iHome.destDir ".bashrc") = .ok (.file 7)
      ∧ (Install iHome wHome "nope" ".bashrc").val?
          = some (some (.installFailed "nope" ".bashrc" (.sys .ENOENT)))
      ∧ (Install iHome wHome "nope" ".bashrc").world.look ["home", "u", ".bashrc"] = none)
    ∧ (Lstat wHome (Join iHome.destDir "../../home/u") = .ok .dir
      ∧ (Install iHome wHome "bashrc" "../../home/u").val? = some none
      ∧ (Install iHome wHome "bashrc" "../../home/u").inst? = some iHomeSet
      ∧ Join iHomeSet.backupDir "../../home/u" = "/home/home/u"
      ∧ wHome.look ["home", "u", "backup420"] = none
      ∧ (Install iHome wHome "bashrc" "../../home/u").world.look
          ["home", "home", "u", "backup420"] = some .dir) := by
  refine ⟨⟨by rfl, by decide, by decide⟩, by rfl, by decide, by decide, by decide, by decide,
    by decide⟩

/-- C6 (amended): for an entry whose destination exists and whose destination
string, cleaned as a relative path, is not empty and has no `..` element: when
a first run (fresh installer, backup root unset) and then a second run (another
fresh installer) both return `nil` from `Install(src, dest)`, the two backup
roots are different directories, the link made by the first run is found in
the second run's backup directory, the destination holds a new link, and the
tree that was at the destination at the start is still found unchanged under
the first run's backup directory. -/
theorem reinstall_keeps_first_backup (i i1 i2 : Installer) (w w1 w2 : World)
    (src dest : String) (e0 : Entry) (hb : i.backupDir = "")
    (hl : Lstat w (Join i.destDir dest) = .ok e0)
    (h1 : Install i w src dest = .ret none i1 w1)
    (h2 : Install i w1 src dest = .ret none i2 w2)
    (hrel : relParts dest ≠ []) (hup : ".." ∉ relParts dest) :
    ∃ px b1 b2 fi1 fi2,
      resolve w.cwd (Join i.destDir dest) = some px
      ∧ resolve w2.cwd i1.backupDir = some b1 ∧ resolve w2.cwd i2.backupDir = some b2
      ∧ b1 ≠ b2 ∧ i1.backupDir ≠ i2.backupDir
      ∧ Lstat w1 (Join i.destDir dest)
          = .ok (if fi1.IsDir then .symlink (Join i.srcDir src) else fi1)
      ∧ Lstat w2 (Join i2.backupDir dest)
          = .ok (if fi1.IsDir then .symlink (Join i.srcDir src) else fi1)
      ∧ Lstat w2 (Join i.destDir dest)
          = .ok (if fi2.IsDir then .symlink (Join i.srcDir src) else fi2)
      ∧ Lstat w2 (Join i1.backupDir dest) = .ok e0
      ∧ (∀ s, w2.look (b1 ++ relParts dest ++ s) = w.look (px ++ s))
      ∧ w2.content = w.content := by
  obtain ⟨px, b1, b2, fi1, fi2, r1, r2, r3, r4, r5, r6, r7, r8, r9, r10, r11, hcwd1, hpx0⟩ :=
    reinstall_anatomy i i1 i2 w w1 w2 src dest e0 hb hl h1 h2 hrel hup
  have hj1' := (resolve_backup_path w.cwd i1.backupDir dest b1 r2 hrel hup).1
  have hj2' := (resolve_backup_path w.cwd i2.backupDir dest b2 r3 hrel hup).1
  refine ⟨px, b1, b2, fi1, fi2, r1, by rw [r10]; exact r2, by rw [r10]; exact r3, r4, ?_, ?_,
    ?_, ?_, ?_, r6, r11⟩
  · intro h0
    rw [h0, r3] at r2
    exact r4 (Option.some.inj r2).symm
  · exact (Lstat_ok_iff _ _ _).2 ⟨px, by rw [hcwd1]; exact r1, r5⟩
  · refine (Lstat_ok_iff _ _ _).2 ⟨_, by rw [r10]; exact hj2', ?_⟩
    have := r7 []
    simp only [List.append_nil] at this
    rw [this]
    exact r5
  · exact (Lstat_ok_iff _ _ _).2 ⟨px, by rw [r10]; exact r1, r8⟩
  · refine (Lstat_ok_iff _ _ _).2 ⟨_, by rw [r10]; exact hj1', ?_⟩
    have := r6 []
    simp only [List.append_nil] at this
    rw [this]
    exact hpx0

theorem reinstall_keeps_first_backup_witness :
    ∃ px b1 b2 fi1 fi2,
      resolve wHome.cwd (Join iHome.destDir ".bashrc") = some px
      ∧ resolve wHomeTwice.cwd iHomeSet.backupDir = some b1
      ∧ resolve wHomeTwice.cwd iHomeSet2.backupDir = some b2
      ∧ b1 ≠ b2 ∧ iHomeSet.backupDir ≠ iHomeSet2.backupDir
      ∧ Lstat wHomeOnce (Join iHome.destDir ".bashrc")
          = .ok (if fi1.IsDir then .symlink (Join iHome.srcDir "bashrc") else fi1)
      ∧ Lstat wHomeTwice (Join iHomeSet2.backupDir ".bashrc")
          = .ok (if fi1.IsDir then .symlink (Join iHome.srcDir "bashrc") else fi1)
      ∧ Lstat wHomeTwice (Join iHome.destDir ".bashrc")
          = .ok (if fi2.IsDir then .symlink (Join iHome.srcDir "bashrc") else fi2)
      ∧ Lstat wHomeTwice (Join iHomeSet.backupDir ".bashrc") = .ok (.file 7)
      ∧ (∀ s, wHomeTwice.look (b1 ++ relParts ".bashrc" ++ s) = wHome.look (px ++ s))
      ∧ wHomeTwice.content = wHome.content :=
  reinstall_keeps_first_backup iHome iHomeSet iHomeSet2 wHome wHomeOnce wHomeTwice
    "bashrc" ".bashrc" (.file 7) (by rfl) (by rfl) (by rfl) (by rfl) (by decide) (by decide)

/-- C6 (as stated) fails. First, the runs may fail: with the source `nope`
missing, the first run moves `/home/u/.bashrc` into its backup directory and
makes no link, and the second run, finding nothing at the destination, makes
no backup directory and moves nothing. Second, for the destination `../x`,
which names the existing file `/home/x` (inode 9), both runs return `nil` and
the two backup roots differ, but both backup paths are `/home/u/x`, so the
second run replaces the original stored there by the first run: after it no
entry of the file system is the original file. -/
theorem reinstall_loses_escaped_backup :
    (Lstat wHome (Join iHome.destDir ".bashrc") = .ok (.file 7)
      ∧ (Install iHome wHome "nope" ".bashrc").val?
          = some (some (.installFailed "nope" ".bashrc" (.sys .ENOENT)))
      ∧ (Install iHome wHome "nope" ".bashrc").world.look ["home", "u", ".bashrc"] = none
      ∧ (Install iHome (Install iHome wHome "nope" ".bashrc").world "nope" ".bashrc").inst?
          = some iHome
      ∧ (Install iHome (Install iHome wHome "nope" ".bashrc").world "nope" ".bashrc").world.temps
          = ["/home/u/backup420"])
    ∧ (Lstat wHome (Join iHome.destDir "../x") = .ok (.file 9)
      ∧ (Install iHome wHome "bashrc" "../x").val? = some none
      ∧ (Install iHome wHome "bashrc" "../x").inst? = some iHomeSet
      ∧ (Install iHome wHome "bashrc" "../x").world.look ["home", "u", "x"] = some (.file 9)
      ∧ (Install iHome (Install iHome wHome "bashrc" "../x").world "bashrc" "../x").val?
          = some none
      ∧ (Install iHome (Install iHome wHome "bashrc" "../x").world "bashrc" "../x").inst?
          = some iHomeSet2
      ∧ Join iHomeSet.backupDir "../x" = "/home/u/x"
      ∧ Join iHomeSet2.backupDir "../x" = "/home/u/x"
      ∧ (Install iHome (Install iHome wHome "bashrc" "../x").world "bashrc" "../x").world.fs.all
          (fun x => x.2 ≠ .file 9) = true) := by
  refine ⟨⟨by rfl, by decide, by decide, by decide, by decide⟩, by rfl, by decide, by decide,
    by decide, by decide, by decide, by decide, by decide, by decide⟩

/-- C10 (amended): two entries whose paths do not overlap can be installed in
either order: both orders give the same two results, leave the same installer
and yield file systems with the same entry at every location. All paths are
taken to cross no symbolic link (`World.direct`). First part, for any
installer: nothing exists at either destination, neither destination lies at
or under the other, and neither source lies at or under the other entry's
destination. Second part, when some destination may exist: the backup root is
at hand (the field is set, or `os.MkdirTemp` succeeds) and the directories
above it exist; the destinations have no `..` and neither lies at or under the
other; no destination lies at, under or above the backup root; and neither
source lies at or under the other entry's destination or the backup root. The
backup directory itself and the parents of the backup paths may exist or not. -/
theorem Install_order_independent_when_disjoint :
    (∀ (i : Installer) (w : World) (s1 d1 s2 d2 : String) (e1 e2 : Errno) (px1 px2 : Loc),
      Lstat w (Join i.destDir d1) = .error e1 →
      Lstat w (Join i.destDir d2) = .error e2 →
      resolve w.cwd (Join i.destDir d1) = some px1 →
      resolve w.cwd (Join i.destDir d2) = some px2 →
      (¬ px1 <+: px2 ∧ ¬ px2 <+: px1) →
      (∀ q, resolve w.cwd (Join i.srcDir s1) = some q → ¬ px2 <+: q ∧ w.direct q = true) →
      (∀ q, resolve w.cwd (Join i.srcDir s2) = some q → ¬ px1 <+: q ∧ w.direct q = true) →
      w.direct px1 = true → w.direct px2 = true →
      ∃ r1 r2 wa wb,
        mainLoop [(s1, d1), (s2, d2)] i w [] = .ret [r1, r2] i wa
        ∧ mainLoop [(s2, d2), (s1, d1)] i w [] = .ret [r2, r1] i wb
        ∧ (∀ p, wa.look p = wb.look p)
        ∧ wa.cwd = wb.cwd ∧ wa.temps = wb.temps ∧ wa.content = wb.content)
    ∧ (∀ (i : Installer) (w : World) (s1 d1 s2 d2 bk : String) (P b : Loc),
      (if i.backupDir = "" then (MkdirTemp w i.destDir "backup").2 = .ok bk
        else i.backupDir = bk) →
      resolve w.cwd i.destDir = some P → resolve w.cwd bk = some b →
      relParts d1 ≠ [] → ".." ∉ relParts d1 → relParts d2 ≠ [] → ".." ∉ relParts d2 →
      (∀ q, q <+: b → q ≠ b → w.look q = some .dir) →
      (¬ relParts d1 <+: relParts d2 ∧ ¬ relParts d2 <+: relParts d1) →
      (¬ b <+: P ++ relParts d1 ∧ ¬ P ++ relParts d1 <+: b) →
      (¬ b <+: P ++ relParts d2 ∧ ¬ P ++ relParts d2 <+: b) →
      (∀ q, resolve w.cwd (Join i.srcDir s1) = some q
        → ¬ P ++ relParts d2 <+: q ∧ ¬ b <+: q ∧ w.direct q = true) →
      (∀ q, resolve w.cwd (Join i.srcDir s2) = some q
        → ¬ P ++ relParts d1 <+: q ∧ ¬ b <+: q ∧ w.direct q = true) →
      w.direct (P ++ relParts d1) = true → w.direct (P ++ relParts d2) = true →
      w.direct (b ++ relParts d1) = true → w.direct (b ++ relParts d2) = true →
      ∃ r1 r2 i' wa wb,
        mainLoop [(s1, d1), (s2, d2)] i w [] = .ret [r1, r2] i' wa
        ∧ mainLoop [(s2, d2), (s1, d1)] i w [] = .ret [r2, r1] i' wb
        ∧ (∀ p, wa.look p = wb.look p)
        ∧ wa.cwd = wb.cwd ∧ wa.temps = wb.temps ∧ wa.content = wb.content) := by
  constructor
  · intro i w s1 d1 s2 d2 e1 e2 px1 px2 habs1 habs2 hpx1 hpx2 hxx hs1 hs2 _ _
    apply Install_commute_absent i w s1 d1 s2 d2 e1 e2 habs1 habs2
    · rw [hpx1, hpx2]
      exact fun h0 => hxx.1 (Option.some.inj h0 ▸ List.prefix_refl _)
    · intro h0
      rw [hpx2] at h0
      exact (hs1 _ h0).1 (List.prefix_refl _)
    · intro h0
      rw [hpx1] at h0
      exact (hs2 _ h0).1 (List.prefix_refl _)
    · rw [hpx1, hpx2, Option.map_some']
      exact fun h0 => hxx.2 (Option.some.inj h0 ▸ List.dropLast_prefix _)
    · rw [hpx1, hpx2, Option.map_some']
      exact fun h0 => hxx.1 (Option.some.inj h0 ▸ List.dropLast_prefix _)
  · intro i w s1 d1 s2 d2 bk P b hroot hP hbres hrel1 hup1 hrel2 hup2 hanc hrr hb1 hb2 hs1 hs2
      _ _ _ _
    exact Install_commute_rooted i w s1 d1 s2 d2 bk P b hroot hP hbres hrel1 hup1 hrel2 hup2
      hanc hrr hb1 hb2 (fun q hq => ⟨(hs1 q hq).1, (hs1 q hq).2.1⟩)
      (fun q hq => ⟨(hs2 q hq).1, (hs2 q hq).2.1⟩)

theorem Install_order_independent_when_disjoint_witness :
    (∃ r1 r2 wa wb,
      mainLoop [("vim", ".vim"), ("nope", ".zshrc")] iHome wHome [] = .ret [r1, r2] iHome wa
      ∧ mainLoop [("nope", ".zshrc"), ("vim", ".vim")] iHome wHome [] = .ret [r2, r1] iHome wb
      ∧ (∀ p, wa.look p = wb.look p)
      ∧ wa.cwd = wb.cwd ∧ wa.temps = wb.temps ∧ wa.content = wb.content)
    ∧ (∃ r1 r2 i' wa wb,
      mainLoop [("bashrc", ".bashrc"), ("zshrc", ".zshrc")] iHome wTwo []
          = .ret [r1, r2] i' wa
      ∧ mainLoop [("zshrc", ".zshrc"), ("bashrc", ".bashrc")] iHome wTwo []
          = .ret [r2, r1] i' wb
      ∧ (∀ p, wa.look p = wb.look p)
      ∧ wa.cwd = wb.cwd ∧ wa.temps = wb.temps ∧ wa.content = wb.content)
    ∧ (∃ r1 r2 i' wa wb,
      mainLoop [("bashrc", ".bashrc"), ("zshrc", "mnt/rc")] iHomeSet wMount []
          = .ret [r1, r2] i' wa
      ∧ mainLoop [("zshrc", "mnt/rc"), ("bashrc", ".bashrc")] iHomeSet wMount []
          = .ret [r2, r1] i' wb
      ∧ (∀ p, wa.look p = wb.look p)
      ∧ wa.cwd = wb.cwd ∧ wa.temps = wb.temps ∧ wa.content = wb.content)
    ∧ (mainLoop [("bashrc", ".bashrc"), ("zshrc", ".zshrc")] iHome wTwo []).val?
        = some [none, none]
    ∧ (mainLoop [("bashrc", ".bashrc"), ("zshrc", ".zshrc")] iHome wTwo []).world.look
          ["home", "u", "backup420", ".zshrc"] = some (.file 8)
    ∧ (mainLoop [("bashrc", ".bashrc"), ("zshrc", "mnt/rc")] iHomeSet wMount []).val?
        = some [none, some (.backupFailed "mnt/rc" (.sys .EXDEV))]
    ∧ wMount.look ["home", "u", "backup420"] = none :=
  ⟨Install_order_independent_when_disjoint.1 iHome wHome "vim" ".vim" "nope" ".zshrc"
      .ENOENT .ENOENT ["home", "u", ".vim"] ["home", "u", ".zshrc"] (by rfl) (by rfl) (by rfl)
      (by rfl) (by decide)
      (fun q hq => by
        have h : resolve wHome.cwd (Join iHome.srcDir "vim") = some ["src", "vim"] := by decide
        rw [h] at hq
        cases hq
        decide)
      (fun q hq => by
        have h : resolve wHome.cwd (Join iHome.srcDir "nope") = some ["src", "nope"] := by decide
        rw [h] at hq
        cases hq
        decide)
      (by rfl) (by rfl),
   Install_order_independent_when_disjoint.2 iHome wTwo "bashrc" ".bashrc" "zshrc" ".zshrc"
      "/home/u/backup420" ["home", "u"] ["home", "u", "backup420"]
      (by rfl) (by rfl) (by rfl) (by decide) (by decide) (by decide) (by decide)
      (fun q hq hne => (by decide : ∀ q ∈ List.inits ["home", "u", "backup420"],
        q ≠ ["home", "u", "backup420"] → wTwo.look q = some .dir) q
          ((List.mem_inits _ _).2 hq) hne)
      (by decide) (by decide) (by decide)
      (fun q hq => by
        have h : resolve wTwo.cwd (Join iHome.srcDir "bashrc") = some ["src", "bashrc"] := by
          decide
        rw [h] at hq
        cases hq
        decide)
      (fun q hq => by
        have h : resolve wTwo.cwd (Join iHome.srcDir "zshrc") = some ["src", "zshrc"] := by
          decide
        rw [h] at hq
        cases hq
        decide)
      (by rfl) (by rfl) (by rfl) (by rfl),
   Install_order_independent_when_disjoint.2 iHomeSet wMount "bashrc" ".bashrc" "zshrc"
      "mnt/rc" "/home/u/backup420" ["home", "u"] ["home", "u", "backup420"]
      (by rfl) (by rfl) (by rfl) (by decide) (by decide) (by decide) (by decide)
      (fun q hq hne => (by decide : ∀ q ∈ List.inits ["home", "u", "backup420"],
        q ≠ ["home", "u", "backup420"] → wMount.look q = some .dir) q
          ((List.mem_inits _ _).2 hq) hne)
      (by decide) (by decide) (by decide)
      (fun q hq => by
        have h : resolve wMount.cwd (Join iHomeSet.srcDir "bashrc") = some ["src", "bashrc"] := by
          decide
        rw [h] at hq
        cases hq
        decide)
      (fun q hq => by
        have h : resolve wMount.cwd (Join iHomeSet.srcDir "zshrc") = some ["src", "zshrc"] := by
          decide
        rw [h] at hq
        cases hq
        decide)
      (by rfl) (by rfl) (by rfl) (by rfl),
   by decide, by decide, by decide, by decide⟩

end Dotfiles
